import Mathlib

/-!
Verification development for the collaboration-graph core of the
movie-serendipity repository (`movie_connections.py`): the graph builder
`load_graph_data`, the breadth-first multi-shortest-path search
`find_shortest_paths`, and the textual renderer `describe_connection`.

Python dictionaries are modelled as association lists consumed through
`List.lookup` (first binding wins), Python tuples/lists as `List`, and the
graph node pairs `("person", id)` / `("movie", id)` as `Kind × Nat`.
Python's `sorted` is modelled with `List.insertionSort` (a stable sort, like
Python's); hash-set iteration order is modelled as insertion order.  The BFS
`while` loop is modelled with an explicit fuel parameter together with a
canonical fuel `bfsFuel` that is proved large enough for the loop to reach
its exit condition.
-/

set_option maxHeartbeats 1000000

namespace MovieConnections

/-- The two node kinds of the bipartite graph: the Python code uses the
string tags `"person"` and `"movie"`. -/
inductive Kind where
  | person : Kind
  | movie : Kind
deriving DecidableEq, Repr

/-- A graph node `(kind, id)`, e.g. `("person", 17)` in the Python code. -/
abbrev Node := Kind × Nat

/-- An adjacency mapping `Dict[int, Tuple[int, ...]]`, modelled as an
association list. -/
abbrev AdjMap := List (Nat × List Nat)

/-- `d.get(k, ())`: dictionary lookup with the empty tuple as default. -/
def dictGet (m : AdjMap) (k : Nat) : List Nat :=
  (m.lookup k).getD []

/-- The `visited_depth` dictionary `{"person": {...}, "movie": {...}}`:
one integer-keyed bucket per node kind. -/
structure Visited where
  person : List (Nat × Nat)
  movie : List (Nat × Nat)
deriving Repr

/-- `visited_depth[kind].get(id)`. -/
def vget (v : Visited) (n : Node) : Option Nat :=
  match n.1 with
  | Kind.person => v.person.lookup n.2
  | Kind.movie => v.movie.lookup n.2

/-- `visited_depth[kind][id] = depth` (new binding shadows any older one). -/
def vset (v : Visited) (n : Node) (d : Nat) : Visited :=
  match n.1 with
  | Kind.person => { v with person := (n.2, d) :: v.person }
  | Kind.movie => { v with movie := (n.2, d) :: v.movie }

/-- Neighbour generation of `find_shortest_paths` (source lines 209-216):
person nodes step to the movies of `person_to_movies`, movie nodes step to
the people of `movie_to_people`. -/
def neighbours (ptm mtp : AdjMap) (n : Node) : List Node :=
  match n.1 with
  | Kind.person => (dictGet ptm n.2).map (fun movie_id => (Kind.movie, movie_id))
  | Kind.movie => (dictGet mtp n.2).map (fun person_id => (Kind.person, person_id))

/-- A queue entry: the dequeued node together with the path leading to it. -/
abbrev Entry := Node × List Node

/-- The inner `for neighbour in neighbours` loop (source lines 218-227):
skip neighbours already on the path, skip neighbours recorded at a strictly
smaller depth, otherwise record the depth and enqueue. -/
def expand (path : List Node) : List Node → Visited → List Entry → Visited × List Entry
  | [], v, q => (v, q)
  | nb :: rest, v, q =>
    if nb ∈ path then
      expand path rest v q
    else
      match vget v nb with
      | some previous =>
        if previous < path.length then
          expand path rest v q
        else
          expand path rest (vset v nb path.length) (q ++ [(nb, path ++ [nb])])
      | none =>
        expand path rest (vset v nb path.length) (q ++ [(nb, path ++ [nb])])

/-- The mutable state of the BFS `while` loop.  The `popped` field is an
instrumentation accumulator recording every dequeued entry in order; it is
written but never read by the algorithm, and only `solutions` is returned. -/
structure BfsState where
  queue : List Entry
  visited : Visited
  solutions : List (List Node)
  shortest : Option Nat
  popped : List Entry
deriving Repr

/-- Result of one loop iteration: either the loop exits (`done`, via an
empty queue or one of the two `break` statements) or continues (`next`). -/
inductive StepResult where
  | done : BfsState → StepResult
  | next : BfsState → StepResult
deriving Repr

/-- The body of one loop iteration after the dequeue and the
`len(path) > shortest` break check (source lines 200-227): record a solution
when the goal is reached on a non-trivial path (breaking once `limit`
solutions exist), otherwise expand the neighbours. -/
def bfsAfterPop (ptm mtp : AdjMap) (goal : Node) (limit : Int)
    (node : Node) (path : List Node) (s1 : BfsState) : StepResult :=
  if node = goal ∧ 1 < path.length then
    let sh := s1.shortest.getD path.length
    let sols := s1.solutions ++ [path]
    if limit ≤ (sols.length : Int) then
      StepResult.done { s1 with solutions := sols, shortest := some sh }
    else
      StepResult.next { s1 with solutions := sols, shortest := some sh }
  else
    let vq := expand path (neighbours ptm mtp node) s1.visited s1.queue
    StepResult.next { s1 with visited := vq.1, queue := vq.2 }

/-- One iteration of the BFS `while queue:` loop (source lines 195-227):
dequeue, break when the dequeued path is already longer than the recorded
shortest length, otherwise process the dequeued node. -/
def bfsStep (ptm mtp : AdjMap) (goal : Node) (limit : Int) (s : BfsState) : StepResult :=
  match s.queue with
  | [] => StepResult.done s
  | (node, path) :: rest =>
    let s1 : BfsState := { s with queue := rest, popped := s.popped ++ [(node, path)] }
    match s1.shortest with
    | some sh =>
      if sh < path.length then StepResult.done s1
      else bfsAfterPop ptm mtp goal limit node path s1
    | none => bfsAfterPop ptm mtp goal limit node path s1

/-- The fuelled BFS loop: runs `bfsStep` until it exits or the fuel is
spent.  `bfsFuel` below provides enough fuel for the exit to be reached. -/
def bfsLoop (ptm mtp : AdjMap) (goal : Node) (limit : Int) : Nat → BfsState → BfsState
  | 0, s => s
  | fuel + 1, s =>
    match bfsStep ptm mtp goal limit s with
    | StepResult.done s1 => s1
    | StepResult.next s1 => bfsLoop ptm mtp goal limit fuel s1

/-- Every node mentioned by the two adjacency mappings, plus the start
person: the finite universe in which the search moves. -/
def nodeList (ptm mtp : AdjMap) (start_person : Nat) : List Node :=
  (Kind.person, start_person) ::
    (ptm.map fun b => ((Kind.person, b.1) : Node)) ++
    (mtp.flatMap fun b => b.2.map fun person_id => ((Kind.person, person_id) : Node)) ++
    (mtp.map fun b => ((Kind.movie, b.1) : Node)) ++
    (ptm.flatMap fun b => b.2.map fun movie_id => ((Kind.movie, movie_id) : Node))

/-- Canonical fuel for `bfsLoop`: strictly more than the number of
duplicate-free node sequences over the node universe, hence (as proved
below) more than the number of iterations the loop can perform. -/
def bfsFuel (ptm mtp : AdjMap) (start_person : Nat) : Nat :=
  2 ^ (nodeList ptm mtp start_person).length *
    Nat.factorial (nodeList ptm mtp start_person).length + 1

/-- The initial loop state of `find_shortest_paths` (source lines 186-193). -/
def bfsInit (start_person : Nat) : BfsState :=
  { queue := [((Kind.person, start_person), [(Kind.person, start_person)])],
    visited := { person := [(start_person, 0)], movie := [] },
    solutions := [],
    shortest := none,
    popped := [] }

/-- `find_shortest_paths(start_person, target_person, person_to_movies,
movie_to_people, limit)` (source lines 174-229): breadth-first search that
returns up to `limit` shortest collaboration paths. -/
def find_shortest_paths (start_person target_person : Nat)
    (person_to_movies movie_to_people : AdjMap) (limit : Int) : List (List Node) :=
  if start_person = target_person then []
  else
    (bfsLoop person_to_movies movie_to_people (Kind.person, target_person) limit
      (bfsFuel person_to_movies movie_to_people start_person)
      (bfsInit start_person)).solutions

/-! ### Renderer: `format_movie` and `describe_connection` -/

/-- Per-person metadata: display name and the sorted role labels. -/
structure PersonDetails where
  name : String
  roles : List String
deriving DecidableEq, Repr

/-- Per-movie metadata: title, year rendered as a string, optional IMDb id. -/
structure MovieDetails where
  title : String
  year : String
  imdb_id : Option String
deriving DecidableEq, Repr

/-- `movie_details.get(movie_id, {"title": "Untitled", "year": ""})` and the
title-with-year formatting of `format_movie` (source lines 282-288). -/
def format_movie (movie_id : Nat) (movie_details : List (Nat × MovieDetails)) : String :=
  let info := (movie_details.lookup movie_id).getD
    { title := "Untitled", year := "", imdb_id := none }
  if info.year ≠ "" then info.title ++ " (" ++ info.year ++ ")" else info.title

/-- `person_details.get(person_id, {}).get("name", "Unknown")`. -/
def personName (person_details : List (Nat × PersonDetails)) (person_id : Nat) : String :=
  ((person_details.lookup person_id).map PersonDetails.name).getD "Unknown"

/-- `edge_roles.get((person_id, movie_id), ("Contributor",))`: the recorded
roles of a person on a movie, defaulting to the `"Contributor"` label
(source lines 309-310). -/
def edgeRolesFor (edge_roles : List ((Nat × Nat) × List String))
    (person_id movie_id : Nat) : List String :=
  (edge_roles.lookup (person_id, movie_id)).getD ["Contributor"]

/-- The f-string of one connection step (source lines 312-315). -/
def connectionStepText (person_name left_joined movie_label partner_name
    right_joined : String) : String :=
  "**" ++ person_name ++ "** (" ++ left_joined ++ ") → *" ++ movie_label ++
    "* → **" ++ partner_name ++ "** (" ++ right_joined ++ ")"

/-- The loop body of `describe_connection` at a given even index: the
(person, movie, person) triple `path[index], path[index+1], path[index+2]`
rendered as one step. -/
def connectionStep (path : List Node) (person_details : List (Nat × PersonDetails))
    (movie_details : List (Nat × MovieDetails))
    (edge_roles : List ((Nat × Nat) × List String)) (index : Nat) : String :=
  let person_id := (path.getD index (Kind.person, 0)).2
  let movie_id := (path.getD (index + 1) (Kind.person, 0)).2
  let partner_id := (path.getD (index + 2) (Kind.person, 0)).2
  connectionStepText (personName person_details person_id)
    (String.intercalate ", " (edgeRolesFor edge_roles person_id movie_id))
    (format_movie movie_id movie_details)
    (personName person_details partner_id)
    (String.intercalate ", " (edgeRolesFor edge_roles partner_id movie_id))

/-- `describe_connection(path, person_details, movie_details, edge_roles)`
(source lines 291-316): one text step per `for index in
range(0, len(path) - 2, 2)` iteration. -/
def describe_connection (path : List Node) (person_details : List (Nat × PersonDetails))
    (movie_details : List (Nat × MovieDetails))
    (edge_roles : List ((Nat × Nat) × List String)) : List String :=
  (List.range ((path.length - 2 + 1) / 2)).map fun i =>
    connectionStep path person_details movie_details edge_roles (2 * i)

/-! ### Graph builder: `load_graph_data`

The SQL fetch is external; the builder below is the row-processing loop of
`load_graph_data` (source lines 108-154) applied to the fetched rows.  A
missing (NULL) id makes `int(row[...])` raise `TypeError`, modelled by the
whole construction returning `none`. -/

/-- One association row as produced by the SQL query of `load_graph_data`;
`none` models a SQL NULL. -/
structure Row where
  movie_id : Option Nat
  movie_title : Option String
  movie_year : Option Nat
  movie_imdb_id : Option String
  person_id : Option Nat
  person_name : Option String
  role : Option String
deriving DecidableEq, Repr

/-- Python `value or default` for string fields: `None` and `""` are falsy. -/
def orDefault (v : Option String) (d : String) : String :=
  match v with
  | some s => if s = "" then d else s
  | none => d

/-- `row["role"] or ""`. -/
def rowRole (r : Row) : String := r.role.getD ""

/-- `str(year_value) if year_value else ""` (`None` and `0` are falsy). -/
def yearString (y : Option Nat) : String :=
  match y with
  | some n => if n = 0 then "" else toString n
  | none => ""

/-- Python `set.add` on a hash set, modelled with insertion order. -/
def addToListSet {α : Type} [DecidableEq α] (xs : List α) (x : α) : List α :=
  if x ∈ xs then xs else xs ++ [x]

/-- Update a dictionary binding in place, inserting `k ↦ f d` at the end
when the key is absent (Python dicts keep insertion order). -/
def updateAssoc {κ ν : Type} [DecidableEq κ] (m : List (κ × ν)) (k : κ) (d : ν)
    (f : ν → ν) : List (κ × ν) :=
  match m with
  | [] => [(k, f d)]
  | (k', v) :: rest =>
    if k = k' then (k', f v) :: rest else (k', v) :: updateAssoc rest k d f

/-- The accumulating dictionaries of the row loop of `load_graph_data`. -/
structure GraphAccum where
  person_details : List (Nat × PersonDetails)
  movie_details : List (Nat × MovieDetails)
  person_to_movies : AdjMap
  movie_to_people : AdjMap
  edge_roles : List ((Nat × Nat) × List String)
deriving DecidableEq, Repr

/-- The empty accumulator before the first row. -/
def emptyAccum : GraphAccum :=
  { person_details := [], movie_details := [], person_to_movies := [],
    movie_to_people := [], edge_roles := [] }

/-- One iteration of the `for row in rows` loop (source lines 108-131):
`int(row["person_id"])` / `int(row["movie_id"])` raise on a missing id
(`none` result); otherwise all five dictionaries are updated. -/
def processRow (acc : GraphAccum) (row : Row) : Option GraphAccum :=
  match row.person_id, row.movie_id with
  | some person_id, some movie_id =>
    let role := rowRole row
    some
      { person_details :=
          updateAssoc acc.person_details person_id
            { name := orDefault row.person_name "Unknown person", roles := [] }
            (fun det => { det with roles := addToListSet det.roles role }),
        movie_details :=
          updateAssoc acc.movie_details movie_id
            { title := orDefault row.movie_title "Untitled",
              year := yearString row.movie_year,
              imdb_id := row.movie_imdb_id }
            (fun det => det),
        person_to_movies :=
          updateAssoc acc.person_to_movies person_id []
            (fun s => addToListSet s movie_id),
        movie_to_people :=
          updateAssoc acc.movie_to_people movie_id []
            (fun s => addToListSet s person_id),
        edge_roles :=
          if role ≠ "" then
            updateAssoc acc.edge_roles (person_id, movie_id) []
              (fun s => addToListSet s role)
          else acc.edge_roles }
  | _, _ => none

/-- A row with the given ids, display name and title, and no year, IMDb id
or role: the generic shape used by the concrete examples below. -/
def mkRow (pid : Option Nat) (pname : Option String) (mid : Option Nat)
    (mtitle : Option String) : Row :=
  { movie_id := mid, movie_title := mtitle, movie_year := none,
    movie_imdb_id := none, person_id := pid, person_name := pname, role := none }

/-- The whole row loop; aborts (`none`) at the first malformed row, as the
raised `TypeError` would. -/
def load_rows (rows : List Row) : Option GraphAccum :=
  rows.foldlM processRow emptyAccum

/-- `person_details.get(pid, {}).get("name", "")`: the sort key of
`sorted_movies` (source line 141). -/
def nameKey (person_details : List (Nat × PersonDetails)) (person_id : Nat) : String :=
  ((person_details.lookup person_id).map PersonDetails.name).getD ""

/-- `movie_details.get(mid, {}).get("title", "")`: the sort key of
`sorted_people` (source line 145). -/
def titleKey (movie_details : List (Nat × MovieDetails)) (movie_id : Nat) : String :=
  ((movie_details.lookup movie_id).map MovieDetails.title).getD ""

/-- Python's string comparison is lexicographic on code points; this is its
strict part on char lists. -/
def charsLt : List Char → List Char → Bool
  | [], [] => false
  | [], _ :: _ => true
  | _ :: _, [] => false
  | a :: as, b :: bs =>
    if a.toNat < b.toNat then true
    else if b.toNat < a.toNat then false
    else charsLt as bs

/-- Python `a <= b` on strings: code-point lexicographic order. -/
def strLe (a b : String) : Bool := !(charsLt b.data a.data)

/-- Python `sorted(xs, key=key)`: a stable sort on a string key. -/
def sortByKey (key : Nat → String) (xs : List Nat) : List Nat :=
  List.insertionSort (fun a b => strLe (key a) (key b) = true) xs

/-- Python `sorted(strings)`. -/
def sortStrings (xs : List String) : List String :=
  List.insertionSort (fun a b => strLe a b = true) xs

/-- The final value of `load_graph_data` (source line 154). -/
structure GraphData where
  person_details : List (Nat × PersonDetails)
  movie_details : List (Nat × MovieDetails)
  person_to_movies : AdjMap
  movie_to_people : AdjMap
  edge_roles : List ((Nat × Nat) × List String)
deriving DecidableEq, Repr

/-- The post-loop normalisation of `load_graph_data` (source lines 133-152):
role sets become sorted tuples of the non-empty labels, and each adjacency
tuple is sorted by the counterpart's display name / title. -/
def finalizeAccum (acc : GraphAccum) : GraphData :=
  { person_details := acc.person_details.map fun b =>
      (b.1, { b.2 with
        roles := List.insertionSort (fun a c => a ≤ c)
          (b.2.roles.filter (fun r => r ≠ "")) }),
    movie_details := acc.movie_details,
    person_to_movies := acc.person_to_movies.map fun b =>
      (b.1, sortByKey (titleKey acc.movie_details) b.2),
    movie_to_people := acc.movie_to_people.map fun b =>
      (b.1, sortByKey (nameKey acc.person_details) b.2),
    edge_roles := acc.edge_roles.map fun b =>
      (b.1, sortStrings b.2) }

/-- `load_graph_data` on the fetched rows: the row loop followed by the
normalisation; `none` models a raised exception. -/
def load_graph_data (rows : List Row) : Option GraphData :=
  (load_rows rows).map finalizeAccum

/-! ### Search-graph notions used to state the properties -/

/-- One traversal step of the search: `b` is among the generated
neighbours of `a`. -/
def Adj (ptm mtp : AdjMap) (a b : Node) : Prop :=
  b ∈ neighbours ptm mtp a

instance (ptm mtp : AdjMap) (a b : Node) : Decidable (Adj ptm mtp a b) :=
  inferInstanceAs (Decidable (b ∈ neighbours ptm mtp a))

/-- A walk of the search graph from the start person: nonempty, starting at
the start person's node, with consecutive nodes adjacent.  Repeated nodes
are allowed. -/
def IsWalk (ptm mtp : AdjMap) (s : Nat) (p : List Node) : Prop :=
  p.head? = some (Kind.person, s) ∧ p.Chain' (Adj ptm mtp)

/-- A simple alternating person/movie path from the start person to the
target person, as traversable by the search. -/
def IsConnPath (ptm mtp : AdjMap) (s t : Nat) (p : List Node) : Prop :=
  p.head? = some (Kind.person, s) ∧ p.getLast? = some (Kind.person, t) ∧
    p.Chain' (Adj ptm mtp) ∧ p.Nodup

/-- Boolean chain check, structurally recursive so that the kernel can
evaluate it on concrete lists. -/
def chainb {α : Type} (f : α → α → Bool) : α → List α → Bool
  | _, [] => true
  | a, b :: rest => f a b && chainb f b rest

/-- Boolean `Chain'` check. -/
def chain'b {α : Type} (f : α → α → Bool) : List α → Bool
  | [] => true
  | a :: rest => chainb f a rest

instance (ptm mtp : AdjMap) (s t : Nat) (p : List Node) :
    Decidable (IsConnPath ptm mtp s t p) :=
  decidable_of_iff (p.head? = some (Kind.person, s) ∧ p.getLast? = some (Kind.person, t) ∧
    chain'b (fun a b => decide (Adj ptm mtp a b)) p = true ∧ p.Nodup)
    (by
      refine and_congr Iff.rfl (and_congr Iff.rfl (and_congr ?_ Iff.rfl))
      have hc : ∀ (rest : List Node) (a : Node),
          chainb (fun a b => decide (Adj ptm mtp a b)) a rest = true ↔
            List.Chain (Adj ptm mtp) a rest := by
        intro rest
        induction rest with
        | nil =>
          intro a
          constructor
          · intro _
            exact List.Chain.nil
          · intro _
            rfl
        | cons b rest2 ih =>
          intro a
          show (decide (Adj ptm mtp a b) && chainb _ b rest2) = true ↔ _
          rw [Bool.and_eq_true, List.chain_cons]
          exact and_congr ⟨of_decide_eq_true, decide_eq_true⟩ (ih b)
      cases p with
      | nil =>
        constructor
        · intro _
          exact List.chain'_nil
        · intro _
          rfl
      | cons a rest => exact hc rest a)

/-- `Reach d v`: some walk of `d` edges leads from the start person to `v`. -/
def Reach (ptm mtp : AdjMap) (s : Nat) (d : Nat) (v : Node) : Prop :=
  ∃ p, IsWalk ptm mtp s p ∧ p.getLast? = some v ∧ p.length = d + 1

/-- The nodes reachable by walks of exactly `d` edges, computably. -/
def reachList (ptm mtp : AdjMap) (s : Nat) : Nat → List Node
  | 0 => [(Kind.person, s)]
  | d + 1 => (reachList ptm mtp s d).flatMap (neighbours ptm mtp)

/-- Adjacency tuples of a mapping are duplicate-free, as the builder's
ordered sets guarantee. -/
def AdjOk (m : AdjMap) : Prop := ∀ b ∈ m, (Prod.snd b).Nodup

instance (m : AdjMap) : Decidable (AdjOk m) :=
  inferInstanceAs (Decidable (∀ b ∈ m, (Prod.snd b).Nodup))

/-- Well-formedness of a graph snapshot: both adjacency mappings carry
duplicate-free neighbour tuples (the data model's ordered sets). -/
def WFGraph (ptm mtp : AdjMap) : Prop := AdjOk ptm ∧ AdjOk mtp

instance (ptm mtp : AdjMap) : Decidable (WFGraph ptm mtp) :=
  inferInstanceAs (Decidable (AdjOk ptm ∧ AdjOk mtp))

/-- Kinds strictly alternate along a list, person first. -/
def AlternatingShape (p : List Node) : Prop :=
  ∀ i : Nat, ∀ nd ∈ p.get? i, nd.1 = (if i % 2 = 0 then Kind.person else Kind.movie)

/-- A well-formed result path in the sense of the data model: odd length at
least 3, kinds alternating person/movie/…/person, the requested endpoints,
and no repeated node. -/
def WellFormedPath (s t : Nat) (p : List Node) : Prop :=
  p.head? = some (Kind.person, s) ∧ p.getLast? = some (Kind.person, t) ∧
    p.Nodup ∧ Odd p.length ∧ 3 ≤ p.length ∧ AlternatingShape p

/-! ### Auxiliary definitions used by the proofs -/

/-- The visited map after one neighbour pass of `expand`, in isolation. -/
def expandV (path : List Node) : List Node → Visited → Visited
  | [], v => v
  | nb :: rest, v =>
    if nb ∈ path then expandV path rest v
    else
      match vget v nb with
      | some previous =>
        if previous < path.length then expandV path rest v
        else expandV path rest (vset v nb path.length)
      | none => expandV path rest (vset v nb path.length)

/-- The entries enqueued by one neighbour pass of `expand`, in isolation. -/
def expandQ (path : List Node) : List Node → Visited → List Entry
  | [], _ => []
  | nb :: rest, v =>
    if nb ∈ path then expandQ path rest v
    else
      match vget v nb with
      | some previous =>
        if previous < path.length then expandQ path rest v
        else (nb, path ++ [nb]) :: expandQ path rest (vset v nb path.length)
      | none => (nb, path ++ [nb]) :: expandQ path rest (vset v nb path.length)

/-- A queue or popped entry is well formed: its path is a simple walk of the
search graph from the start person ending at the entry's node. -/
def entryOk (ptm mtp : AdjMap) (s : Nat) (e : Entry) : Prop :=
  e.2.head? = some (Kind.person, s) ∧ e.2.getLast? = some e.1 ∧
    e.2.Chain' (Adj ptm mtp) ∧ e.2.Nodup

/-- Soundness invariant of the BFS loop state.  It holds for every graph
(no well-formedness needed) and is preserved by every iteration, including
the final one of each exit branch. -/
structure InvSound (ptm mtp : AdjMap) (s t : Nat) (limit : Int) (st : BfsState) : Prop where
  valid : ∀ e ∈ st.popped ++ st.queue, entryOk ptm mtp s e
  sortedQ : (st.queue.map (fun e => e.2.length)).Sorted (· ≤ ·)
  spreadQ : ∀ e ∈ st.queue, ∀ f ∈ st.queue, e.2.length ≤ f.2.length + 1
  popLe : ∀ e ∈ st.popped, ∀ f ∈ st.queue, e.2.length ≤ f.2.length
  shortPopped : ∀ sh, st.shortest = some sh →
    ∃ e ∈ st.popped, e.1 = ((Kind.person, t) : Node) ∧ e.2.length = sh ∧ 2 ≤ e.2.length
  solsLen : ∀ sh, st.shortest = some sh → ∀ sol ∈ st.solutions, sol.length = sh
  solsConn : ∀ sol ∈ st.solutions, IsConnPath ptm mtp s t sol ∧ 2 ≤ sol.length
  noneEmpty : st.shortest = none → st.solutions = []
  someNonempty : ∀ sh, st.shortest = some sh → st.solutions ≠ []

/-- Full invariant of the BFS loop state, additionally tracking the
depth bookkeeping; preserved by non-exiting iterations whenever the two
adjacency mappings are well formed. -/
structure InvFull (ptm mtp : AdjMap) (s t : Nat) (limit : Int) (st : BfsState)
    extends InvSound ptm mtp s t limit st : Prop where
  distinct : ((st.popped ++ st.queue).map Prod.snd).Nodup
  parent : ∀ e ∈ st.popped ++ st.queue, 2 ≤ e.2.length →
    ∃ f ∈ st.popped, e.2 = f.2 ++ [e.1]
  ventries : ∀ e ∈ st.popped ++ st.queue, vget st.visited e.1 = some (e.2.length - 1)
  vsound : ∀ n k, vget st.visited n = some k →
    ∃ e ∈ st.popped ++ st.queue, e.1 = n ∧ e.2.length = k + 1
  seedMem : (((Kind.person, s) : Node), [((Kind.person, s) : Node)]) ∈ st.popped ++ st.queue
  expanded : ∀ e ∈ st.popped, e.1 ≠ ((Kind.person, t) : Node) →
    ∀ w ∈ neighbours ptm mtp e.1, w ∈ e.2 ∨ ∃ k, vget st.visited w = some k ∧ k ≤ e.2.length
  phase1 : st.shortest = none → ∀ e ∈ st.popped, e.1 ≠ ((Kind.person, t) : Node)
  phase2min : ∀ sh, st.shortest = some sh → ∀ q, IsConnPath ptm mtp s t q → sh ≤ q.length
  solsNodup : st.solutions.Nodup
  solsPopped : ∀ sol ∈ st.solutions,
    ∃ e ∈ st.popped, e.1 = ((Kind.person, t) : Node) ∧ e.2 = sol

/-- All duplicate-free node sequences over a finite node universe, as a
list (with repetitions): the pool from which the loop's dequeued paths and
every simple path of the search graph are drawn. -/
def pathList (S : List Node) : List (List Node) :=
  S.sublists.flatMap List.permutations

/-- The same pool as a finite set. -/
def pathUniverse (S : List Node) : Finset (List Node) :=
  (pathList S).toFinset

/-- The queue entry carrying the `(k+1)`-node prefix of a path `W`. -/
def entryAt (W : List Node) (k : Nat) : Entry :=
  (W.getD k (Kind.person, 0), W.take (k + 1))

/-- Progress of the search towards discovering the path `W`: either `W` is
already recorded as a solution, or some proper prefix of `W` is still
pending in the queue. -/
def PendingOrDone (W : List Node) (st : BfsState) : Prop :=
  W ∈ st.solutions ∨ ∃ k, k < W.length ∧ entryAt W k ∈ st.queue

/-- The other node kind. -/
def kindFlip : Kind → Kind
  | Kind.person => Kind.movie
  | Kind.movie => Kind.person

/-- The state right after dequeuing `(node, path)` from the queue front. -/
def popState (st : BfsState) (node : Node) (path : List Node) (rest : List Entry) : BfsState :=
  { st with queue := rest, popped := st.popped ++ [(node, path)] }

/-- The state after recording `path` as a solution (source lines 202-204). -/
def solState (st : BfsState) (path : List Node) : BfsState :=
  { st with
      solutions := st.solutions ++ [path],
      shortest := some (st.shortest.getD path.length) }

/-- The state after expanding the neighbours of the dequeued node. -/
def expandState (ptm mtp : AdjMap) (st : BfsState) (node : Node) (path : List Node) :
    BfsState :=
  { st with
      visited := expandV path (neighbours ptm mtp node) st.visited,
      queue := st.queue ++ expandQ path (neighbours ptm mtp node) st.visited }

/-! ### Basic lemmas about the visited map and dictionary lookups -/

theorem lookup_mem {α β : Type} [BEq α] [LawfulBEq α] :
    ∀ {l : List (α × β)} {k : α} {v : β}, l.lookup k = some v → (k, v) ∈ l := by
  intro l
  induction l with
  | nil => intro k v h; simp [List.lookup] at h
  | cons b rest ih =>
    intro k v h
    rcases b with ⟨k', v'⟩
    rw [List.lookup_cons] at h
    by_cases hk : k == k'
    · simp only [hk] at h
      cases h
      have : k = k' := eq_of_beq hk
      subst this
      exact List.mem_cons_self _ _
    · simp only [Bool.not_eq_true] at hk
      simp only [hk] at h
      exact List.mem_cons_of_mem _ (ih h)

theorem vget_vset_self (v : Visited) (n : Node) (d : Nat) :
    vget (vset v n d) n = some d := by
  rcases n with ⟨k, i⟩
  cases k <;> simp [vget, vset, List.lookup_cons]

theorem vget_vset_ne (v : Visited) {n m : Node} (d : Nat) (h : m ≠ n) :
    vget (vset v n d) m = vget v m := by
  rcases n with ⟨k, i⟩
  rcases m with ⟨k', i'⟩
  cases k <;> cases k' <;> simp only [vget, vset] <;> try rfl
  · have hi : (i' == i) = false := by
      simp only [beq_eq_false_iff_ne, ne_eq]
      exact fun hh => h (by rw [hh])
    rw [List.lookup_cons, hi]
  · have hi : (i' == i) = false := by
      simp only [beq_eq_false_iff_ne, ne_eq]
      exact fun hh => h (by rw [hh])
    rw [List.lookup_cons, hi]

/-! ### Characterisation of one `expand` pass -/

theorem expand_eq (path : List Node) :
    ∀ (nbs : List Node) (v : Visited) (q : List Entry),
      expand path nbs v q = (expandV path nbs v, q ++ expandQ path nbs v) := by
  intro nbs
  induction nbs with
  | nil => intro v q; simp [expand, expandV, expandQ]
  | cons nb rest ih =>
    intro v q
    by_cases hmem : nb ∈ path
    · simp [expand, expandV, expandQ, hmem, ih]
    · cases hv : vget v nb with
      | some previous =>
        by_cases hlt : previous < path.length
        · simp [expand, expandV, expandQ, hmem, hv, hlt, ih]
        · simp [expand, expandV, expandQ, hmem, hv, hlt, ih]
      | none => simp [expand, expandV, expandQ, hmem, hv, ih]

theorem expandQ_mem (path : List Node) :
    ∀ (nbs : List Node) (v : Visited), ∀ e ∈ expandQ path nbs v,
      ∃ nb ∈ nbs, e = (nb, path ++ [nb]) ∧ nb ∉ path := by
  intro nbs
  induction nbs with
  | nil => intro v e he; simp [expandQ] at he
  | cons nb rest ih =>
    intro v e he
    by_cases hmem : nb ∈ path
    · simp only [expandQ, if_pos hmem] at he
      obtain ⟨x, hx, hrest⟩ := ih v e he
      exact ⟨x, List.mem_cons_of_mem _ hx, hrest⟩
    · cases hv : vget v nb with
      | some previous =>
        by_cases hlt : previous < path.length
        · simp only [expandQ, if_neg hmem, hv, if_pos hlt] at he
          obtain ⟨x, hx, hrest⟩ := ih v e he
          exact ⟨x, List.mem_cons_of_mem _ hx, hrest⟩
        · simp only [expandQ, if_neg hmem, hv, if_neg hlt] at he
          rcases List.mem_cons.1 he with h | h
          · exact ⟨nb, List.mem_cons_self _ _, h, hmem⟩
          · obtain ⟨x, hx, hrest⟩ := ih _ e h
            exact ⟨x, List.mem_cons_of_mem _ hx, hrest⟩
      | none =>
        simp only [expandQ, if_neg hmem, hv] at he
        rcases List.mem_cons.1 he with h | h
        · exact ⟨nb, List.mem_cons_self _ _, h, hmem⟩
        · obtain ⟨x, hx, hrest⟩ := ih _ e h
          exact ⟨x, List.mem_cons_of_mem _ hx, hrest⟩

theorem expandV_vget (path : List Node) :
    ∀ (nbs : List Node) (v : Visited) (n : Node),
      vget (expandV path nbs v) n = vget v n ∨
        vget (expandV path nbs v) n = some path.length := by
  intro nbs
  induction nbs with
  | nil => intro v n; exact Or.inl rfl
  | cons nb rest ih =>
    intro v n
    by_cases hmem : nb ∈ path
    · simpa [expandV, hmem] using ih v n
    · have hset : ∀ w : Visited, w = vset v nb path.length →
          (vget (expandV path rest w) n = vget v n ∨
            vget (expandV path rest w) n = some path.length) := by
        intro w hw
        rcases ih w n with h | h
        · subst hw
          by_cases hn : n = nb
          · subst hn
            right
            rw [h, vget_vset_self]
          · left
            rw [h, vget_vset_ne _ _ hn]
        · exact Or.inr h
      cases hv : vget v nb with
      | some previous =>
        by_cases hlt : previous < path.length
        · simpa [expandV, hmem, hv, hlt] using ih v n
        · simpa [expandV, hmem, hv, hlt] using hset _ rfl
      | none => simpa [expandV, hmem, hv] using hset _ rfl

theorem expandV_persist (path : List Node) :
    ∀ (nbs : List Node) (v : Visited) (n : Node),
      vget v n = some path.length →
      vget (expandV path nbs v) n = some path.length := by
  intro nbs v n h
  rcases expandV_vget path nbs v n with h' | h'
  · rw [h', h]
  · exact h'

theorem expandQ_vget (path : List Node) :
    ∀ (nbs : List Node) (v : Visited), ∀ e ∈ expandQ path nbs v,
      vget (expandV path nbs v) e.1 = some path.length := by
  intro nbs
  induction nbs with
  | nil => intro v e he; simp [expandQ] at he
  | cons nb rest ih =>
    intro v e he
    by_cases hmem : nb ∈ path
    · simp only [expandQ, if_pos hmem] at he
      simpa [expandV, hmem] using ih v e he
    · cases hv : vget v nb with
      | some previous =>
        by_cases hlt : previous < path.length
        · simp only [expandQ, if_neg hmem, hv, if_pos hlt] at he
          simpa [expandV, hmem, hv, hlt] using ih v e he
        · simp only [expandQ, if_neg hmem, hv, if_neg hlt] at he
          simp only [expandV, if_neg hmem, hv, if_neg hlt]
          rcases List.mem_cons.1 he with h | h
          · subst h
            exact expandV_persist path rest _ _ (vget_vset_self _ _ _)
          · exact ih _ e h
      | none =>
        simp only [expandQ, if_neg hmem, hv] at he
        simp only [expandV, if_neg hmem, hv]
        rcases List.mem_cons.1 he with h | h
        · subst h
          exact expandV_persist path rest _ _ (vget_vset_self _ _ _)
        · exact ih _ e h

theorem expandV_changed (path : List Node) :
    ∀ (nbs : List Node) (v : Visited) (n : Node),
      vget (expandV path nbs v) n ≠ vget v n →
      ∃ e ∈ expandQ path nbs v, e.1 = n := by
  intro nbs
  induction nbs with
  | nil => intro v n h; exact absurd rfl h
  | cons nb rest ih =>
    intro v n h
    by_cases hmem : nb ∈ path
    · simp only [expandV, if_pos hmem] at h
      obtain ⟨e, he, hen⟩ := ih v n h
      exact ⟨e, by simp [expandQ, hmem, he], hen⟩
    · cases hv : vget v nb with
      | some previous =>
        by_cases hlt : previous < path.length
        · simp only [expandV, if_neg hmem, hv, if_pos hlt] at h
          obtain ⟨e, he, hen⟩ := ih v n h
          exact ⟨e, by simp [expandQ, hmem, hv, hlt, he], hen⟩
        · simp only [expandV, if_neg hmem, hv, if_neg hlt] at h
          by_cases hn : n = nb
          · exact ⟨(nb, path ++ [nb]), by simp [expandQ, hmem, hv, hlt], hn.symm⟩
          · have : vget (expandV path rest (vset v nb path.length)) n ≠
                vget (vset v nb path.length) n := by
              rw [vget_vset_ne _ _ hn]
              exact h
            obtain ⟨e, he, hen⟩ := ih _ n this
            exact ⟨e, by simp [expandQ, hmem, hv, hlt, he], hen⟩
      | none =>
        simp only [expandV, if_neg hmem, hv] at h
        by_cases hn : n = nb
        · exact ⟨(nb, path ++ [nb]), by simp [expandQ, hmem, hv], hn.symm⟩
        · have : vget (expandV path rest (vset v nb path.length)) n ≠
              vget (vset v nb path.length) n := by
            rw [vget_vset_ne _ _ hn]
            exact h
          obtain ⟨e, he, hen⟩ := ih _ n this
          exact ⟨e, by simp [expandQ, hmem, hv, he], hen⟩

theorem expandV_covers (path : List Node) :
    ∀ (nbs : List Node) (v : Visited), ∀ nb ∈ nbs,
      nb ∈ path ∨ ∃ k, vget (expandV path nbs v) nb = some k ∧ k ≤ path.length := by
  intro nbs
  induction nbs with
  | nil => intro v nb h; simp at h
  | cons nb' rest ih =>
    intro v nb hmem'
    by_cases hmem : nb' ∈ path
    · rcases List.mem_cons.1 hmem' with h | h
      · rw [h]; exact Or.inl hmem
      · simpa [expandV, hmem] using ih v nb h
    · cases hv : vget v nb' with
      | some previous =>
        by_cases hlt : previous < path.length
        · have hunfold : expandV path (nb' :: rest) v = expandV path rest v := by
            simp [expandV, hmem, hv, hlt]
          rw [hunfold]
          rcases List.mem_cons.1 hmem' with h | h
          · right
            rcases expandV_vget path rest v nb with h' | h'
            · rw [h] at h' ⊢
              exact ⟨previous, by rw [h', hv], Nat.le_of_lt hlt⟩
            · exact ⟨path.length, h', le_rfl⟩
          · exact ih v nb h
        · have hunfold : expandV path (nb' :: rest) v =
              expandV path rest (vset v nb' path.length) := by
            simp [expandV, hmem, hv, hlt]
          rw [hunfold]
          rcases List.mem_cons.1 hmem' with h | h
          · right
            rw [h]
            exact ⟨path.length,
              expandV_persist path rest _ _ (vget_vset_self _ _ _), le_rfl⟩
          · exact ih _ nb h
      | none =>
        have hunfold : expandV path (nb' :: rest) v =
            expandV path rest (vset v nb' path.length) := by
          simp [expandV, hmem, hv]
        rw [hunfold]
        rcases List.mem_cons.1 hmem' with h | h
        · right
          rw [h]
          exact ⟨path.length,
            expandV_persist path rest _ _ (vget_vset_self _ _ _), le_rfl⟩
        · exact ih _ nb h

theorem expandQ_of_unvisited (path : List Node) :
    ∀ (nbs : List Node) (v : Visited) (nb : Node), nb ∈ nbs → nb ∉ path →
      (∀ k, vget v nb = some k → ¬ k < path.length) →
      (nb, path ++ [nb]) ∈ expandQ path nbs v := by
  intro nbs
  induction nbs with
  | nil => intro v nb h; simp at h
  | cons nb' rest ih =>
    intro v nb hmem' hnp hcond
    rcases List.mem_cons.1 hmem' with h | h
    · subst h
      cases hv : vget v nb with
      | some previous =>
        have hnlt : ¬ previous < path.length := hcond previous hv
        simp only [expandQ, if_neg hnp, hv, if_neg hnlt]
        exact List.mem_cons_self _ _
      | none =>
        simp only [expandQ, if_neg hnp, hv]
        exact List.mem_cons_self _ _
    · by_cases hmem : nb' ∈ path
      · simp only [expandQ, if_pos hmem]
        exact ih v nb h hnp hcond
      · cases hv : vget v nb' with
        | some previous =>
          by_cases hlt : previous < path.length
          · simp only [expandQ, if_neg hmem, hv, if_pos hlt]
            exact ih v nb h hnp hcond
          · simp only [expandQ, if_neg hmem, hv, if_neg hlt]
            refine List.mem_cons_of_mem _ (ih _ nb h hnp ?_)
            intro k hk
            by_cases hn : nb = nb'
            · subst hn
              rw [vget_vset_self] at hk
              cases hk
              exact Nat.lt_irrefl _
            · rw [vget_vset_ne _ _ hn] at hk
              exact hcond k hk
        | none =>
          simp only [expandQ, if_neg hmem, hv]
          refine List.mem_cons_of_mem _ (ih _ nb h hnp ?_)
          intro k hk
          by_cases hn : nb = nb'
          · subst hn
            rw [vget_vset_self] at hk
            cases hk
            exact Nat.lt_irrefl _
          · rw [vget_vset_ne _ _ hn] at hk
            exact hcond k hk

theorem expandQ_paths_nodup (path : List Node) :
    ∀ (nbs : List Node) (v : Visited), nbs.Nodup →
      ((expandQ path nbs v).map Prod.snd).Nodup := by
  intro nbs
  induction nbs with
  | nil => intro v _; simp [expandQ]
  | cons nb rest ih =>
    intro v hnd
    have hndr : rest.Nodup := hnd.of_cons
    have hnbr : nb ∉ rest := by
      intro hc
      exact (List.nodup_cons.1 hnd).1 hc
    by_cases hmem : nb ∈ path
    · simp only [expandQ, if_pos hmem]
      exact ih v hndr
    · have hfresh : ∀ w : Visited, (path ++ [nb]) ∉ (expandQ path rest w).map Prod.snd := by
        intro w hc
        obtain ⟨e, he, hee⟩ := List.mem_map.1 hc
        obtain ⟨x, hx, hex, _⟩ := expandQ_mem path rest w e he
        rw [hex] at hee
        simp only at hee
        have : x = nb := by
          have := List.append_inj_right hee (by rfl)
          simpa using this
        subst this
        exact hnbr hx
      cases hv : vget v nb with
      | some previous =>
        by_cases hlt : previous < path.length
        · simp only [expandQ, if_neg hmem, hv, if_pos hlt]
          exact ih v hndr
        · simp only [expandQ, if_neg hmem, hv, if_neg hlt, List.map_cons]
          exact List.nodup_cons.2 ⟨hfresh _, ih _ hndr⟩
      | none =>
        simp only [expandQ, if_neg hmem, hv, List.map_cons]
        exact List.nodup_cons.2 ⟨hfresh _, ih _ hndr⟩

/-! ### Walks, reachability and alternation -/

theorem adj_kinds {ptm mtp : AdjMap} {a b : Node} (h : Adj ptm mtp a b) :
    b.1 = kindFlip a.1 := by
  rcases a with ⟨k, i⟩
  cases k <;>
    · simp only [Adj, neighbours] at h
      obtain ⟨x, _, hx⟩ := List.mem_map.1 h
      rw [← hx]
      rfl

theorem adj_ne {ptm mtp : AdjMap} {a b : Node} (h : Adj ptm mtp a b) : a ≠ b := by
  intro hc
  have := adj_kinds h
  rw [← hc] at this
  rcases a with ⟨k, i⟩
  cases k <;> simp [kindFlip] at this

theorem entryOk_child {ptm mtp : AdjMap} {s : Nat} {node nb : Node} {path : List Node}
    (h : entryOk ptm mtp s (node, path)) (hadj : Adj ptm mtp node nb)
    (hnmem : nb ∉ path) : entryOk ptm mtp s (nb, path ++ [nb]) := by
  obtain ⟨hhead, hlast, hchain, hnodup⟩ := h
  refine ⟨?_, ?_, ?_, ?_⟩
  · rw [List.head?_append, hhead]
    rfl
  · simp [List.getLast?_concat]
  · rw [List.chain'_append]
    refine ⟨hchain, List.chain'_singleton _, ?_⟩
    intro x hx y hy
    simp only [List.head?_cons, Option.mem_def, Option.some.injEq] at hy
    rw [hlast] at hx
    simp only [Option.mem_def, Option.some.injEq] at hx
    rw [← hy, ← hx]
    exact hadj
  · rw [List.nodup_append]
    refine ⟨hnodup, List.nodup_singleton _, ?_⟩
    intro x hx hx'
    simp only [List.mem_singleton] at hx'
    rw [hx'] at hx
    exact hnmem hx

theorem adj_mem_nodeList {ptm mtp : AdjMap} {s : Nat} {a b : Node}
    (h : Adj ptm mtp a b) : b ∈ nodeList ptm mtp s := by
  rcases a with ⟨k, i⟩
  unfold nodeList
  cases k
  · simp only [Adj, neighbours] at h
    obtain ⟨x, hx, hxb⟩ := List.mem_map.1 h
    unfold dictGet at hx
    cases hl : (ptm.lookup i) with
    | none => rw [hl] at hx; simp at hx
    | some l =>
      rw [hl] at hx
      simp only [Option.getD_some] at hx
      have hmem : (i, l) ∈ ptm := lookup_mem hl
      refine List.mem_cons_of_mem _ ?_
      refine List.mem_append_right _ ?_
      rw [← hxb]
      refine List.mem_flatMap.2 ⟨(i, l), hmem, ?_⟩
      exact List.mem_map_of_mem _ hx
  · simp only [Adj, neighbours] at h
    obtain ⟨x, hx, hxb⟩ := List.mem_map.1 h
    unfold dictGet at hx
    cases hl : (mtp.lookup i) with
    | none => rw [hl] at hx; simp at hx
    | some l =>
      rw [hl] at hx
      simp only [Option.getD_some] at hx
      have hmem : (i, l) ∈ mtp := lookup_mem hl
      refine List.mem_cons_of_mem _ ?_
      refine List.mem_append_left _ ?_
      refine List.mem_append_left _ ?_
      refine List.mem_append_right _ ?_
      rw [← hxb]
      refine List.mem_flatMap.2 ⟨(i, l), hmem, ?_⟩
      exact List.mem_map_of_mem _ hx

theorem start_mem_nodeList (ptm mtp : AdjMap) (s : Nat) :
    ((Kind.person, s) : Node) ∈ nodeList ptm mtp s := by
  unfold nodeList
  exact List.mem_cons_self _ _

theorem walk_subset_aux {ptm mtp : AdjMap} {s : Nat} :
    ∀ (p : List Node) (hd : Node), p.Chain' (Adj ptm mtp) → p.head? = some hd →
      hd ∈ nodeList ptm mtp s → ∀ x ∈ p, x ∈ nodeList ptm mtp s := by
  intro p
  induction p with
  | nil => intro hd _ hh; simp at hh
  | cons a rest ih =>
    intro hd hchain hh hmem x hx
    simp only [List.head?_cons, Option.some.injEq] at hh
    subst hh
    rcases List.mem_cons.1 hx with h | h
    · rw [h]; exact hmem
    · cases rest with
      | nil => simp at h
      | cons b rest' =>
        rw [List.chain'_cons] at hchain
        exact ih b hchain.2 rfl (adj_mem_nodeList hchain.1) x h

theorem entry_nodes_mem {ptm mtp : AdjMap} {s : Nat} {e : Entry}
    (h : entryOk ptm mtp s e) : ∀ x ∈ e.2, x ∈ nodeList ptm mtp s :=
  walk_subset_aux e.2 _ h.2.2.1 h.1 (start_mem_nodeList ptm mtp s)

theorem chain_kind_get {ptm mtp : AdjMap} :
    ∀ (p : List Node) (hd : Node), p.Chain' (Adj ptm mtp) → p.head? = some hd →
      ∀ (i : Nat), ∀ nd ∈ p.get? i,
        nd.1 = (if i % 2 = 0 then hd.1 else kindFlip hd.1) := by
  intro p
  induction p with
  | nil => intro hd _ _ i nd h; simp at h
  | cons a rest ih =>
    intro hd hchain hh i nd hnd
    simp only [List.head?_cons, Option.some.injEq] at hh
    subst hh
    cases i with
    | zero =>
      simp only [List.get?_cons_zero, Option.mem_def, Option.some.injEq] at hnd
      rw [← hnd]
      simp
    | succ j =>
      simp only [List.get?_cons_succ] at hnd
      cases rest with
      | nil => simp at hnd
      | cons b rest' =>
        rw [List.chain'_cons] at hchain
        have hb := adj_kinds hchain.1
        have := ih b hchain.2 rfl j nd hnd
        rcases Nat.even_or_odd j with hj | hj
        · have hj0 : j % 2 = 0 := Nat.even_iff.1 hj
          have hj1 : (j + 1) % 2 = 1 := by omega
          rw [hj0] at this
          simp only [if_pos rfl] at this
          rw [hj1, this, hb]
          simp
        · have hj1 : j % 2 = 1 := Nat.odd_iff.1 hj
          have hj0 : (j + 1) % 2 = 0 := by omega
          rw [hj1] at this
          simp only [if_neg (by omega : ¬ (1 : Nat) % 2 = 0)] at this
          rw [hj0, this, hb]
          simp only [if_pos rfl]
          cases hk : a.1 <;> simp [kindFlip]

theorem walk_alternating {ptm mtp : AdjMap} {s : Nat} {p : List Node}
    (hw : IsWalk ptm mtp s p) : AlternatingShape p := by
  intro i nd hnd
  have := chain_kind_get p _ hw.2 hw.1 i nd hnd
  simpa [kindFlip] using this

theorem walk_length_odd {ptm mtp : AdjMap} {s : Nat} {p : List Node}
    (hw : IsWalk ptm mtp s p) {v : Node} (hlast : p.getLast? = some v)
    (hperson : v.1 = Kind.person) : Odd p.length := by
  have hne : p ≠ [] := by
    intro hc
    rw [hc] at hlast
    simp at hlast
  have hlen : 0 < p.length := List.length_pos.2 hne
  have hget : p.get? (p.length - 1) = some v := by
    rw [← List.getLast?_eq_get?]
    exact hlast
  have := walk_alternating hw (p.length - 1) v hget
  rcases Nat.even_or_odd p.length with he | ho
  · exfalso
    have hm : (p.length - 1) % 2 = 1 := by
      rcases he with ⟨k, hk⟩
      omega
    rw [hm] at this
    simp only [if_neg (by omega : ¬ (1 : Nat) % 2 = 0)] at this
    rw [hperson] at this
    cases this
  · exact ho

theorem reach_of_walk {ptm mtp : AdjMap} {s : Nat} {p : List Node} {v : Node}
    (hw : IsWalk ptm mtp s p) (hlast : p.getLast? = some v) :
    Reach ptm mtp s (p.length - 1) v := by
  have hne : p ≠ [] := by
    intro hc
    have := hw.1
    rw [hc] at this
    simp at this
  have hlen : 0 < p.length := List.length_pos.2 hne
  exact ⟨p, hw, hlast, by omega⟩

theorem reach_zero {ptm mtp : AdjMap} {s : Nat} {v : Node}
    (h : Reach ptm mtp s 0 v) : v = (Kind.person, s) := by
  obtain ⟨p, ⟨hh, _⟩, hlast, hlen⟩ := h
  cases p with
  | nil => simp at hlen
  | cons a rest =>
    cases rest with
    | nil =>
      simp only [List.head?_cons, Option.some.injEq] at hh
      simp only [List.getLast?_singleton, Option.some.injEq] at hlast
      rw [← hlast, hh]
    | cons b rest' => simp at hlen

theorem reach_start (ptm mtp : AdjMap) (s : Nat) :
    Reach ptm mtp s 0 (Kind.person, s) :=
  ⟨[(Kind.person, s)], ⟨rfl, List.chain'_singleton _⟩, rfl, rfl⟩

theorem reach_step {ptm mtp : AdjMap} {s d : Nat} {u v : Node}
    (hr : Reach ptm mtp s d u) (ha : Adj ptm mtp u v) :
    Reach ptm mtp s (d + 1) v := by
  obtain ⟨p, ⟨hh, hchain⟩, hlast, hlen⟩ := hr
  refine ⟨p ++ [v], ⟨?_, ?_⟩, ?_, ?_⟩
  · rw [List.head?_append, hh]; rfl
  · rw [List.chain'_append]
    refine ⟨hchain, List.chain'_singleton _, ?_⟩
    intro x hx y hy
    simp only [List.head?_cons, Option.mem_def, Option.some.injEq] at hy
    rw [hlast] at hx
    simp only [Option.mem_def, Option.some.injEq] at hx
    rw [← hy, ← hx]
    exact ha
  · simp [List.getLast?_concat]
  · simp [hlen]

theorem reach_pred {ptm mtp : AdjMap} {s d : Nat} {v : Node}
    (h : Reach ptm mtp s (d + 1) v) :
    ∃ u, Adj ptm mtp u v ∧ Reach ptm mtp s d u := by
  obtain ⟨p, ⟨hh, hchain⟩, hlast, hlen⟩ := h
  have hne : p ≠ [] := by intro hc; rw [hc] at hlen; simp at hlen
  have hsplit : p.dropLast ++ [v] = p := List.dropLast_append_getLast? v hlast
  have hqlen : p.dropLast.length = d + 1 := by
    have := List.length_dropLast p
    omega
  have hqne : p.dropLast ≠ [] := by
    intro hc
    rw [hc] at hqlen
    simp at hqlen
  obtain ⟨u, hu⟩ := List.getLast?_isSome.2 hqne |> Option.isSome_iff_exists.1
  rw [← hsplit] at hchain
  rw [List.chain'_append] at hchain
  obtain ⟨hchain1, _, hadj⟩ := hchain
  have hadj' : Adj ptm mtp u v := by
    have := hadj u (by rw [hu]; rfl) v (by rfl)
    exact this
  refine ⟨u, hadj', p.dropLast, ⟨?_, hchain1⟩, hu, by omega⟩
  rw [← hsplit] at hh
  rw [List.head?_append] at hh
  cases hq : p.dropLast.head? with
  | none => exact absurd (List.head?_eq_none_iff.1 hq) hqne
  | some w => rw [hq] at hh; simpa using hh

theorem nat_exists_minimal {P : Nat → Prop} (h : ∃ n, P n) :
    ∃ n, P n ∧ ∀ m, P m → n ≤ m := by
  obtain ⟨n, hn⟩ := h
  induction n using Nat.strong_induction_on with
  | _ n ih =>
    by_cases h' : ∃ m, m < n ∧ P m
    · obtain ⟨m, hm, hPm⟩ := h'
      exact ih m hm hPm
    · exact ⟨n, hn, fun m hPm => Nat.not_lt.1 fun hc => h' ⟨m, hc, hPm⟩⟩

theorem reach_min_pred {ptm mtp : AdjMap} {s d : Nat} {v : Node}
    (h : Reach ptm mtp s (d + 1) v)
    (hmin : ∀ d', Reach ptm mtp s d' v → d + 1 ≤ d') :
    ∃ u, Adj ptm mtp u v ∧ Reach ptm mtp s d u ∧
      ∀ d', Reach ptm mtp s d' u → d ≤ d' := by
  obtain ⟨u, hadj, hr⟩ := reach_pred h
  refine ⟨u, hadj, hr, ?_⟩
  intro d' hd'
  by_contra hc
  have : d' + 1 < d + 1 := by omega
  exact absurd (hmin (d' + 1) (reach_step hd' hadj)) (by omega)

theorem reach_of_mem_walk {ptm mtp : AdjMap} {s : Nat} {p : List Node} {x : Node}
    (hw : IsWalk ptm mtp s p) (hx : x ∈ p) :
    ∃ j, Reach ptm mtp s j x ∧ j < p.length ∧ p.get? j = some x := by
  obtain ⟨⟨j, hj⟩, hget⟩ := List.mem_iff_get.1 hx
  refine ⟨j, ?_, hj, by rw [List.get?_eq_get hj, hget]⟩
  refine ⟨p.take (j + 1), ⟨?_, hw.2.take _⟩, ?_, ?_⟩
  · cases p with
    | nil => simp at hj
    | cons a rest =>
      rw [List.take_succ_cons, List.head?_cons, ← hw.1]
      rfl
  · rw [List.getLast?_eq_get?]
    have hlen : (p.take (j + 1)).length = j + 1 := by
      rw [List.length_take]
      omega
    rw [hlen]
    simp only [Nat.add_sub_cancel]
    rw [List.get?_take (by omega)]
    rw [List.get?_eq_get hj, hget]
  · rw [List.length_take]
    omega

theorem walk_shorten {R : Node → Node → Prop} :
    ∀ (p : List Node), p.Chain' R → ¬ p.Nodup →
      ∃ q : List Node, q.Chain' R ∧ q.head? = p.head? ∧ q.getLast? = p.getLast? ∧
        q.length < p.length := by
  intro p
  induction p with
  | nil => intro _ hnd; exact absurd List.nodup_nil hnd
  | cons x rest ih =>
    intro hchain hnd
    by_cases hx : x ∈ rest
    · obtain ⟨s', t', hst⟩ := List.append_of_mem hx
      refine ⟨x :: t', ?_, rfl, ?_, ?_⟩
      · have hsuff : (x :: t') <:+ (x :: rest) := by
          rw [hst]
          exact ⟨x :: s', by simp⟩
        exact hchain.suffix hsuff
      · rw [hst]
        have h1 : (x :: (s' ++ x :: t')).getLast? = (x :: t').getLast? := by
          rw [show x :: (s' ++ x :: t') = (x :: s') ++ (x :: t') by simp]
          rw [List.getLast?_append]
          cases ht : (x :: t').getLast? with
          | none => simp at ht
          | some w => rfl
        rw [h1]
      · rw [hst]
        simp only [List.length_cons, List.length_append]
        omega
    · have hndr : ¬ rest.Nodup := by
        intro hc
        exact hnd (List.nodup_cons.2 ⟨hx, hc⟩)
      have hchainr : rest.Chain' R := hchain.tail
      obtain ⟨q, hqchain, hqh, hql, hqlen⟩ := ih hchainr hndr
      have hrne : rest ≠ [] := by
        intro hc
        rw [hc] at hndr
        exact hndr List.nodup_nil
      have hqne : q ≠ [] := by
        intro hc
        rw [hc] at hqh
        rcases List.exists_cons_of_ne_nil hrne with ⟨b, rest', hb⟩
        rw [hb] at hqh
        simp at hqh
      refine ⟨x :: q, ?_, rfl, ?_, by simp only [List.length_cons]; omega⟩
      · rw [List.chain'_cons']
        refine ⟨?_, hqchain⟩
        intro y hy
        rcases List.exists_cons_of_ne_nil hrne with ⟨b, rest', hb⟩
        have hchain2 : R x b := by
          rw [hb, List.chain'_cons] at hchain
          exact hchain.1
        rw [hqh, hb] at hy
        simp only [List.head?_cons, Option.mem_def, Option.some.injEq] at hy
        rw [← hy]
        exact hchain2
      · rcases List.exists_cons_of_ne_nil hrne with ⟨b, rest', hb⟩
        rcases List.exists_cons_of_ne_nil hqne with ⟨c, q', hc⟩
        rw [hb, hc]
        rw [List.getLast?_cons_cons]
        rw [hc] at hql
        rw [hb] at hql
        rw [hql]
        rw [List.getLast?_cons_cons]

theorem reach_min_conn {ptm mtp : AdjMap} {s t δ : Nat}
    (h : Reach ptm mtp s δ (Kind.person, t))
    (hmin : ∀ d, Reach ptm mtp s d (Kind.person, t) → δ ≤ d) :
    ∃ W, IsConnPath ptm mtp s t W ∧ W.length = δ + 1 := by
  obtain ⟨p, hw, hlast, hlen⟩ := h
  by_cases hnd : p.Nodup
  · exact ⟨p, ⟨hw.1, hlast, hw.2, hnd⟩, hlen⟩
  · exfalso
    obtain ⟨q, hqchain, hqh, hql, hqlen⟩ := walk_shorten p hw.2 hnd
    have hqwalk : IsWalk ptm mtp s q := ⟨by rw [hqh]; exact hw.1, hqchain⟩
    have hqr : Reach ptm mtp s (q.length - 1) (Kind.person, t) :=
      reach_of_walk hqwalk (by rw [hql]; exact hlast)
    have := hmin _ hqr
    have hqpos : 0 < q.length := by
      have : q ≠ [] := by
        intro hc
        rw [hc] at hqh
        obtain ⟨a, ha⟩ := Option.isSome_iff_exists.1 (by rw [hw.1]; rfl :
          (p.head?).isSome)
        rw [ha] at hqh
        simp at hqh
      exact List.length_pos.2 this
    omega

theorem conn_reach {ptm mtp : AdjMap} {s t : Nat} {q : List Node}
    (h : IsConnPath ptm mtp s t q) :
    Reach ptm mtp s (q.length - 1) (Kind.person, t) :=
  reach_of_walk ⟨h.1, h.2.2.1⟩ h.2.1

/-! ### Step equations of the BFS loop -/

theorem bfsStep_nil {ptm mtp : AdjMap} {goal : Node} {limit : Int} {st : BfsState}
    (h : st.queue = []) : bfsStep ptm mtp goal limit st = StepResult.done st := by
  unfold bfsStep
  rw [h]

theorem bfsStep_break {ptm mtp : AdjMap} {goal : Node} {limit : Int} {st : BfsState}
    {node : Node} {path : List Node} {rest : List Entry} {sh : Nat}
    (h : st.queue = (node, path) :: rest) (hsh : st.shortest = some sh)
    (hlt : sh < path.length) :
    bfsStep ptm mtp goal limit st = StepResult.done (popState st node path rest) := by
  unfold bfsStep
  rw [h]
  dsimp only
  rw [hsh]
  dsimp only
  rw [if_pos hlt]
  simp only [popState, hsh]

theorem bfsStep_goal {ptm mtp : AdjMap} {goal : Node} {limit : Int} {st : BfsState}
    {node : Node} {path : List Node} {rest : List Entry}
    (h : st.queue = (node, path) :: rest)
    (hnb : ∀ sh, st.shortest = some sh → ¬ sh < path.length)
    (hg : node = goal ∧ 1 < path.length) :
    bfsStep ptm mtp goal limit st =
      (if limit ≤ ((st.solutions.length + 1 : Nat) : Int) then
        StepResult.done (solState (popState st node path rest) path)
      else
        StepResult.next (solState (popState st node path rest) path)) := by
  unfold bfsStep
  rw [h]
  dsimp only
  have hafter : bfsAfterPop ptm mtp goal limit node path (popState st node path rest) =
      (if limit ≤ ((st.solutions.length + 1 : Nat) : Int) then
        StepResult.done (solState (popState st node path rest) path)
      else
        StepResult.next (solState (popState st node path rest) path)) := by
    unfold bfsAfterPop
    rw [if_pos hg]
    dsimp only [popState, solState]
    rw [List.length_append]
    rfl
  cases hsh : st.shortest with
  | none =>
    dsimp only
    rw [← hsh]
    exact hafter
  | some sh =>
    dsimp only
    rw [if_neg (hnb sh hsh), ← hsh]
    exact hafter

theorem bfsStep_expand {ptm mtp : AdjMap} {goal : Node} {limit : Int} {st : BfsState}
    {node : Node} {path : List Node} {rest : List Entry}
    (h : st.queue = (node, path) :: rest)
    (hnb : ∀ sh, st.shortest = some sh → ¬ sh < path.length)
    (hng : ¬ (node = goal ∧ 1 < path.length)) :
    bfsStep ptm mtp goal limit st =
      StepResult.next (expandState ptm mtp (popState st node path rest) node path) := by
  unfold bfsStep
  rw [h]
  dsimp only
  have hafter : bfsAfterPop ptm mtp goal limit node path (popState st node path rest) =
      StepResult.next (expandState ptm mtp (popState st node path rest) node path) := by
    unfold bfsAfterPop
    rw [if_neg hng]
    dsimp only [popState, expandState]
    rw [expand_eq]
  cases hsh : st.shortest with
  | none =>
    dsimp only
    rw [← hsh]
    exact hafter
  | some sh =>
    dsimp only
    rw [if_neg (hnb sh hsh), ← hsh]
    exact hafter

/-! ### Preservation of the soundness invariant -/

theorem mem_shunt {α : Type} (p r : List α) (e : α) (x : α) :
    x ∈ (p ++ [e]) ++ r ↔ x ∈ p ++ e :: r := by
  simp only [List.mem_append, List.mem_cons, List.mem_singleton]
  tauto

theorem sorted_const (c : Nat) {l : List Nat} (h : ∀ x ∈ l, x = c) :
    List.Sorted (· ≤ ·) l := by
  induction l with
  | nil => exact List.sorted_nil
  | cons a rest ih =>
    rw [List.sorted_cons]
    refine ⟨?_, ih fun x hx => h x (List.mem_cons_of_mem _ hx)⟩
    intro b hb
    rw [h a (List.mem_cons_self _ _), h b (List.mem_cons_of_mem _ hb)]

theorem expandQ_len (path : List Node) (nbs : List Node) (v : Visited) :
    ∀ e ∈ expandQ path nbs v, e.2.length = path.length + 1 := by
  intro e he
  obtain ⟨nb, _, hE, _⟩ := expandQ_mem path nbs v e he
  rw [hE]
  simp

theorem invSound_pop {ptm mtp : AdjMap} {s t : Nat} {limit : Int} {st : BfsState}
    {node : Node} {path : List Node} {rest : List Entry}
    (inv : InvSound ptm mtp s t limit st) (hq : st.queue = (node, path) :: rest) :
    InvSound ptm mtp s t limit (popState st node path rest) := by
  have hheadle : ∀ f ∈ rest, path.length ≤ f.2.length := by
    intro f hf
    have := inv.sortedQ
    rw [hq, List.map_cons] at this
    rw [List.sorted_cons] at this
    exact this.1 _ (List.mem_map_of_mem _ hf)
  refine ⟨?_, ?_, ?_, ?_, ?_, ?_, ?_, ?_, ?_⟩
  · intro e he
    have he' : e ∈ st.popped ++ (node, path) :: rest :=
      (mem_shunt _ _ _ _).1 (by simpa [popState] using he)
    rw [← hq] at he'
    exact inv.valid e he'
  · have := inv.sortedQ
    rw [hq, List.map_cons, List.sorted_cons] at this
    exact this.2
  · intro e he f hf
    exact inv.spreadQ e (by rw [hq]; exact List.mem_cons_of_mem _ he)
      f (by rw [hq]; exact List.mem_cons_of_mem _ hf)
  · intro e he f hf
    simp only [popState] at he hf
    rcases List.mem_append.1 he with h1 | h1
    · exact inv.popLe e h1 f (by rw [hq]; exact List.mem_cons_of_mem _ hf)
    · simp only [List.mem_singleton] at h1
      rw [h1]
      exact hheadle f hf
  · intro sh hsh
    obtain ⟨e, he, hrest⟩ := inv.shortPopped sh hsh
    exact ⟨e, by simp only [popState]; exact List.mem_append_left _ he, hrest⟩
  · exact inv.solsLen
  · exact inv.solsConn
  · exact inv.noneEmpty
  · exact inv.someNonempty

theorem invSound_sol {ptm mtp : AdjMap} {s t : Nat} {limit : Int} {s1 : BfsState}
    {path : List Node}
    (inv : InvSound ptm mtp s t limit s1)
    (hmem : ((((Kind.person, t) : Node), path) : Entry) ∈ s1.popped)
    (hlen : 1 < path.length)
    (hub : ∀ sh, s1.shortest = some sh → path.length ≤ sh)
    (hlb : ∀ sh, s1.shortest = some sh → sh ≤ path.length) :
    InvSound ptm mtp s t limit (solState s1 path) := by
  have hok : entryOk ptm mtp s ((Kind.person, t), path) :=
    inv.valid _ (List.mem_append_left _ hmem)
  have hconn : IsConnPath ptm mtp s t path := ⟨hok.1, hok.2.1, hok.2.2.1, hok.2.2.2⟩
  refine ⟨?_, ?_, ?_, ?_, ?_, ?_, ?_, ?_, ?_⟩
  · exact inv.valid
  · exact inv.sortedQ
  · exact inv.spreadQ
  · exact inv.popLe
  · intro sh hsh
    simp only [solState, Option.some.injEq] at hsh
    cases hs1 : s1.shortest with
    | none =>
      rw [hs1] at hsh
      simp only [Option.getD_none] at hsh
      exact ⟨((Kind.person, t), path), hmem, rfl, by dsimp only; omega,
        by dsimp only; omega⟩
    | some sh0 =>
      rw [hs1] at hsh
      simp only [Option.getD_some] at hsh
      obtain ⟨e, he, h1, h2, h3⟩ := inv.shortPopped sh0 hs1
      exact ⟨e, he, h1, by omega, h3⟩
  · intro sh hsh sol hsol
    simp only [solState, Option.some.injEq] at hsh
    simp only [solState, List.mem_append, List.mem_singleton] at hsol
    cases hs1 : s1.shortest with
    | none =>
      rw [hs1] at hsh
      simp only [Option.getD_none] at hsh
      rcases hsol with h | h
      · rw [inv.noneEmpty hs1] at h
        simp at h
      · rw [h, hsh]
    | some sh0 =>
      rw [hs1] at hsh
      simp only [Option.getD_some] at hsh
      rcases hsol with h | h
      · rw [← hsh]
        exact inv.solsLen sh0 hs1 sol h
      · rw [h, ← hsh]
        exact le_antisymm (hub sh0 hs1) (hlb sh0 hs1)
  · intro sol hsol
    simp only [solState, List.mem_append, List.mem_singleton] at hsol
    rcases hsol with h | h
    · exact inv.solsConn sol h
    · rw [h]
      exact ⟨hconn, by omega⟩
  · intro hnone
    simp [solState] at hnone
  · intro sh _ hc
    simp only [solState] at hc
    exact absurd hc (by simp)

theorem invSound_expand {ptm mtp : AdjMap} {s t : Nat} {limit : Int} {s1 : BfsState}
    {node : Node} {path : List Node}
    (inv : InvSound ptm mtp s t limit s1)
    (hok : entryOk ptm mtp s (node, path))
    (hspread : ∀ f ∈ s1.queue, f.2.length ≤ path.length + 1)
    (hple : ∀ f ∈ s1.queue, path.length ≤ f.2.length)
    (hpop : ∀ e ∈ s1.popped, e.2.length ≤ path.length) :
    InvSound ptm mtp s t limit (expandState ptm mtp s1 node path) := by
  set nbs := neighbours ptm mtp node with hnbs
  have hnewlen : ∀ e ∈ expandQ path nbs s1.visited, e.2.length = path.length + 1 :=
    expandQ_len path nbs s1.visited
  have hnewok : ∀ e ∈ expandQ path nbs s1.visited, entryOk ptm mtp s e := by
    intro e he
    obtain ⟨nb, hnb, hE, hnp⟩ := expandQ_mem path nbs s1.visited e he
    rw [hE]
    exact entryOk_child hok hnb hnp
  refine ⟨?_, ?_, ?_, ?_, ?_, ?_, ?_, ?_, ?_⟩
  · intro e he
    have he2 : e ∈ s1.popped ++ (s1.queue ++ expandQ path nbs s1.visited) := he
    rw [List.mem_append, List.mem_append] at he2
    rcases he2 with h | h | h
    · exact inv.valid e (List.mem_append_left _ h)
    · exact inv.valid e (List.mem_append_right _ h)
    · exact hnewok e h
  · show List.Sorted (· ≤ ·)
      ((s1.queue ++ expandQ path nbs s1.visited).map fun e => e.2.length)
    rw [List.map_append]
    refine List.pairwise_append.2 ⟨inv.sortedQ, sorted_const (path.length + 1) ?_, ?_⟩
    · intro x hx
      obtain ⟨e, he, hee⟩ := List.mem_map.1 hx
      rw [← hee]
      exact hnewlen e he
    · intro a ha b hb
      obtain ⟨e, he, hee⟩ := List.mem_map.1 ha
      obtain ⟨f, hf, hff⟩ := List.mem_map.1 hb
      rw [← hee, ← hff, hnewlen f hf]
      exact hspread e he
  · intro e he f hf
    have he2 : e ∈ s1.queue ++ expandQ path nbs s1.visited := he
    have hf2 : f ∈ s1.queue ++ expandQ path nbs s1.visited := hf
    rw [List.mem_append] at he2 hf2
    show e.2.length ≤ f.2.length + 1
    rcases he2 with he2 | he2 <;> rcases hf2 with hf2 | hf2
    · exact inv.spreadQ e he2 f hf2
    · rw [hnewlen f hf2]
      have := hspread e he2
      omega
    · rw [hnewlen e he2]
      have := hple f hf2
      omega
    · rw [hnewlen e he2, hnewlen f hf2]
      omega
  · intro e he f hf
    have he2 : e ∈ s1.popped := he
    have hf2 : f ∈ s1.queue ++ expandQ path nbs s1.visited := hf
    rw [List.mem_append] at hf2
    show e.2.length ≤ f.2.length
    rcases hf2 with hf2 | hf2
    · exact inv.popLe e he2 f hf2
    · rw [hnewlen f hf2]
      have := hpop e he2
      omega
  · intro sh hsh
    have hsh2 : s1.shortest = some sh := hsh
    obtain ⟨e, he, hrest⟩ := inv.shortPopped sh hsh2
    exact ⟨e, he, hrest⟩
  · intro sh hsh
    exact inv.solsLen sh hsh
  · intro sol hsol
    exact inv.solsConn sol hsol
  · intro hnone
    exact inv.noneEmpty hnone
  · intro sh hsh
    exact inv.someNonempty sh hsh

theorem invSound_step {ptm mtp : AdjMap} {s t : Nat} {limit : Int} {st st' : BfsState}
    (inv : InvSound ptm mtp s t limit st)
    (h : bfsStep ptm mtp (Kind.person, t) limit st = StepResult.done st' ∨
      bfsStep ptm mtp (Kind.person, t) limit st = StepResult.next st') :
    InvSound ptm mtp s t limit st' := by
  cases hq : st.queue with
  | nil =>
    rw [bfsStep_nil hq] at h
    rcases h with h | h
    · cases h
      exact inv
    · cases h
  | cons e rest =>
    rcases e with ⟨node, path⟩
    have hplen : ∀ f ∈ st.queue, path.length ≤ f.2.length := by
      intro f hf
      rw [hq] at hf
      rcases List.mem_cons.1 hf with h' | h'
      · rw [h']
      · have := inv.sortedQ
        rw [hq, List.map_cons, List.sorted_cons] at this
        exact this.1 _ (List.mem_map_of_mem _ h')
    have hs1 : InvSound ptm mtp s t limit (popState st node path rest) :=
      invSound_pop inv hq
    by_cases hbr : ∃ sh, st.shortest = some sh ∧ sh < path.length
    · obtain ⟨sh, hsh, hlt⟩ := hbr
      rw [bfsStep_break hq hsh hlt] at h
      rcases h with h | h
      · cases h
        exact hs1
      · cases h
    · have hnb : ∀ sh, st.shortest = some sh → ¬ sh < path.length := by
        intro sh hsh hlt
        exact hbr ⟨sh, hsh, hlt⟩
      by_cases hg : node = ((Kind.person, t) : Node) ∧ 1 < path.length
      · have hub : ∀ sh, (popState st node path rest).shortest = some sh →
            path.length ≤ sh := by
          intro sh hsh
          have : st.shortest = some sh := hsh
          exact Nat.not_lt.1 (hnb sh this)
        have hlb : ∀ sh, (popState st node path rest).shortest = some sh →
            sh ≤ path.length := by
          intro sh hsh
          have hsh' : st.shortest = some sh := hsh
          obtain ⟨f, hf, _, hflen, _⟩ := inv.shortPopped sh hsh'
          rw [← hflen]
          exact inv.popLe f hf (node, path) (by rw [hq]; exact List.mem_cons_self _ _)
        have hmem : ((((Kind.person, t) : Node), path) : Entry) ∈
            (popState st node path rest).popped := by
          simp only [popState]
          rw [← hg.1]
          exact List.mem_append_right _ (List.mem_singleton.2 rfl)
        have hsol := invSound_sol hs1 hmem hg.2 hub hlb
        rw [bfsStep_goal hq hnb hg] at h
        rcases h with h | h <;>
          · by_cases hlim : limit ≤ ((st.solutions.length + 1 : Nat) : Int)
            · rw [if_pos hlim] at h
              first
                | (cases h; exact hsol)
                | cases h
            · rw [if_neg hlim] at h
              first
                | (cases h; exact hsol)
                | cases h
      · rw [bfsStep_expand hq hnb hg] at h
        have hok : entryOk ptm mtp s (node, path) :=
          inv.valid _ (List.mem_append_right _ (by rw [hq]; exact List.mem_cons_self _ _))
        have hexp := invSound_expand hs1 hok
          (by
            intro f hf
            exact inv.spreadQ f (by rw [hq]; exact List.mem_cons_of_mem _ hf)
              (node, path) (by rw [hq]; exact List.mem_cons_self _ _))
          (by
            intro f hf
            exact hplen f (by rw [hq]; exact List.mem_cons_of_mem _ hf))
          (by
            intro e he
            simp only [popState, List.mem_append, List.mem_singleton] at he
            rcases he with he | he
            · exact inv.popLe e he (node, path) (by rw [hq]; exact List.mem_cons_self _ _)
            · rw [he])
        rcases h with h | h
        · cases h
        · cases h
          exact hexp

/-- Exhaustive description of what one loop iteration can do. -/
theorem bfsStep_cases (ptm mtp : AdjMap) (goal : Node) (limit : Int) (st : BfsState) :
    (st.queue = [] ∧ bfsStep ptm mtp goal limit st = StepResult.done st) ∨
    (∃ node path rest sh, st.queue = (node, path) :: rest ∧ st.shortest = some sh ∧
      sh < path.length ∧
      bfsStep ptm mtp goal limit st = StepResult.done (popState st node path rest)) ∨
    (∃ node path rest, st.queue = (node, path) :: rest ∧
      (∀ sh, st.shortest = some sh → ¬ sh < path.length) ∧
      node = goal ∧ 1 < path.length ∧ limit ≤ ((st.solutions.length + 1 : Nat) : Int) ∧
      bfsStep ptm mtp goal limit st =
        StepResult.done (solState (popState st node path rest) path)) ∨
    (∃ node path rest, st.queue = (node, path) :: rest ∧
      (∀ sh, st.shortest = some sh → ¬ sh < path.length) ∧
      node = goal ∧ 1 < path.length ∧ ¬ limit ≤ ((st.solutions.length + 1 : Nat) : Int) ∧
      bfsStep ptm mtp goal limit st =
        StepResult.next (solState (popState st node path rest) path)) ∨
    (∃ node path rest, st.queue = (node, path) :: rest ∧
      (∀ sh, st.shortest = some sh → ¬ sh < path.length) ∧
      ¬ (node = goal ∧ 1 < path.length) ∧
      bfsStep ptm mtp goal limit st =
        StepResult.next (expandState ptm mtp (popState st node path rest) node path)) := by
  cases hq : st.queue with
  | nil => exact Or.inl ⟨rfl, bfsStep_nil hq⟩
  | cons e rest =>
    rcases e with ⟨node, path⟩
    by_cases hbr : ∃ sh, st.shortest = some sh ∧ sh < path.length
    · obtain ⟨sh, hsh, hlt⟩ := hbr
      exact Or.inr (Or.inl ⟨node, path, rest, sh, rfl, hsh, hlt, bfsStep_break hq hsh hlt⟩)
    · have hnb : ∀ sh, st.shortest = some sh → ¬ sh < path.length := by
        intro sh hsh hlt
        exact hbr ⟨sh, hsh, hlt⟩
      by_cases hg : node = goal ∧ 1 < path.length
      · by_cases hlim : limit ≤ ((st.solutions.length + 1 : Nat) : Int)
        · refine Or.inr (Or.inr (Or.inl ⟨node, path, rest, rfl, hnb, hg.1, hg.2, hlim, ?_⟩))
          rw [bfsStep_goal hq hnb hg, if_pos hlim]
        · refine Or.inr (Or.inr (Or.inr (Or.inl
            ⟨node, path, rest, rfl, hnb, hg.1, hg.2, hlim, ?_⟩)))
          rw [bfsStep_goal hq hnb hg, if_neg hlim]
      · exact Or.inr (Or.inr (Or.inr (Or.inr
          ⟨node, path, rest, rfl, hnb, hg, bfsStep_expand hq hnb hg⟩)))

theorem bfsLoop_succ_done {ptm mtp : AdjMap} {goal : Node} {limit : Int}
    {st s1 : BfsState} {fuel : Nat}
    (h : bfsStep ptm mtp goal limit st = StepResult.done s1) :
    bfsLoop ptm mtp goal limit (fuel + 1) st = s1 := by
  conv_lhs => rw [bfsLoop]
  rw [h]

theorem bfsLoop_succ_next {ptm mtp : AdjMap} {goal : Node} {limit : Int}
    {st s1 : BfsState} {fuel : Nat}
    (h : bfsStep ptm mtp goal limit st = StepResult.next s1) :
    bfsLoop ptm mtp goal limit (fuel + 1) st = bfsLoop ptm mtp goal limit fuel s1 := by
  conv_lhs => rw [bfsLoop]
  rw [h]

theorem invSound_init (ptm mtp : AdjMap) (s t : Nat) (limit : Int) :
    InvSound ptm mtp s t limit (bfsInit s) := by
  refine ⟨?_, ?_, ?_, ?_, ?_, ?_, ?_, ?_, ?_⟩
  · intro e he
    have he2 : e ∈ ([] : List Entry) ++
        [(((Kind.person, s) : Node), [((Kind.person, s) : Node)])] := he
    simp only [List.nil_append, List.mem_singleton] at he2
    rw [he2]
    exact ⟨rfl, rfl, List.chain'_singleton _, List.nodup_singleton _⟩
  · show List.Sorted (· ≤ ·) [([((Kind.person, s) : Node)]).length]
    exact List.sorted_singleton _
  · intro e he f hf
    have he2 : e ∈ [(((Kind.person, s) : Node), [((Kind.person, s) : Node)])] := he
    have hf2 : f ∈ [(((Kind.person, s) : Node), [((Kind.person, s) : Node)])] := hf
    simp only [List.mem_singleton] at he2 hf2
    rw [he2, hf2]
    omega
  · intro e he
    have he2 : e ∈ ([] : List Entry) := he
    simp at he2
  · intro sh hsh
    have : (none : Option Nat) = some sh := hsh
    cases this
  · intro sh hsh
    have : (none : Option Nat) = some sh := hsh
    cases this
  · intro sol hsol
    have : sol ∈ ([] : List (List Node)) := hsol
    simp at this
  · intro _
    rfl
  · intro sh hsh
    have : (none : Option Nat) = some sh := hsh
    cases this

theorem bfsLoop_invSound {ptm mtp : AdjMap} {s t : Nat} {limit : Int} :
    ∀ (fuel : Nat) (st : BfsState), InvSound ptm mtp s t limit st →
      InvSound ptm mtp s t limit (bfsLoop ptm mtp (Kind.person, t) limit fuel st) := by
  intro fuel
  induction fuel with
  | zero => intro st inv; exact inv
  | succ n ih =>
    intro st inv
    cases hstep : bfsStep ptm mtp (Kind.person, t) limit st with
    | done s1 =>
      rw [bfsLoop_succ_done hstep]
      exact invSound_step inv (Or.inl hstep)
    | next s1 =>
      rw [bfsLoop_succ_next hstep]
      exact ih s1 (invSound_step inv (Or.inr hstep))

theorem bfsLoop_limit {ptm mtp : AdjMap} {s t : Nat} {limit : Int} :
    ∀ (fuel : Nat) (st : BfsState), InvSound ptm mtp s t limit st →
      (limit ≤ 0 → st.solutions = []) → limit ≤ 0 →
      (bfsLoop ptm mtp (Kind.person, t) limit fuel st).solutions.length ≤ 1 := by
  intro fuel
  induction fuel with
  | zero =>
    intro st _ hsol hl
    show st.solutions.length ≤ 1
    rw [hsol hl]
    simp
  | succ n ih =>
    intro st inv hsol hl
    rcases bfsStep_cases ptm mtp (Kind.person, t) limit st with
      ⟨_, hstep⟩ | ⟨node, path, rest, sh, hq, hsh, hlt, hstep⟩ |
      ⟨node, path, rest, hq, hnb, hg1, hg2, hlim, hstep⟩ |
      ⟨node, path, rest, hq, hnb, hg1, hg2, hlim, hstep⟩ |
      ⟨node, path, rest, hq, hnb, hng, hstep⟩
    · rw [bfsLoop_succ_done hstep, hsol hl]
      simp
    · rw [bfsLoop_succ_done hstep]
      show (popState st node path rest).solutions.length ≤ 1
      have : (popState st node path rest).solutions = st.solutions := rfl
      rw [this, hsol hl]
      simp
    · rw [bfsLoop_succ_done hstep]
      show (st.solutions ++ [path]).length ≤ 1
      rw [hsol hl]
      simp
    · exfalso
      apply hlim
      have h1 : (0 : Int) ≤ ((st.solutions.length + 1 : Nat) : Int) := by
        exact_mod_cast Nat.zero_le _
      omega
    · rw [bfsLoop_succ_next hstep]
      refine ih _ (invSound_step inv (Or.inr hstep)) ?_ hl
      intro hl2
      show (popState st node path rest).solutions = []
      have : (popState st node path rest).solutions = st.solutions := rfl
      rw [this]
      exact hsol hl2

/-! ### Soundness facts about `find_shortest_paths` -/

theorem find_eq_loop {s t : Nat} {ptm mtp : AdjMap} {limit : Int} (hne : ¬ s = t) :
    find_shortest_paths s t ptm mtp limit =
      (bfsLoop ptm mtp (Kind.person, t) limit (bfsFuel ptm mtp s) (bfsInit s)).solutions := by
  unfold find_shortest_paths
  rw [if_neg hne]

theorem find_self (s : Nat) (ptm mtp : AdjMap) (limit : Int) :
    find_shortest_paths s s ptm mtp limit = [] := by
  unfold find_shortest_paths
  rw [if_pos rfl]

theorem find_invSound {s t : Nat} (ptm mtp : AdjMap) (limit : Int) :
    InvSound ptm mtp s t limit
      (bfsLoop ptm mtp (Kind.person, t) limit (bfsFuel ptm mtp s) (bfsInit s)) :=
  bfsLoop_invSound _ _ (invSound_init ptm mtp s t limit)

theorem find_sound {s t : Nat} {ptm mtp : AdjMap} {limit : Int} :
    ∀ sol ∈ find_shortest_paths s t ptm mtp limit,
      IsConnPath ptm mtp s t sol ∧ 2 ≤ sol.length := by
  intro sol hsol
  by_cases hne : s = t
  · subst hne
    rw [find_self] at hsol
    simp at hsol
  · rw [find_eq_loop hne] at hsol
    exact (find_invSound ptm mtp limit).solsConn sol hsol

theorem find_same_length {s t : Nat} {ptm mtp : AdjMap} {limit : Int} :
    ∀ p ∈ find_shortest_paths s t ptm mtp limit,
      ∀ q ∈ find_shortest_paths s t ptm mtp limit, p.length = q.length := by
  intro p hp q hq
  by_cases hne : s = t
  · subst hne
    rw [find_self] at hp
    simp at hp
  · rw [find_eq_loop hne] at hp hq
    have inv := find_invSound (s := s) (t := t) ptm mtp limit
    cases hsh : (bfsLoop ptm mtp (Kind.person, t) limit (bfsFuel ptm mtp s)
        (bfsInit s)).shortest with
    | none =>
      rw [inv.noneEmpty hsh] at hp
      simp at hp
    | some sh =>
      rw [inv.solsLen sh hsh p hp, inv.solsLen sh hsh q hq]

theorem conn_wellFormed {ptm mtp : AdjMap} {s t : Nat} {p : List Node}
    (h : IsConnPath ptm mtp s t p) (hlen : 2 ≤ p.length) : WellFormedPath s t p := by
  obtain ⟨hhead, hlast, hchain, hnodup⟩ := h
  have hwalk : IsWalk ptm mtp s p := ⟨hhead, hchain⟩
  have hodd : Odd p.length := walk_length_odd hwalk hlast rfl
  refine ⟨hhead, hlast, hnodup, hodd, ?_, walk_alternating hwalk⟩
  rcases hodd with ⟨k, hk⟩
  omega

theorem no_conn_of_start_absent {ptm mtp : AdjMap} {s t : Nat} {p : List Node}
    (habs : ptm.lookup s = none) (hne : ¬ s = t) (h : IsConnPath ptm mtp s t p) :
    False := by
  obtain ⟨hhead, hlast, hchain, _⟩ := h
  cases p with
  | nil => simp at hhead
  | cons a rest =>
    simp only [List.head?_cons, Option.some.injEq] at hhead
    subst hhead
    cases rest with
    | nil =>
      simp only [List.getLast?_singleton, Option.some.injEq] at hlast
      exact hne (by
        have := congrArg Prod.snd hlast
        simpa using this)
    | cons b rest' =>
      rw [List.chain'_cons] at hchain
      have hadj := hchain.1
      simp only [Adj, neighbours, dictGet, habs, Option.getD_none, List.map_nil] at hadj
      exact (List.not_mem_nil _) hadj

theorem no_conn_of_target_absent {ptm mtp : AdjMap} {s t : Nat} {p : List Node}
    (habs : ∀ b ∈ mtp, t ∉ b.2) (hne : ¬ s = t) (h : IsConnPath ptm mtp s t p) :
    False := by
  have hreach := conn_reach h
  have hlen2 : 2 ≤ p.length := by
    obtain ⟨hhead, hlast, _, _⟩ := h
    cases p with
    | nil => simp at hhead
    | cons a rest =>
      cases rest with
      | nil =>
        simp only [List.head?_cons, Option.some.injEq] at hhead
        simp only [List.getLast?_singleton, Option.some.injEq] at hlast
        subst hhead
        exact absurd (by
          have := congrArg Prod.snd hlast
          simpa using this) hne
      | cons b rest' => simp
  obtain ⟨d, hd⟩ : ∃ d, p.length - 1 = d + 1 := ⟨p.length - 2, by omega⟩
  rw [hd] at hreach
  obtain ⟨u, hadj, _⟩ := reach_pred hreach
  have hk := adj_kinds hadj
  rcases u with ⟨ku, iu⟩
  cases ku
  · simp [kindFlip] at hk
  · simp only [Adj, neighbours, dictGet] at hadj
    obtain ⟨x, hx, hxe⟩ := List.mem_map.1 hadj
    cases hl : mtp.lookup iu with
    | none => rw [hl] at hx; simp at hx
    | some l =>
      rw [hl] at hx
      simp only [Option.getD_some] at hx
      have hmem : (iu, l) ∈ mtp := lookup_mem hl
      have hxt : x = t := by
        have := congrArg Prod.snd hxe
        simpa using this
      rw [hxt] at hx
      exact habs (iu, l) hmem hx

theorem find_empty_of_no_conn {s t : Nat} {ptm mtp : AdjMap} {limit : Int}
    (h : ¬ ∃ p, IsConnPath ptm mtp s t p) :
    find_shortest_paths s t ptm mtp limit = [] := by
  cases hr : find_shortest_paths s t ptm mtp limit with
  | nil => rfl
  | cons p rest =>
    exfalso
    have hp : p ∈ find_shortest_paths s t ptm mtp limit := by
      rw [hr]
      exact List.mem_cons_self _ _
    exact h ⟨p, (find_sound p hp).1⟩

/-! ### The full invariant: preservation -/

theorem append_shunt {α : Type} (p r : List α) (e : α) : (p ++ [e]) ++ r = p ++ e :: r := by
  simp

theorem neighbours_nodup {ptm mtp : AdjMap} (hwf : WFGraph ptm mtp) (n : Node) :
    (neighbours ptm mtp n).Nodup := by
  rcases n with ⟨k, i⟩
  cases k
  · show ((dictGet ptm i).map fun movie_id => ((Kind.movie, movie_id) : Node)).Nodup
    refine List.Nodup.map (fun a b h => ?_) ?_
    · have := congrArg Prod.snd h
      simpa using this
    · unfold dictGet
      cases hl : ptm.lookup i with
      | none => simp
      | some l => simpa using hwf.1 (i, l) (lookup_mem hl)
  · show ((dictGet mtp i).map fun person_id => ((Kind.person, person_id) : Node)).Nodup
    refine List.Nodup.map (fun a b h => ?_) ?_
    · have := congrArg Prod.snd h
      simpa using this
    · unfold dictGet
      cases hl : mtp.lookup i with
      | none => simp
      | some l => simpa using hwf.2 (i, l) (lookup_mem hl)

theorem expandV_keep (path : List Node) :
    ∀ (nbs : List Node) (v : Visited) (w : Node) (k : Nat),
      vget v w = some k → k < path.length →
      vget (expandV path nbs v) w = some k := by
  intro nbs
  induction nbs with
  | nil => intro v w k hw _; exact hw
  | cons nb rest ih =>
    intro v w k hw hk
    by_cases hmem : nb ∈ path
    · simp only [expandV, if_pos hmem]
      exact ih v w k hw hk
    · cases hv : vget v nb with
      | some previous =>
        by_cases hlt : previous < path.length
        · simp only [expandV, if_neg hmem, hv, if_pos hlt]
          exact ih v w k hw hk
        · simp only [expandV, if_neg hmem, hv, if_neg hlt]
          have hne : w ≠ nb := by
            intro hc
            rw [hc, hv] at hw
            cases hw
            exact hlt hk
          refine ih _ w k ?_ hk
          rw [vget_vset_ne _ _ hne]
          exact hw
      | none =>
        simp only [expandV, if_neg hmem, hv]
        have hne : w ≠ nb := by
          intro hc
          rw [hc, hv] at hw
          cases hw
        refine ih _ w k ?_ hk
        rw [vget_vset_ne _ _ hne]
        exact hw

theorem visited_const {ptm mtp : AdjMap} {s t : Nat} {limit : Int} {st : BfsState}
    {node : Node} {path : List Node} {rest : List Entry}
    (inv : InvFull ptm mtp s t limit st) (hq : st.queue = (node, path) :: rest) :
    ∀ w k, vget st.visited w = some k →
      vget (expandV path (neighbours ptm mtp node) st.visited) w = some k := by
  intro w k hw
  obtain ⟨e, he, hew, helen⟩ := inv.vsound w k hw
  have hfront : ((node, path) : Entry) ∈ st.queue := by
    rw [hq]
    exact List.mem_cons_self _ _
  have hplen : ((node, path) : Entry).2.length = path.length := rfl
  have hk : k ≤ path.length := by
    rcases List.mem_append.1 he with h | h
    · have := inv.popLe e h (node, path) hfront
      omega
    · have := inv.spreadQ e h (node, path) hfront
      omega
  rcases Nat.lt_or_ge k path.length with hlt | hge
  · exact expandV_keep path _ _ w k hw hlt
  · have hkk : k = path.length := le_antisymm hk hge
    rw [hkk] at hw ⊢
    exact expandV_persist path _ _ _ hw

/-! ### Completeness: every node is recorded at its true distance -/

theorem front_min {ptm mtp : AdjMap} {s t : Nat} {limit : Int} {st : BfsState}
    {node : Node} {path : List Node} {rest : List Entry}
    (inv : InvSound ptm mtp s t limit st) (hq : st.queue = (node, path) :: rest) :
    ∀ f ∈ st.queue, path.length ≤ f.2.length := by
  intro f hf
  rw [hq] at hf
  rcases List.mem_cons.1 hf with h | h
  · rw [h]
  · have := inv.sortedQ
    rw [hq, List.map_cons, List.sorted_cons] at this
    exact this.1 _ (List.mem_map_of_mem _ h)

theorem goal_entry_len {ptm mtp : AdjMap} {s t : Nat} {e : Entry}
    (hok : entryOk ptm mtp s e) (hgoal : e.1 = ((Kind.person, t) : Node))
    (hst : ¬ s = t) : 2 ≤ e.2.length := by
  rcases e with ⟨n, p⟩
  obtain ⟨hh, hl, _, _⟩ := hok
  cases p with
  | nil => simp at hh
  | cons a rest =>
    cases rest with
    | nil =>
      exfalso
      simp only [List.head?_cons, Option.some.injEq] at hh
      simp only [List.getLast?_singleton, Option.some.injEq] at hl
      simp only at hgoal
      rw [hgoal] at hl
      rw [hl] at hh
      exact hst (by injection hh with h1 h2; exact h2.symm)
    | cons b rest' => simp

theorem expanded_gives {ptm mtp : AdjMap} {s t : Nat} {limit : Int} {st : BfsState}
    (inv : InvFull ptm mtp s t limit st) {u v : Node} {d' : Nat} {eu : Entry}
    (hP : eu ∈ st.popped) (hugoal : eu.1 ≠ ((Kind.person, t) : Node))
    (heu1 : eu.1 = u) (heulen : eu.2.length = d' + 1)
    (hadj : Adj ptm mtp u v)
    (hminv : ∀ j, Reach ptm mtp s j v → d' + 1 ≤ j) :
    vget st.visited v = some (d' + 1) := by
  have hexp := inv.expanded eu hP hugoal
  have hadj' : v ∈ neighbours ptm mtp eu.1 := by
    rw [heu1]
    exact hadj
  rcases hexp v hadj' with hvin | ⟨k, hk, hkle⟩
  · exfalso
    have hok := inv.valid eu (List.mem_append_left _ hP)
    have hw : IsWalk ptm mtp s eu.2 := ⟨hok.1, hok.2.2.1⟩
    obtain ⟨j, hjr, hjlt, hjget⟩ := reach_of_mem_walk hw hvin
    have hvne : v ≠ eu.1 := by
      rw [heu1]
      intro hc
      exact (adj_ne hadj) (by rw [hc])
    have hjne : j ≠ eu.2.length - 1 := by
      intro hc
      have hlast : eu.2.get? (eu.2.length - 1) = some eu.1 := by
        rw [← List.getLast?_eq_get?]
        exact hok.2.1
      rw [← hc, hjget] at hlast
      exact hvne (Option.some.inj hlast)
    have := hminv j hjr
    omega
  · have hge : d' + 1 ≤ k := by
      obtain ⟨e2, he2, he21, he2len⟩ := inv.vsound v k hk
      have hok2 := inv.valid e2 he2
      have hw2 : IsWalk ptm mtp s e2.2 := ⟨hok2.1, hok2.2.2.1⟩
      have hr2 : Reach ptm mtp s (e2.2.length - 1) v :=
        reach_of_walk hw2 (by rw [hok2.2.1, he21])
      have := hminv _ hr2
      omega
    have hkv : k = d' + 1 := by omega
    rw [← hkv]
    exact hk

theorem ccomp {ptm mtp : AdjMap} {s t : Nat} {limit : Int} {st : BfsState}
    (inv : InvFull ptm mtp s t limit st) (hph : st.shortest = none) :
    ∀ d, ∀ v : Node, Reach ptm mtp s d v → (∀ d', Reach ptm mtp s d' v → d ≤ d') →
      (∀ e ∈ st.popped, e.2.length ≤ d) ∨ vget st.visited v = some d := by
  intro d
  induction d using Nat.strong_induction_on with
  | _ d ih =>
    intro v hr hmin
    cases d with
    | zero =>
      right
      have hv : v = (Kind.person, s) := reach_zero hr
      rw [hv]
      have := inv.ventries _ inv.seedMem
      simpa using this
    | succ d' =>
      by_cases hpops : ∀ e ∈ st.popped, e.2.length ≤ d' + 1
      · exact Or.inl hpops
      · right
        push_neg at hpops
        obtain ⟨e0, he0, he0len⟩ := hpops
        obtain ⟨u, hadj, hru, humin⟩ := reach_min_pred hr hmin
        rcases ih d' (by omega) u hru humin with h | h
        · exact absurd (h e0 he0) (by omega)
        · obtain ⟨eu, heu, heu1, heulen⟩ := inv.vsound u d' h
          rcases List.mem_append.1 heu with hP | hQ
          · have hugoal : eu.1 ≠ ((Kind.person, t) : Node) := inv.phase1 hph eu hP
            exact expanded_gives inv hP hugoal heu1 heulen hadj hmin
          · exfalso
            have := inv.popLe e0 he0 eu hQ
            omega

theorem qe_aux {ptm mtp : AdjMap} {s t : Nat} {limit : Int} {st : BfsState}
    (inv : InvFull ptm mtp s t limit st) (hq : st.queue = [])
    (hph : st.shortest = none) (hst : ¬ s = t) :
    ∀ d, ∀ v : Node, Reach ptm mtp s d v → (∀ d', Reach ptm mtp s d' v → d ≤ d') →
      v ≠ ((Kind.person, t) : Node) ∧ vget st.visited v = some d := by
  intro d
  induction d using Nat.strong_induction_on with
  | _ d ih =>
    intro v hr hmin
    cases d with
    | zero =>
      have hv : v = (Kind.person, s) := reach_zero hr
      constructor
      · rw [hv]
        intro hc
        exact hst (congrArg Prod.snd hc)
      · rw [hv]
        have := inv.ventries _ inv.seedMem
        simpa using this
    | succ d' =>
      obtain ⟨u, hadj, hru, humin⟩ := reach_min_pred hr hmin
      obtain ⟨hune, hvu⟩ := ih d' (by omega) u hru humin
      obtain ⟨eu, heu, heu1, heulen⟩ := inv.vsound u d' hvu
      have hP : eu ∈ st.popped := by
        rcases List.mem_append.1 heu with h | h
        · exact h
        · rw [hq] at h
          simp at h
      have hugoal : eu.1 ≠ ((Kind.person, t) : Node) := by
        rw [heu1]
        exact hune
      have hvv := expanded_gives inv hP hugoal heu1 heulen hadj hmin
      refine ⟨?_, hvv⟩
      intro hveq
      obtain ⟨e2, he2, he21, _⟩ := inv.vsound v _ hvv
      have hP2 : e2 ∈ st.popped := by
        rcases List.mem_append.1 he2 with h | h
        · exact h
        · rw [hq] at h
          simp at h
      exact inv.phase1 hph e2 hP2 (by rw [he21, hveq])

theorem first_sol_min {ptm mtp : AdjMap} {s t : Nat} {limit : Int} {st : BfsState}
    {node : Node} {path : List Node} {rest : List Entry}
    (inv : InvFull ptm mtp s t limit st) (hph : st.shortest = none) (hst : ¬ s = t)
    (hq : st.queue = (node, path) :: rest)
    (hgoal : node = ((Kind.person, t) : Node)) :
    ∀ q, IsConnPath ptm mtp s t q → path.length ≤ q.length := by
  intro q hconn
  have hr := conn_reach hconn
  have hex : ∃ d, Reach ptm mtp s d ((Kind.person, t) : Node) := ⟨q.length - 1, hr⟩
  obtain ⟨δ, hδr, hδmin⟩ := nat_exists_minimal hex
  have hδq : δ ≤ q.length - 1 := hδmin _ hr
  have hqlen : 1 ≤ q.length := by
    obtain ⟨hh, _, _, _⟩ := hconn
    cases hc : q with
    | nil => rw [hc] at hh; simp at hh
    | cons a r => simp
  have hfront : ((node, path) : Entry) ∈ st.popped ++ st.queue := by
    refine List.mem_append_right _ ?_
    rw [hq]
    exact List.mem_cons_self _ _
  have hok := inv.valid _ hfront
  have hlen2 : 2 ≤ path.length := goal_entry_len hok hgoal hst
  have hple : path.length ≤ δ + 1 := by
    rcases ccomp inv hph δ _ hδr hδmin with h | h
    · obtain ⟨f, hf, hmain⟩ := inv.parent _ hfront hlen2
      have hfb := h f hf
      have h2 : path = f.2 ++ [node] := hmain
      have : path.length = f.2.length + 1 := by
        rw [h2]
        simp
      omega
    · obtain ⟨e, he, he1, helen⟩ := inv.vsound _ δ h
      rcases List.mem_append.1 he with hP | hQ
      · exact absurd he1 (inv.phase1 hph e hP)
      · have := front_min inv.toInvSound hq e hQ
        omega
  omega

/-! ### Preservation of the full invariant by non-exiting iterations -/

theorem invFull_expand {ptm mtp : AdjMap} {s t : Nat} {limit : Int} {st : BfsState}
    {node : Node} {path : List Node} {rest : List Entry}
    (hwf : WFGraph ptm mtp) (hst : ¬ s = t)
    (inv : InvFull ptm mtp s t limit st) (hq : st.queue = (node, path) :: rest)
    (hng : ¬ (node = ((Kind.person, t) : Node) ∧ 1 < path.length)) :
    InvFull ptm mtp s t limit
      (expandState ptm mtp (popState st node path rest) node path) := by
  set nbs := neighbours ptm mtp node with hnbs
  set st' := expandState ptm mtp (popState st node path rest) node path with hst'
  have hfrontQ : ((node, path) : Entry) ∈ st.queue := by
    rw [hq]
    exact List.mem_cons_self _ _
  have hfront : ((node, path) : Entry) ∈ st.popped ++ st.queue :=
    List.mem_append_right _ hfrontQ
  have hok : entryOk ptm mtp s (node, path) := inv.valid _ hfront
  have hnodegoal : node ≠ ((Kind.person, t) : Node) := by
    intro hc
    have h2 : 2 ≤ path.length := goal_entry_len hok hc hst
    exact hng ⟨hc, by omega⟩
  have hple : ∀ f ∈ st.queue, path.length ≤ f.2.length := front_min inv.toInvSound hq
  have hs1 : InvSound ptm mtp s t limit (popState st node path rest) :=
    invSound_pop inv.toInvSound hq
  have hsound : InvSound ptm mtp s t limit st' := by
    refine invSound_expand hs1 hok ?_ ?_ ?_
    · intro f hf
      exact inv.spreadQ f (by rw [hq]; exact List.mem_cons_of_mem _ hf) (node, path) hfrontQ
    · intro f hf
      exact hple f (by rw [hq]; exact List.mem_cons_of_mem _ hf)
    · intro e he
      have he2 : e ∈ st.popped ++ [((node, path) : Entry)] := he
      rcases List.mem_append.1 he2 with h1 | h1
      · exact inv.popLe e h1 (node, path) hfrontQ
      · simp only [List.mem_singleton] at h1
        rw [h1]
  have hvconst := visited_const inv hq
  have hE : st'.popped ++ st'.queue =
      (st.popped ++ (node, path) :: rest) ++ expandQ path nbs st.visited := by
    show (st.popped ++ [((node, path) : Entry)]) ++ (rest ++ expandQ path nbs st.visited) = _
    rw [← List.append_assoc, append_shunt]
  have hEold : st.popped ++ (node, path) :: rest = st.popped ++ st.queue := by
    rw [hq]
  have hnewlen : ∀ e ∈ expandQ path nbs st.visited, e.2.length = path.length + 1 :=
    expandQ_len path nbs st.visited
  have hnewvget : ∀ e ∈ expandQ path nbs st.visited,
      vget st'.visited e.1 = some path.length := expandQ_vget path nbs st.visited
  refine ⟨hsound, ?_, ?_, ?_, ?_, ?_, ?_, ?_, ?_, ?_, ?_⟩
  · rw [hE, List.map_append]
    rw [List.nodup_append]
    refine ⟨by rw [hEold]; exact inv.distinct,
      expandQ_paths_nodup path nbs st.visited (neighbours_nodup hwf node), ?_⟩
    intro pth hpth hpth'
    obtain ⟨f, hf, hff⟩ := List.mem_map.1 hpth
    obtain ⟨g, hg, hgg⟩ := List.mem_map.1 hpth'
    obtain ⟨nb, _, hgE, _⟩ := expandQ_mem path nbs st.visited g hg
    have hflen : 2 ≤ f.2.length := by
      have hfl : f.2.length = path.length + 1 := by
        rw [hff, ← hgg, hgE]
        simp
      have hp1 : 1 ≤ path.length := by
        obtain ⟨hh, _, _, _⟩ := hok
        cases hp : path with
        | nil => rw [hp] at hh; simp at hh
        | cons a r => simp
      omega
    obtain ⟨g2, hg2, hg2E⟩ := inv.parent f (by rw [hEold] at hf; exact hf) hflen
    have hpatheq : g2.2 = path := by
      have h1 : f.2 = path ++ [nb] := by
        rw [hff, ← hgg, hgE]
      rw [h1] at hg2E
      exact List.append_inj_left' hg2E.symm (by simp)
    have hdup := inv.distinct
    rw [← hEold] at hdup
    rw [List.map_append, List.nodup_append] at hdup
    refine hdup.2.2 ?_ (by rw [List.map_cons]; exact List.mem_cons_self _ _)
    exact List.mem_map.2 ⟨g2, hg2, hpatheq⟩
  · intro e he hlen2
    rw [hE] at he
    rcases List.mem_append.1 he with h1 | h1
    · obtain ⟨f, hf, hfE⟩ := inv.parent e (by rw [hEold] at h1; exact h1) hlen2
      exact ⟨f, List.mem_append_left _ hf, hfE⟩
    · obtain ⟨nb, _, hE1, _⟩ := expandQ_mem path nbs st.visited e h1
      refine ⟨(node, path), List.mem_append_right _ (List.mem_singleton.2 rfl), ?_⟩
      rw [hE1]
  · intro e he
    rw [hE] at he
    rcases List.mem_append.1 he with h1 | h1
    · have := inv.ventries e (by rw [hEold] at h1; exact h1)
      exact hvconst _ _ this
    · have h2 := hnewvget e h1
      rw [hnewlen e h1]
      simpa using h2
  · intro w k hwk
    by_cases hch : vget st'.visited w = vget st.visited w
    · rw [hch] at hwk
      obtain ⟨e, he, he1, helen⟩ := inv.vsound w k hwk
      refine ⟨e, ?_, he1, helen⟩
      rw [hE]
      refine List.mem_append_left _ ?_
      rw [hEold]
      exact he
    · obtain ⟨e, he, he1⟩ := expandV_changed path nbs st.visited w (by
        intro hc
        exact hch hc)
      have h2 := hnewvget e he
      rw [he1] at h2
      rw [hwk] at h2
      have hk : k = path.length := Option.some.inj h2
      refine ⟨e, ?_, he1, ?_⟩
      · rw [hE]
        exact List.mem_append_right _ he
      · rw [hnewlen e he, hk]
  · rw [hE]
    refine List.mem_append_left _ ?_
    rw [hEold]
    exact inv.seedMem
  · intro e he hegoal w hw
    have he2 : e ∈ st.popped ++ [((node, path) : Entry)] := he
    rcases List.mem_append.1 he2 with h1 | h1
    · rcases inv.expanded e h1 hegoal w hw with h2 | ⟨k, hk, hkle⟩
      · exact Or.inl h2
      · exact Or.inr ⟨k, hvconst _ _ hk, hkle⟩
    · simp only [List.mem_singleton] at h1
      rw [h1] at hw ⊢
      rcases expandV_covers path nbs st.visited w hw with h2 | ⟨k, hk, hkle⟩
      · exact Or.inl h2
      · exact Or.inr ⟨k, hk, hkle⟩
  · intro hnone e he
    have hnone' : st.shortest = none := hnone
    have he2 : e ∈ st.popped ++ [((node, path) : Entry)] := he
    rcases List.mem_append.1 he2 with h1 | h1
    · exact inv.phase1 hnone' e h1
    · simp only [List.mem_singleton] at h1
      rw [h1]
      exact hnodegoal
  · intro sh hsh
    have hsh' : st.shortest = some sh := hsh
    exact inv.phase2min sh hsh'
  · exact inv.solsNodup
  · intro sol hsol
    obtain ⟨e, he, he1, he2⟩ := inv.solsPopped sol hsol
    exact ⟨e, List.mem_append_left _ he, he1, he2⟩

theorem invFull_sol {ptm mtp : AdjMap} {s t : Nat} {limit : Int} {st : BfsState}
    {node : Node} {path : List Node} {rest : List Entry}
    (hst : ¬ s = t) (inv : InvFull ptm mtp s t limit st)
    (hq : st.queue = (node, path) :: rest)
    (hgoal : node = ((Kind.person, t) : Node)) (hlen : 1 < path.length)
    (hnb : ∀ sh, st.shortest = some sh → ¬ sh < path.length) :
    InvFull ptm mtp s t limit (solState (popState st node path rest) path) := by
  set st' := solState (popState st node path rest) path with hst'
  have hfrontQ : ((node, path) : Entry) ∈ st.queue := by
    rw [hq]
    exact List.mem_cons_self _ _
  have hs1 : InvSound ptm mtp s t limit (popState st node path rest) :=
    invSound_pop inv.toInvSound hq
  have hub : ∀ sh, (popState st node path rest).shortest = some sh →
      path.length ≤ sh := by
    intro sh hsh
    exact Nat.not_lt.1 (hnb sh hsh)
  have hlb : ∀ sh, (popState st node path rest).shortest = some sh →
      sh ≤ path.length := by
    intro sh hsh
    have hsh' : st.shortest = some sh := hsh
    obtain ⟨f, hf, _, hflen, _⟩ := inv.shortPopped sh hsh'
    rw [← hflen]
    exact inv.popLe f hf (node, path) hfrontQ
  have hmem : ((((Kind.person, t) : Node), path) : Entry) ∈
      (popState st node path rest).popped := by
    show (((Kind.person, t) : Node), path) ∈ st.popped ++ [((node, path) : Entry)]
    rw [← hgoal]
    exact List.mem_append_right _ (List.mem_singleton.2 rfl)
  have hsound : InvSound ptm mtp s t limit st' := invSound_sol hs1 hmem hlen hub hlb
  have hE : st'.popped ++ st'.queue = st.popped ++ (node, path) :: rest := by
    show (st.popped ++ [((node, path) : Entry)]) ++ rest = _
    rw [append_shunt]
  have hEold : st.popped ++ (node, path) :: rest = st.popped ++ st.queue := by
    rw [hq]
  have hshort : st'.shortest = some (st.shortest.getD path.length) := rfl
  have hsols : st'.solutions = st.solutions ++ [path] := rfl
  refine ⟨hsound, ?_, ?_, ?_, ?_, ?_, ?_, ?_, ?_, ?_, ?_⟩
  · rw [hE, hEold]
    exact inv.distinct
  · intro e he hl2
    rw [hE, hEold] at he
    obtain ⟨f, hf, hfE⟩ := inv.parent e he hl2
    exact ⟨f, List.mem_append_left _ hf, hfE⟩
  · intro e he
    rw [hE, hEold] at he
    exact inv.ventries e he
  · intro w k hwk
    have hwk' : vget st.visited w = some k := hwk
    rw [hE, hEold]
    exact inv.vsound w k hwk'
  · rw [hE, hEold]
    exact inv.seedMem
  · intro e he hegoal w hw
    have he2 : e ∈ st.popped ++ [((node, path) : Entry)] := he
    rcases List.mem_append.1 he2 with h1 | h1
    · exact inv.expanded e h1 hegoal w hw
    · exfalso
      simp only [List.mem_singleton] at h1
      apply hegoal
      rw [h1]
      exact hgoal
  · intro hnone
    rw [hshort] at hnone
    cases hnone
  · intro sh' hsh'
    rw [hshort] at hsh'
    have heq := Option.some.inj hsh'
    cases hss : st.shortest with
    | none =>
      rw [hss] at heq
      simp only [Option.getD_none] at heq
      rw [← heq]
      exact first_sol_min inv hss hst hq hgoal
    | some sh0 =>
      rw [hss] at heq
      simp only [Option.getD_some] at heq
      rw [← heq]
      exact inv.phase2min sh0 hss
  · rw [hsols]
    have hnotin : path ∉ st.solutions := by
      intro hmem2
      obtain ⟨e, he, _, heE⟩ := inv.solsPopped path hmem2
      have hdup := inv.distinct
      rw [hq, List.map_append, List.map_cons] at hdup
      rw [List.nodup_append] at hdup
      refine hdup.2.2 ?_ (List.mem_cons_self _ _)
      exact List.mem_map.2 ⟨e, he, heE⟩
    rw [List.nodup_append]
    refine ⟨inv.solsNodup, List.nodup_singleton _, ?_⟩
    intro x hx hx2
    simp only [List.mem_singleton] at hx2
    rw [hx2] at hx
    exact hnotin hx
  · intro sol hsol
    rw [hsols] at hsol
    rcases List.mem_append.1 hsol with h1 | h1
    · obtain ⟨e, he, he1, he2⟩ := inv.solsPopped sol h1
      exact ⟨e, List.mem_append_left _ he, he1, he2⟩
    · simp only [List.mem_singleton] at h1
      refine ⟨(node, path), List.mem_append_right _ (List.mem_singleton.2 rfl), hgoal, ?_⟩
      rw [h1]

theorem invFull_init (ptm mtp : AdjMap) (s t : Nat) (limit : Int) :
    InvFull ptm mtp s t limit (bfsInit s) := by
  refine ⟨invSound_init ptm mtp s t limit, ?_, ?_, ?_, ?_, ?_, ?_, ?_, ?_, ?_, ?_⟩
  · show ((([] : List Entry) ++
      [(((Kind.person, s) : Node), [((Kind.person, s) : Node)])]).map Prod.snd).Nodup
    simp
  · intro e he hl2
    have he2 : e ∈ ([] : List Entry) ++
        [(((Kind.person, s) : Node), [((Kind.person, s) : Node)])] := he
    simp only [List.nil_append, List.mem_singleton] at he2
    rw [he2] at hl2
    simp at hl2
  · intro e he
    have he2 : e ∈ ([] : List Entry) ++
        [(((Kind.person, s) : Node), [((Kind.person, s) : Node)])] := he
    simp only [List.nil_append, List.mem_singleton] at he2
    rw [he2]
    show vget (bfsInit s).visited (Kind.person, s) = some 0
    show (List.lookup s [(s, 0)]) = some 0
    simp [List.lookup_cons]
  · intro w k hwk
    rcases w with ⟨kw, iw⟩
    cases kw
    · have hwk2 : List.lookup iw [(s, 0)] = some k := hwk
      rw [List.lookup_cons] at hwk2
      by_cases hws : iw == s
      · simp only [hws] at hwk2
        have hks : k = 0 := by
          have := Option.some.inj hwk2
          omega
        have his : iw = s := eq_of_beq hws
        refine ⟨(((Kind.person, s) : Node), [((Kind.person, s) : Node)]), ?_, ?_, ?_⟩
        · exact List.mem_append_right _ (List.mem_singleton.2 rfl)
        · rw [his]
        · rw [hks]
          rfl
      · simp only [Bool.not_eq_true] at hws
        simp only [hws] at hwk2
        simp [List.lookup] at hwk2
    · have hwk2 : List.lookup iw ([] : List (Nat × Nat)) = some k := hwk
      simp [List.lookup] at hwk2
  · exact List.mem_append_right _ (List.mem_singleton.2 rfl)
  · intro e he
    have he2 : e ∈ ([] : List Entry) := he
    simp at he2
  · intro _ e he
    have he2 : e ∈ ([] : List Entry) := he
    simp at he2
  · intro sh hsh
    have : (none : Option Nat) = some sh := hsh
    cases this
  · show ([] : List (List Node)).Nodup
    simp
  · intro sol hsol
    have : sol ∈ ([] : List (List Node)) := hsol
    simp at this

theorem popped_le_bound {ptm mtp : AdjMap} {s t : Nat} {limit : Int} {st : BfsState}
    (inv : InvFull ptm mtp s t limit st) :
    st.popped.length ≤ (pathUniverse (nodeList ptm mtp s)).card := by
  have hnodup : (st.popped.map Prod.snd).Nodup := by
    have hsub : List.Sublist (st.popped.map Prod.snd) ((st.popped ++ st.queue).map Prod.snd) := by
      rw [List.map_append]
      exact List.sublist_append_left _ _
    exact inv.distinct.sublist hsub
  have hmem : ∀ pth ∈ st.popped.map Prod.snd, pth ∈ pathUniverse (nodeList ptm mtp s) := by
    intro pth hpth
    obtain ⟨e, he, hee⟩ := List.mem_map.1 hpth
    have hok := inv.valid e (List.mem_append_left _ he)
    have hnd : e.2.Nodup := hok.2.2.2
    have hin : ∀ x ∈ e.2, x ∈ nodeList ptm mtp s := entry_nodes_mem hok
    have hsubperm : List.Subperm e.2 (nodeList ptm mtp s) := hnd.subperm hin
    obtain ⟨l, hlp, hls⟩ := hsubperm
    unfold pathUniverse pathList
    rw [List.mem_toFinset]
    refine List.mem_flatMap.2 ⟨l, List.mem_sublists.2 hls, ?_⟩
    rw [List.mem_permutations]
    rw [← hee]
    exact hlp.symm
  calc st.popped.length = (st.popped.map Prod.snd).length := by rw [List.length_map]
    _ = (st.popped.map Prod.snd).toFinset.card := (List.toFinset_card_of_nodup hnodup).symm
    _ ≤ (pathUniverse (nodeList ptm mtp s)).card := by
        refine Finset.card_le_card ?_
        intro x hx
        rw [List.mem_toFinset] at hx
        exact hmem x hx

theorem universe_card_lt_fuel (ptm mtp : AdjMap) (s : Nat) :
    (pathUniverse (nodeList ptm mtp s)).card < bfsFuel ptm mtp s := by
  set S := nodeList ptm mtp s with hS
  have h1 : (pathUniverse S).card ≤ (pathList S).length :=
    List.toFinset_card_le _
  have h2 : (pathList S).length ≤
      2 ^ S.length * Nat.factorial S.length := by
    show (S.sublists.flatMap List.permutations).length ≤ _
    rw [List.length_flatMap]
    have hbound : ∀ x ∈ S.sublists.map fun T => T.permutations.length,
        x ≤ Nat.factorial S.length := by
      intro x hx
      obtain ⟨T, hT, hTx⟩ := List.mem_map.1 hx
      rw [← hTx, List.length_permutations]
      exact Nat.factorial_le (List.Sublist.length_le (List.mem_sublists.1 hT))
    calc (S.sublists.map fun T => T.permutations.length).sum
        ≤ (S.sublists.map fun T => T.permutations.length).length •
            Nat.factorial S.length := List.sum_le_card_nsmul _ _ hbound
      _ = S.sublists.length * Nat.factorial S.length := by
          rw [List.length_map, smul_eq_mul]
      _ = 2 ^ S.length * Nat.factorial S.length := by rw [List.length_sublists]
  have h3 : bfsFuel ptm mtp s = 2 ^ S.length * Nat.factorial S.length + 1 := rfl
  omega

theorem bfsLoop_master {ptm mtp : AdjMap} {s t : Nat} {limit : Int}
    (hwf : WFGraph ptm mtp) (hst : ¬ s = t) :
    ∀ (fuel : Nat) (st : BfsState), InvFull ptm mtp s t limit st →
      (pathUniverse (nodeList ptm mtp s)).card < fuel + st.popped.length →
      (∀ sh, (bfsLoop ptm mtp (Kind.person, t) limit fuel st).shortest = some sh →
        ∀ q, IsConnPath ptm mtp s t q → sh ≤ q.length) ∧
      (bfsLoop ptm mtp (Kind.person, t) limit fuel st).solutions.Nodup ∧
      (∀ q, IsConnPath ptm mtp s t q →
        (bfsLoop ptm mtp (Kind.person, t) limit fuel st).solutions ≠ []) := by
  intro fuel
  induction fuel with
  | zero =>
    intro st inv hfuel
    exfalso
    have := popped_le_bound inv
    omega
  | succ n ih =>
    intro st inv hfuel
    rcases bfsStep_cases ptm mtp (Kind.person, t) limit st with
      ⟨hqnil, hstep⟩ | ⟨node, path, rest, sh, hq, hsh, hlt, hstep⟩ |
      ⟨node, path, rest, hq, hnb, hg1, hg2, hlim, hstep⟩ |
      ⟨node, path, rest, hq, hnb, hg1, hg2, hlim, hstep⟩ |
      ⟨node, path, rest, hq, hnb, hng, hstep⟩
    · rw [bfsLoop_succ_done hstep]
      refine ⟨inv.phase2min, inv.solsNodup, ?_⟩
      intro q hq' hempty
      cases hsh : st.shortest with
      | some sh => exact inv.someNonempty sh hsh hempty
      | none =>
        have hr := conn_reach hq'
        have hex : ∃ d, Reach ptm mtp s d ((Kind.person, t) : Node) := ⟨_, hr⟩
        obtain ⟨δ, hδr, hδmin⟩ := nat_exists_minimal hex
        exact (qe_aux inv hqnil hsh hst δ _ hδr hδmin).1 rfl
    · rw [bfsLoop_succ_done hstep]
      refine ⟨?_, inv.solsNodup, ?_⟩
      · intro sh' hsh' q hq'
        have hsh2 : st.shortest = some sh' := hsh'
        exact inv.phase2min sh' hsh2 q hq'
      · intro q hq' hempty
        have hempty' : st.solutions = [] := hempty
        exact inv.someNonempty sh hsh hempty'
    · rw [bfsLoop_succ_done hstep]
      have hfull := invFull_sol hst inv hq hg1 hg2 hnb
      refine ⟨hfull.phase2min, hfull.solsNodup, ?_⟩
      intro q hq' hempty
      have hempty' : st.solutions ++ [path] = [] := hempty
      simp at hempty'
    · rw [bfsLoop_succ_next hstep]
      refine ih _ (invFull_sol hst inv hq hg1 hg2 hnb) ?_
      have hpop : (solState (popState st node path rest) path).popped.length =
          st.popped.length + 1 := by
        show (st.popped ++ [((node, path) : Entry)]).length = st.popped.length + 1
        simp
      rw [hpop]
      omega
    · rw [bfsLoop_succ_next hstep]
      refine ih _ (invFull_expand hwf hst inv hq hng) ?_
      have hpop : (expandState ptm mtp (popState st node path rest) node path).popped.length =
          st.popped.length + 1 := by
        show (st.popped ++ [((node, path) : Entry)]).length = st.popped.length + 1
        simp
      rw [hpop]
      omega

theorem find_master {s t : Nat} {ptm mtp : AdjMap} {limit : Int}
    (hwf : WFGraph ptm mtp) (hne : ¬ s = t) :
    (∀ p ∈ find_shortest_paths s t ptm mtp limit,
      ∀ q, IsConnPath ptm mtp s t q → p.length ≤ q.length) ∧
    (find_shortest_paths s t ptm mtp limit).Nodup ∧
    (∀ q, IsConnPath ptm mtp s t q → find_shortest_paths s t ptm mtp limit ≠ []) := by
  have hmain := bfsLoop_master hwf hne (bfsFuel ptm mtp s) (bfsInit s)
    (invFull_init ptm mtp s t limit)
    (by
      have := universe_card_lt_fuel ptm mtp s
      have h0 : (bfsInit s).popped.length = 0 := rfl
      omega)
  obtain ⟨hmin, hnodup, hcomp⟩ := hmain
  rw [find_eq_loop hne]
  refine ⟨?_, hnodup, hcomp⟩
  intro p hp q hq
  have inv := find_invSound (s := s) (t := t) ptm mtp limit
  cases hsh : (bfsLoop ptm mtp (Kind.person, t) limit (bfsFuel ptm mtp s)
      (bfsInit s)).shortest with
  | none =>
    rw [inv.noneEmpty hsh] at hp
    simp at hp
  | some sh =>
    rw [inv.solsLen sh hsh p hp]
    exact hmin sh hsh q hq

theorem invFull_next {ptm mtp : AdjMap} {s t : Nat} {limit : Int} {st st' : BfsState}
    (hwf : WFGraph ptm mtp) (hst : ¬ s = t)
    (inv : InvFull ptm mtp s t limit st)
    (h : bfsStep ptm mtp (Kind.person, t) limit st = StepResult.next st') :
    InvFull ptm mtp s t limit st' ∧ st'.popped.length = st.popped.length + 1 := by
  rcases bfsStep_cases ptm mtp (Kind.person, t) limit st with
    ⟨hqnil, hstep⟩ | ⟨node, path, rest, sh, hq, hsh, hlt, hstep⟩ |
    ⟨node, path, rest, hq, hnb, hg1, hg2, hlim, hstep⟩ |
    ⟨node, path, rest, hq, hnb, hg1, hg2, hlim, hstep⟩ |
    ⟨node, path, rest, hq, hnb, hng, hstep⟩
  · rw [hstep] at h; cases h
  · rw [hstep] at h; cases h
  · rw [hstep] at h; cases h
  · rw [hstep] at h
    have hst' : st' = solState (popState st node path rest) path :=
      (StepResult.next.inj h).symm
    rw [hst']
    refine ⟨invFull_sol hst inv hq hg1 hg2 hnb, ?_⟩
    show (st.popped ++ [((node, path) : Entry)]).length = st.popped.length + 1
    simp
  · rw [hstep] at h
    have hst' : st' = expandState ptm mtp (popState st node path rest) node path :=
      (StepResult.next.inj h).symm
    rw [hst']
    refine ⟨invFull_expand hwf hst inv hq hng, ?_⟩
    show (st.popped ++ [((node, path) : Entry)]).length = st.popped.length + 1
    simp

theorem bfsLoop_stable {ptm mtp : AdjMap} {s t : Nat} {limit : Int}
    (hwf : WFGraph ptm mtp) (hst : ¬ s = t) :
    ∀ (fuel : Nat) (st : BfsState), InvFull ptm mtp s t limit st →
      (pathUniverse (nodeList ptm mtp s)).card < fuel + st.popped.length →
      bfsLoop ptm mtp (Kind.person, t) limit (fuel + 1) st =
        bfsLoop ptm mtp (Kind.person, t) limit fuel st := by
  intro fuel
  induction fuel with
  | zero =>
    intro st inv hfuel
    exfalso
    have := popped_le_bound inv
    omega
  | succ n ih =>
    intro st inv hfuel
    cases hstep : bfsStep ptm mtp (Kind.person, t) limit st with
    | done st' =>
      rw [bfsLoop_succ_done hstep, bfsLoop_succ_done hstep]
    | next st' =>
      rw [bfsLoop_succ_next hstep, bfsLoop_succ_next hstep]
      obtain ⟨inv', hlen⟩ := invFull_next hwf hst inv hstep
      refine ih st' inv' ?_
      omega

theorem bfsLoop_fuel_irrelevant {ptm mtp : AdjMap} {s t : Nat} {limit : Int}
    (hwf : WFGraph ptm mtp) (hst : ¬ s = t) :
    ∀ extra : Nat,
      bfsLoop ptm mtp (Kind.person, t) limit (bfsFuel ptm mtp s + extra) (bfsInit s) =
        bfsLoop ptm mtp (Kind.person, t) limit (bfsFuel ptm mtp s) (bfsInit s) := by
  intro extra
  induction extra with
  | zero => rfl
  | succ n ihe =>
    have heq : bfsFuel ptm mtp s + (n + 1) = (bfsFuel ptm mtp s + n) + 1 := rfl
    rw [heq]
    rw [bfsLoop_stable hwf hst (bfsFuel ptm mtp s + n) (bfsInit s)
      (invFull_init ptm mtp s t limit)
      (by
        have := universe_card_lt_fuel ptm mtp s
        have h0 : (bfsInit s).popped.length = 0 := rfl
        omega)]
    exact ihe

theorem get?_eq_getD {α : Type} {l : List α} {k : Nat} (hk : k < l.length) (d : α) :
    l.get? k = some (l.getD k d) := by
  rw [List.getD_eq_get? l k d, List.get?_eq_get hk]
  rfl

theorem two_mem_length {α : Type} {a b : α} :
    ∀ {l : List α}, a ∈ l → b ∈ l → a ≠ b → 2 ≤ l.length := by
  intro l
  induction l with
  | nil => intro ha; simp at ha
  | cons x xs ih =>
    intro ha hb hne
    rcases List.mem_cons.1 ha with hax | hax
    · rcases List.mem_cons.1 hb with hbx | hbx
      · exact absurd (hax.trans hbx.symm) hne
      · have h1 : 1 ≤ xs.length := List.length_pos.2 (List.ne_nil_of_mem hbx)
        simp only [List.length_cons]
        omega
    · rcases List.mem_cons.1 hb with hbx | hbx
      · have h1 : 1 ≤ xs.length := List.length_pos.2 (List.ne_nil_of_mem hax)
        simp only [List.length_cons]
        omega
      · have := ih hax hbx hne
        simp only [List.length_cons]
        omega

theorem conn_ne_nil {ptm mtp : AdjMap} {s t : Nat} {W : List Node}
    (h : IsConnPath ptm mtp s t W) : W ≠ [] := by
  intro hnil
  have h1 := h.1
  rw [hnil] at h1
  simp at h1

theorem conn_getD_zero {ptm mtp : AdjMap} {s t : Nat} {W : List Node}
    (h : IsConnPath ptm mtp s t W) : W.getD 0 (Kind.person, 0) = (Kind.person, s) := by
  obtain ⟨h1, _, _, _⟩ := h
  cases W with
  | nil => simp at h1
  | cons a w =>
    simp only [List.head?_cons, Option.some.injEq] at h1
    simp [h1]

theorem conn_two_le {ptm mtp : AdjMap} {s t : Nat} {W : List Node}
    (h : IsConnPath ptm mtp s t W) (hst : ¬ s = t) : 2 ≤ W.length := by
  obtain ⟨h1, h2, _, _⟩ := h
  cases W with
  | nil => simp at h1
  | cons a w =>
    cases w with
    | nil =>
      exfalso
      simp only [List.head?_cons, Option.some.injEq] at h1
      simp only [List.getLast?_singleton, Option.some.injEq] at h2
      rw [h1] at h2
      exact hst (congrArg Prod.snd h2)
    | cons b w' =>
      simp only [List.length_cons]
      omega

theorem conn_getD_last {ptm mtp : AdjMap} {s t : Nat} {W : List Node}
    (h : IsConnPath ptm mtp s t W) :
    W.getD (W.length - 1) (Kind.person, 0) = (Kind.person, t) := by
  rw [List.getD_eq_get? W (W.length - 1) (Kind.person, 0), ← List.getLast?_eq_get?, h.2.1]
  rfl

theorem conn_goal_index {ptm mtp : AdjMap} {s t : Nat} {W : List Node}
    (h : IsConnPath ptm mtp s t W) {k : Nat} (hk : k < W.length)
    (hgd : W.getD k (Kind.person, 0) = (Kind.person, t)) : k = W.length - 1 := by
  have hget : W.get? k = some ((Kind.person, t) : Node) := by
    rw [get?_eq_getD hk ((Kind.person, 0) : Node), hgd]
  have hlast : W.get? (W.length - 1) = some ((Kind.person, t) : Node) := by
    rw [← List.getLast?_eq_get?]
    exact h.2.1
  exact List.get?_inj hk h.2.2.2 (hget.trans hlast.symm)

theorem conn_adj_getD {ptm mtp : AdjMap} {s t : Nat} {W : List Node}
    (h : IsConnPath ptm mtp s t W) {k : Nat} (hk : k + 1 < W.length) :
    Adj ptm mtp (W.getD k (Kind.person, 0)) (W.getD (k + 1) (Kind.person, 0)) := by
  have hc := List.chain'_iff_get.1 h.2.2.1 k (by omega)
  have e1 : W.getD k (Kind.person, 0) = W.get ⟨k, by omega⟩ := by
    have := get?_eq_getD (l := W) (k := k) (by omega) ((Kind.person, 0) : Node)
    rw [List.get?_eq_get (by omega : k < W.length)] at this
    exact (Option.some.inj this).symm
  have e2 : W.getD (k + 1) (Kind.person, 0) = W.get ⟨k + 1, hk⟩ := by
    have := get?_eq_getD (l := W) (k := k + 1) hk ((Kind.person, 0) : Node)
    rw [List.get?_eq_get hk] at this
    exact (Option.some.inj this).symm
  rw [e1, e2]
  exact hc

theorem getD_not_mem_take {α : Type} {l : List α} (hnd : l.Nodup) {k : Nat}
    (hk : k < l.length) (d : α) : l.getD k d ∉ l.take k := by
  intro hmem
  obtain ⟨⟨j, hj⟩, hget⟩ := List.mem_iff_get.1 hmem
  have hjlen : j < k := by
    have h2 := hj
    rw [List.length_take] at h2
    omega
  have h1 : l.get? j = some (l.getD k d) := by
    rw [← List.get?_take hjlen, List.get?_eq_get hj, hget]
  have h2 : l.get? k = some (l.getD k d) := get?_eq_getD hk d
  have : j = k := List.get?_inj (by omega) hnd (h1.trans h2.symm)
  omega

theorem take_succ_getD {α : Type} {l : List α} {k : Nat} (hk : k < l.length) (d : α) :
    l.take (k + 1) = l.take k ++ [l.getD k d] := by
  rw [List.take_succ]
  have h : l[k]? = some (l.getD k d) := by
    rw [← List.get?_eq_getElem?]
    exact get?_eq_getD hk d
  rw [h]
  rfl

theorem conn_mem_pathList {ptm mtp : AdjMap} {s t : Nat} {q : List Node}
    (h : IsConnPath ptm mtp s t q) : q ∈ pathList (nodeList ptm mtp s) := by
  have hnd : q.Nodup := h.2.2.2
  have hsubset : ∀ x ∈ q, x ∈ nodeList ptm mtp s :=
    walk_subset_aux q _ h.2.2.1 h.1 (start_mem_nodeList ptm mtp s)
  obtain ⟨l, hlp, hls⟩ := hnd.subperm hsubset
  unfold pathList
  exact List.mem_flatMap.2 ⟨l, List.mem_sublists.2 hls, List.mem_permutations.2 hlp.symm⟩

theorem reach_suffix {ptm mtp : AdjMap} {s t : Nat} {W : List Node}
    (hW : IsConnPath ptm mtp s t W) :
    ∀ (m k : Nat), k + m = W.length - 1 → ∀ d,
      Reach ptm mtp s d (W.getD k (Kind.person, 0)) →
      Reach ptm mtp s (d + m) (Kind.person, t) := by
  intro m
  induction m with
  | zero =>
    intro k hk d hr
    have hkl : k = W.length - 1 := by omega
    rw [hkl, conn_getD_last hW] at hr
    exact hr
  | succ n ihn =>
    intro k hk d hr
    have hlen1 : 1 ≤ W.length := List.length_pos.2 (conn_ne_nil hW)
    have hk1 : k + 1 < W.length := by omega
    have hr1 := reach_step hr (conn_adj_getD hW hk1)
    have hrec := ihn (k + 1) (by omega) (d + 1) hr1
    have heq : d + 1 + n = d + (n + 1) := by omega
    rwa [heq] at hrec

theorem conn_node_depth_min {ptm mtp : AdjMap} {s t : Nat} {W : List Node}
    (hW : IsConnPath ptm mtp s t W)
    (hmin : ∀ q, IsConnPath ptm mtp s t q → W.length ≤ q.length)
    {k d : Nat} (hk : k < W.length)
    (hr : Reach ptm mtp s d (W.getD k (Kind.person, 0))) : k ≤ d := by
  by_contra hlt
  push_neg at hlt
  have hrt : Reach ptm mtp s (d + (W.length - 1 - k)) (Kind.person, t) :=
    reach_suffix hW (W.length - 1 - k) k (by omega) d hr
  have hex : ∃ e, Reach ptm mtp s e ((Kind.person, t) : Node) := ⟨_, hrt⟩
  obtain ⟨δ, hδ, hδmin⟩ := nat_exists_minimal hex
  obtain ⟨Q, hQ, hQlen⟩ := reach_min_conn hδ hδmin
  have h1 := hmin Q hQ
  have h2 : δ ≤ d + (W.length - 1 - k) := hδmin _ hrt
  omega

theorem pendingOrDone_init {ptm mtp : AdjMap} {s t : Nat} {W : List Node}
    (hW : IsConnPath ptm mtp s t W) : PendingOrDone W (bfsInit s) := by
  right
  have hne : W ≠ [] := conn_ne_nil hW
  refine ⟨0, List.length_pos.2 hne, ?_⟩
  have h1 : W.getD 0 (Kind.person, 0) = ((Kind.person, s) : Node) := conn_getD_zero hW
  have h2 : W.take 1 = [((Kind.person, s) : Node)] := by
    cases W with
    | nil => exact absurd rfl hne
    | cons a w =>
      have ha : a = ((Kind.person, s) : Node) := by
        have hh := hW.1
        simp only [List.head?_cons, Option.some.injEq] at hh
        exact hh
      show a :: w.take 0 = [((Kind.person, s) : Node)]
      rw [ha]
      rfl
  have h0 : entryAt W 0 = (((Kind.person, s) : Node), [((Kind.person, s) : Node)]) := by
    unfold entryAt
    rw [h1, h2]
  rw [h0]
  show _ ∈ [(((Kind.person, s) : Node), [((Kind.person, s) : Node)])]
  exact List.mem_singleton.2 rfl

theorem pendingOrDone_next {ptm mtp : AdjMap} {s t : Nat} {limit : Int} {st st' : BfsState}
    {W : List Node}
    (hst : ¬ s = t) (hW : IsConnPath ptm mtp s t W)
    (hmin : ∀ q, IsConnPath ptm mtp s t q → W.length ≤ q.length)
    (inv : InvFull ptm mtp s t limit st)
    (h : bfsStep ptm mtp (Kind.person, t) limit st = StepResult.next st')
    (hpd : PendingOrDone W st) : PendingOrDone W st' := by
  rcases bfsStep_cases ptm mtp (Kind.person, t) limit st with
    ⟨hqnil, hstep⟩ | ⟨node, path, rest, sh, hq, hsh, hlt, hstep⟩ |
    ⟨node, path, rest, hq, hnb, hg1, hg2, hlim, hstep⟩ |
    ⟨node, path, rest, hq, hnb, hg1, hg2, hlim, hstep⟩ |
    ⟨node, path, rest, hq, hnb, hng, hstep⟩
  · rw [hstep] at h; cases h
  · rw [hstep] at h; cases h
  · rw [hstep] at h; cases h
  · rw [hstep] at h
    have hst' : st' = solState (popState st node path rest) path :=
      (StepResult.next.inj h).symm
    rcases hpd with hsol | ⟨k, hk, hke⟩
    · left
      rw [hst']
      show W ∈ st.solutions ++ [path]
      exact List.mem_append_left _ hsol
    · rw [hq] at hke
      rcases List.mem_cons.1 hke with hfront | hrest
      · have hnode : W.getD k (Kind.person, 0) = node := congrArg Prod.fst hfront
        have hpath : W.take (k + 1) = path := congrArg Prod.snd hfront
        have hgd : W.getD k (Kind.person, 0) = ((Kind.person, t) : Node) := by
          rw [hnode, hg1]
        have hkl : k = W.length - 1 := conn_goal_index hW hk hgd
        have hWpath : W = path := by
          rw [← hpath, hkl]
          have hlen1 : 1 ≤ W.length := List.length_pos.2 (conn_ne_nil hW)
          have heq : W.length - 1 + 1 = W.length := by omega
          rw [heq, List.take_length]
        left
        rw [hst']
        show W ∈ st.solutions ++ [path]
        rw [hWpath]
        exact List.mem_append_right _ (List.mem_singleton.2 rfl)
      · right
        refine ⟨k, hk, ?_⟩
        rw [hst']
        show entryAt W k ∈ rest
        exact hrest
  · rw [hstep] at h
    have hst' : st' = expandState ptm mtp (popState st node path rest) node path :=
      (StepResult.next.inj h).symm
    rcases hpd with hsol | ⟨k, hk, hke⟩
    · left
      rw [hst']
      exact hsol
    · rw [hq] at hke
      rcases List.mem_cons.1 hke with hfront | hrest
      · have hnode : W.getD k (Kind.person, 0) = node := congrArg Prod.fst hfront
        have hpath : W.take (k + 1) = path := congrArg Prod.snd hfront
        have hpathlen : path.length = k + 1 := by
          rw [← hpath, List.length_take]
          omega
        have hk1 : k + 1 < W.length := by
          by_contra hge
          have hlen1 : 1 ≤ W.length := List.length_pos.2 (conn_ne_nil hW)
          have hkl : k = W.length - 1 := by omega
          apply hng
          constructor
          · rw [← hnode, hkl]
            exact conn_getD_last hW
          · rw [hpathlen]
            have := conn_two_le hW hst
            omega
        right
        refine ⟨k + 1, hk1, ?_⟩
        rw [hst']
        show entryAt W (k + 1) ∈ rest ++ expandQ path (neighbours ptm mtp node) st.visited
        apply List.mem_append_right
        have hmemnb : W.getD (k + 1) (Kind.person, 0) ∈ neighbours ptm mtp node := by
          have hadj := conn_adj_getD hW hk1
          rw [hnode] at hadj
          exact hadj
        have hnotin : W.getD (k + 1) (Kind.person, 0) ∉ path := by
          rw [← hpath]
          exact getD_not_mem_take hW.2.2.2 hk1 _
        have hvis : ∀ j, vget st.visited (W.getD (k + 1) (Kind.person, 0)) = some j →
            ¬ j < path.length := by
          intro j hj
          obtain ⟨e, he, he1, he2⟩ := inv.vsound _ j hj
          have hok := inv.valid e he
          have hreach : Reach ptm mtp s (e.2.length - 1) e.1 :=
            reach_of_walk ⟨hok.1, hok.2.2.1⟩ hok.2.1
          rw [he1, he2] at hreach
          have hreach' : Reach ptm mtp s j (W.getD (k + 1) (Kind.person, 0)) := by
            have heq : j + 1 - 1 = j := by omega
            rwa [heq] at hreach
          have := conn_node_depth_min hW hmin hk1 hreach'
          omega
        have hq' := expandQ_of_unvisited path (neighbours ptm mtp node) st.visited _
          hmemnb hnotin hvis
        have hent : entryAt W (k + 1) =
            (W.getD (k + 1) (Kind.person, 0),
              path ++ [W.getD (k + 1) (Kind.person, 0)]) := by
          unfold entryAt
          rw [← hpath, take_succ_getD hk1 ((Kind.person, 0) : Node)]
        rw [hent]
        exact hq'
      · right
        refine ⟨k, hk, ?_⟩
        rw [hst']
        show entryAt W k ∈ rest ++ expandQ path (neighbours ptm mtp node) st.visited
        exact List.mem_append_left _ hrest

theorem bfsLoop_two {ptm mtp : AdjMap} {s t : Nat} {limit : Int} {W1 W2 : List Node}
    (hwf : WFGraph ptm mtp) (hst : ¬ s = t)
    (hW1 : IsConnPath ptm mtp s t W1) (hW2 : IsConnPath ptm mtp s t W2)
    (hne12 : W1 ≠ W2)
    (hmin1 : ∀ q, IsConnPath ptm mtp s t q → W1.length ≤ q.length)
    (hmin2 : ∀ q, IsConnPath ptm mtp s t q → W2.length ≤ q.length)
    (hlim : 2 ≤ limit) :
    ∀ (fuel : Nat) (st : BfsState), InvFull ptm mtp s t limit st →
      PendingOrDone W1 st → PendingOrDone W2 st →
      (pathUniverse (nodeList ptm mtp s)).card < fuel + st.popped.length →
      2 ≤ (bfsLoop ptm mtp (Kind.person, t) limit fuel st).solutions.length := by
  intro fuel
  induction fuel with
  | zero =>
    intro st inv _ _ hfuel
    exfalso
    have := popped_le_bound inv
    omega
  | succ n ih =>
    intro st inv hp1 hp2 hfuel
    rcases bfsStep_cases ptm mtp (Kind.person, t) limit st with
      ⟨hqnil, hstep⟩ | ⟨node, path, rest, sh, hq, hsh, hlt, hstep⟩ |
      ⟨node, path, rest, hq, hnb, hg1, hg2, hlim2, hstep⟩ |
      ⟨node, path, rest, hq, hnb, hg1, hg2, hlim2, hstep⟩ |
      ⟨node, path, rest, hq, hnb, hng, hstep⟩
    · rw [bfsLoop_succ_done hstep]
      have hs1 : W1 ∈ st.solutions := by
        rcases hp1 with hh | ⟨k, hk, hke⟩
        · exact hh
        · rw [hqnil] at hke; simp at hke
      have hs2 : W2 ∈ st.solutions := by
        rcases hp2 with hh | ⟨k, hk, hke⟩
        · exact hh
        · rw [hqnil] at hke; simp at hke
      exact two_mem_length hs1 hs2 hne12
    · rw [bfsLoop_succ_done hstep]
      show 2 ≤ (popState st node path rest).solutions.length
      have hsols : (popState st node path rest).solutions = st.solutions := rfl
      rw [hsols]
      have himp : ∀ (W : List Node), IsConnPath ptm mtp s t W →
          (∀ q, IsConnPath ptm mtp s t q → W.length ≤ q.length) →
          PendingOrDone W st → W ∈ st.solutions := by
        intro W hWc hminc hpd
        rcases hpd with hh | ⟨k, hk, hke⟩
        · exact hh
        · exfalso
          have hfm := front_min inv.toInvSound hq _ hke
          have hlen : (entryAt W k).2.length = k + 1 := by
            show (W.take (k + 1)).length = k + 1
            rw [List.length_take]
            omega
          rw [hlen] at hfm
          obtain ⟨sol, hsolmem⟩ : ∃ sol, sol ∈ st.solutions := by
            cases hsols2 : st.solutions with
            | nil => exact absurd hsols2 (inv.someNonempty sh hsh)
            | cons a l =>
              exact ⟨a, List.mem_cons_self a l⟩
          have hconn := (inv.solsConn sol hsolmem).1
          have hW_le := hminc sol hconn
          have hsol_len := inv.solsLen sh hsh sol hsolmem
          omega
      exact two_mem_length (himp W1 hW1 hmin1 hp1) (himp W2 hW2 hmin2 hp2) hne12
    · rw [bfsLoop_succ_done hstep]
      show 2 ≤ (st.solutions ++ [path]).length
      have hl : (st.solutions ++ [path]).length = st.solutions.length + 1 := by simp
      rw [hl]
      have h2i : (2 : Int) ≤ ((st.solutions.length + 1 : Nat) : Int) := le_trans hlim hlim2
      exact_mod_cast h2i
    · rw [bfsLoop_succ_next hstep]
      refine ih _ (invFull_sol hst inv hq hg1 hg2 hnb)
        (pendingOrDone_next hst hW1 hmin1 inv hstep hp1)
        (pendingOrDone_next hst hW2 hmin2 inv hstep hp2) ?_
      have hpop : (solState (popState st node path rest) path).popped.length =
          st.popped.length + 1 := by
        show (st.popped ++ [((node, path) : Entry)]).length = st.popped.length + 1
        simp
      omega
    · rw [bfsLoop_succ_next hstep]
      refine ih _ (invFull_expand hwf hst inv hq hng)
        (pendingOrDone_next hst hW1 hmin1 inv hstep hp1)
        (pendingOrDone_next hst hW2 hmin2 inv hstep hp2) ?_
      have hpop : (expandState ptm mtp (popState st node path rest) node path).popped.length =
          st.popped.length + 1 := by
        show (st.popped ++ [((node, path) : Entry)]).length = st.popped.length + 1
        simp
      omega

theorem find_two {s t : Nat} {ptm mtp : AdjMap} {limit : Int} {W1 W2 : List Node}
    (hwf : WFGraph ptm mtp) (hst : ¬ s = t)
    (hW1 : IsConnPath ptm mtp s t W1) (hW2 : IsConnPath ptm mtp s t W2)
    (hne12 : W1 ≠ W2)
    (hmin1 : ∀ q, IsConnPath ptm mtp s t q → W1.length ≤ q.length)
    (hmin2 : ∀ q, IsConnPath ptm mtp s t q → W2.length ≤ q.length)
    (hlim : 2 ≤ limit) :
    2 ≤ (find_shortest_paths s t ptm mtp limit).length := by
  rw [find_eq_loop hst]
  refine bfsLoop_two hwf hst hW1 hW2 hne12 hmin1 hmin2 hlim (bfsFuel ptm mtp s) (bfsInit s)
    (invFull_init ptm mtp s t limit) (pendingOrDone_init hW1) (pendingOrDone_init hW2) ?_
  have := universe_card_lt_fuel ptm mtp s
  have h0 : (bfsInit s).popped.length = 0 := rfl
  omega

theorem charsLt_asymm : ∀ a b, charsLt a b = true → charsLt b a = true → False := by
  intro a
  induction a with
  | nil =>
    intro b h1 h2
    cases b with
    | nil => simp [charsLt] at h1
    | cons y ys => simp [charsLt] at h2
  | cons x xs ih =>
    intro b h1 h2
    cases b with
    | nil => simp [charsLt] at h1
    | cons y ys =>
      simp only [charsLt] at h1 h2
      by_cases hxy : x.toNat < y.toNat
      · rw [if_neg (by omega), if_pos hxy] at h2
        simp at h2
      · by_cases hyx : y.toNat < x.toNat
        · rw [if_neg hxy, if_pos hyx] at h1
          simp at h1
        · rw [if_neg hxy, if_neg hyx] at h1
          rw [if_neg hyx, if_neg hxy] at h2
          exact ih ys h1 h2

theorem charsLt_trans : ∀ a b c, charsLt a b = true → charsLt b c = true →
    charsLt a c = true := by
  intro a
  induction a with
  | nil =>
    intro b c h1 h2
    cases b with
    | nil => simp [charsLt] at h1
    | cons y ys =>
      cases c with
      | nil => simp [charsLt] at h2
      | cons z zs => simp [charsLt]
  | cons x xs ih =>
    intro b c h1 h2
    cases b with
    | nil => simp [charsLt] at h1
    | cons y ys =>
      cases c with
      | nil => simp [charsLt] at h2
      | cons z zs =>
        simp only [charsLt] at h1 h2 ⊢
        by_cases hxy : x.toNat < y.toNat
        · by_cases hyz : y.toNat < z.toNat
          · rw [if_pos (by omega : x.toNat < z.toNat)]
          · by_cases hzy : z.toNat < y.toNat
            · rw [if_neg hyz, if_pos hzy] at h2
              simp at h2
            · rw [if_pos (by omega : x.toNat < z.toNat)]
        · by_cases hyx : y.toNat < x.toNat
          · rw [if_neg hxy, if_pos hyx] at h1
            simp at h1
          · rw [if_neg hxy, if_neg hyx] at h1
            by_cases hyz : y.toNat < z.toNat
            · rw [if_pos (by omega : x.toNat < z.toNat)]
            · by_cases hzy : z.toNat < y.toNat
              · rw [if_neg hyz, if_pos hzy] at h2
                simp at h2
              · rw [if_neg hyz, if_neg hzy] at h2
                rw [if_neg (by omega : ¬ x.toNat < z.toNat),
                  if_neg (by omega : ¬ z.toNat < x.toNat)]
                exact ih ys zs h1 h2

theorem charsLt_connex : ∀ a b, a ≠ b → charsLt a b = true ∨ charsLt b a = true := by
  intro a
  induction a with
  | nil =>
    intro b hne
    cases b with
    | nil => exact absurd rfl hne
    | cons y ys => left; simp [charsLt]
  | cons x xs ih =>
    intro b hne
    cases b with
    | nil => right; simp [charsLt]
    | cons y ys =>
      by_cases hxy : x.toNat < y.toNat
      · left
        simp only [charsLt]
        rw [if_pos hxy]
      · by_cases hyx : y.toNat < x.toNat
        · right
          simp only [charsLt]
          rw [if_pos hyx]
        · have htn : x.toNat = y.toNat := by omega
          have hx : x = y := by
            apply Char.eq_of_val_eq
            have h2 : x.val.toNat = y.val.toNat := htn
            exact UInt32.toNat.inj h2
          have hxs : xs ≠ ys := by
            intro hh
            exact hne (by rw [hx, hh])
          rcases ih ys hxs with h | h
          · left
            simp only [charsLt]
            rw [if_neg hxy, if_neg hyx]
            exact h
          · right
            simp only [charsLt]
            rw [if_neg hyx, if_neg hxy]
            exact h

theorem strLe_total (a b : String) : strLe a b = true ∨ strLe b a = true := by
  unfold strLe
  by_cases h1 : charsLt b.data a.data = true
  · right
    by_cases h2 : charsLt a.data b.data = true
    · exact (charsLt_asymm _ _ h2 h1).elim
    · rw [Bool.not_eq_true] at h2
      rw [h2]
      rfl
  · left
    rw [Bool.not_eq_true] at h1
    rw [h1]
    rfl

theorem strLe_trans {a b c : String} (h1 : strLe a b = true) (h2 : strLe b c = true) :
    strLe a c = true := by
  unfold strLe at h1 h2 ⊢
  rw [Bool.not_eq_true'] at h1 h2 ⊢
  by_cases hca : charsLt c.data a.data = true
  · exfalso
    by_cases hab : a.data = b.data
    · rw [← hab] at h2
      rw [h2] at hca
      simp at hca
    · rcases charsLt_connex a.data b.data hab with h | h
      · have hcb := charsLt_trans _ _ _ hca h
        rw [h2] at hcb
        simp at hcb
      · rw [h1] at h
        simp at h
  · rw [Bool.not_eq_true] at hca
    exact hca

theorem strLe_antisymm {a b : String} (h1 : strLe a b = true) (h2 : strLe b a = true) :
    a = b := by
  unfold strLe at h1 h2
  rw [Bool.not_eq_true'] at h1 h2
  by_cases hd : a.data = b.data
  · cases a
    cases b
    exact congrArg String.mk hd
  · rcases charsLt_connex a.data b.data hd with h | h
    · rw [h2] at h
      simp at h
    · rw [h1] at h
      simp at h

theorem sorted_perm_eq {α : Type} {r : α → α → Prop} :
    ∀ {l1 l2 : List α}, l1.Perm l2 → l1.Pairwise r → l2.Pairwise r →
      (∀ a ∈ l1, ∀ b ∈ l1, r a b → r b a → a = b) → l1 = l2 := by
  intro l1
  induction l1 with
  | nil =>
    intro l2 hp _ _ _
    exact hp.nil_eq
  | cons a t1 ih =>
    intro l2 hp hp1 hp2 hanti
    cases l2 with
    | nil => exact absurd hp.eq_nil (by simp)
    | cons b t2 =>
      have hab : a = b := by
        by_cases h : a = b
        · exact h
        · exfalso
          have ha2 : a ∈ b :: t2 := hp.mem_iff.1 (List.mem_cons_self a t1)
          have hb1 : b ∈ a :: t1 := hp.mem_iff.2 (List.mem_cons_self b t2)
          have hat2 : a ∈ t2 := by
            rcases List.mem_cons.1 ha2 with hh | hh
            · exact absurd hh h
            · exact hh
          have hbt1 : b ∈ t1 := by
            rcases List.mem_cons.1 hb1 with hh | hh
            · exact absurd hh.symm h
            · exact hh
          have hrab : r a b := (List.pairwise_cons.1 hp1).1 b hbt1
          have hrba : r b a := (List.pairwise_cons.1 hp2).1 a hat2
          exact h (hanti a (List.mem_cons_self a t1) b hb1 hrab hrba)
      subst hab
      have hperm' : t1.Perm t2 := hp.cons_inv
      have ht1 := (List.pairwise_cons.1 hp1).2
      have ht2 := (List.pairwise_cons.1 hp2).2
      have hanti' : ∀ x ∈ t1, ∀ y ∈ t1, r x y → r y x → x = y := by
        intro x hx y hy
        exact hanti x (List.mem_cons_of_mem _ hx) y (List.mem_cons_of_mem _ hy)
      rw [ih hperm' ht1 ht2 hanti']

theorem mem_addToListSet {α : Type} [DecidableEq α] (xs : List α) (y x : α) :
    x ∈ addToListSet xs y ↔ x ∈ xs ∨ x = y := by
  unfold addToListSet
  by_cases h : y ∈ xs
  · rw [if_pos h]
    constructor
    · exact Or.inl
    · intro hh
      rcases hh with hh | hh
      · exact hh
      · rw [hh]
        exact h
  · rw [if_neg h]
    simp

theorem addToListSet_nodup {α : Type} [DecidableEq α] {xs : List α} (h : xs.Nodup) (y : α) :
    (addToListSet xs y).Nodup := by
  unfold addToListSet
  by_cases hm : y ∈ xs
  · rw [if_pos hm]
    exact h
  · rw [if_neg hm]
    rw [List.nodup_append]
    refine ⟨h, List.nodup_singleton y, fun x hx hy => ?_⟩
    rw [List.mem_singleton] at hy
    rw [hy] at hx
    exact hm hx

theorem lookup_updateAssoc_self {ν : Type} :
    ∀ (m : List (Nat × ν)) (k : Nat) (d : ν) (f : ν → ν),
      (updateAssoc m k d f).lookup k = some (f ((m.lookup k).getD d)) := by
  intro m
  induction m with
  | nil =>
    intro k d f
    simp [updateAssoc, List.lookup]
  | cons e rest ih =>
    intro k d f
    rcases e with ⟨k', v⟩
    by_cases hk : k = k'
    · subst hk
      rw [updateAssoc, if_pos rfl]
      rw [List.lookup_cons, List.lookup_cons]
      simp
    · rw [updateAssoc, if_neg hk]
      rw [List.lookup_cons, List.lookup_cons]
      have hbeq : (k == k') = false := beq_false_of_ne hk
      rw [hbeq]
      exact ih k d f

theorem lookup_updateAssoc_ne {ν : Type} :
    ∀ (m : List (Nat × ν)) (k k0 : Nat) (d : ν) (f : ν → ν), k0 ≠ k →
      (updateAssoc m k d f).lookup k0 = m.lookup k0 := by
  intro m
  induction m with
  | nil =>
    intro k k0 d f hne
    rw [updateAssoc]
    rw [List.lookup_cons]
    have hbeq : (k0 == k) = false := beq_false_of_ne hne
    rw [hbeq]
  | cons e rest ih =>
    intro k k0 d f hne
    rcases e with ⟨k', v⟩
    by_cases hk : k = k'
    · subst hk
      rw [updateAssoc, if_pos rfl]
      rw [List.lookup_cons, List.lookup_cons]
      have hbeq : (k0 == k) = false := beq_false_of_ne hne
      rw [hbeq]
    · rw [updateAssoc, if_neg hk]
      rw [List.lookup_cons, List.lookup_cons]
      by_cases h0 : k0 = k'
      · subst h0
        rw [beq_self_eq_true]
      · have hbeq : (k0 == k') = false := beq_false_of_ne h0
        rw [hbeq]
        exact ih k k0 d f hne

theorem mem_updateAssoc {ν : Type} :
    ∀ (m : List (Nat × ν)) (k : Nat) (d : ν) (f : ν → ν) (e : Nat × ν),
      e ∈ updateAssoc m k d f → e ∈ m ∨ e = (k, f ((m.lookup k).getD d)) := by
  intro m
  induction m with
  | nil =>
    intro k d f e he
    rw [updateAssoc] at he
    rcases List.mem_singleton.1 he with hh
    right
    rw [hh]
    simp [List.lookup]
  | cons b rest ih =>
    intro k d f e he
    rcases b with ⟨k', v⟩
    by_cases hk : k = k'
    · subst hk
      rw [updateAssoc, if_pos rfl] at he
      rcases List.mem_cons.1 he with hh | hh
      · right
        rw [hh]
        rw [List.lookup_cons, beq_self_eq_true]
        rfl
      · left
        exact List.mem_cons_of_mem _ hh
    · rw [updateAssoc, if_neg hk] at he
      rcases List.mem_cons.1 he with hh | hh
      · left
        rw [hh]
        exact List.mem_cons_self _ _
      · rcases ih k d f e hh with hh2 | hh2
        · left
          exact List.mem_cons_of_mem _ hh2
        · right
          rw [hh2]
          rw [List.lookup_cons]
          have hbeq : (k == k') = false := beq_false_of_ne hk
          rw [hbeq]

theorem lookup_map_val {ν ν2 : Type} (f : ν → ν2) :
    ∀ (m : List (Nat × ν)) (k : Nat),
      (m.map fun b => (b.1, f b.2)).lookup k = (m.lookup k).map f := by
  intro m
  induction m with
  | nil => intro k; simp [List.lookup]
  | cons e rest ih =>
    intro k
    rcases e with ⟨k', v⟩
    simp only [List.map_cons]
    rw [List.lookup_cons, List.lookup_cons]
    by_cases h : k = k'
    · subst h
      rw [beq_self_eq_true]
      rfl
    · have hbeq : (k == k') = false := beq_false_of_ne h
      rw [hbeq]
      exact ih k

theorem processRow_some {acc acc' : GraphAccum} {r : Row}
    (h : processRow acc r = some acc') :
    ∃ pid mid, r.person_id = some pid ∧ r.movie_id = some mid := by
  cases hp : r.person_id with
  | none =>
    unfold processRow at h
    rw [hp] at h
    cases (show (none : Option GraphAccum) = some acc' from h)
  | some pid =>
    cases hm : r.movie_id with
    | none =>
      unfold processRow at h
      rw [hp, hm] at h
      cases (show (none : Option GraphAccum) = some acc' from h)
    | some mid => exact ⟨pid, mid, rfl, rfl⟩

theorem processRow_pd {acc acc' : GraphAccum} {r : Row} {pid mid : Nat}
    (hp : r.person_id = some pid) (hm : r.movie_id = some mid)
    (h : processRow acc r = some acc') :
    acc'.person_details = updateAssoc acc.person_details pid
      { name := orDefault r.person_name "Unknown person", roles := [] }
      (fun det => { det with roles := addToListSet det.roles (rowRole r) }) := by
  unfold processRow at h
  rw [hp, hm] at h
  have h2 := Option.some.inj h
  rw [← h2]

theorem processRow_md {acc acc' : GraphAccum} {r : Row} {pid mid : Nat}
    (hp : r.person_id = some pid) (hm : r.movie_id = some mid)
    (h : processRow acc r = some acc') :
    acc'.movie_details = updateAssoc acc.movie_details mid
      { title := orDefault r.movie_title "Untitled",
        year := yearString r.movie_year, imdb_id := r.movie_imdb_id }
      (fun det => det) := by
  unfold processRow at h
  rw [hp, hm] at h
  have h2 := Option.some.inj h
  rw [← h2]

theorem processRow_ptm {acc acc' : GraphAccum} {r : Row} {pid mid : Nat}
    (hp : r.person_id = some pid) (hm : r.movie_id = some mid)
    (h : processRow acc r = some acc') :
    acc'.person_to_movies = updateAssoc acc.person_to_movies pid []
      (fun s => addToListSet s mid) := by
  unfold processRow at h
  rw [hp, hm] at h
  have h2 := Option.some.inj h
  rw [← h2]

theorem processRow_mtp {acc acc' : GraphAccum} {r : Row} {pid mid : Nat}
    (hp : r.person_id = some pid) (hm : r.movie_id = some mid)
    (h : processRow acc r = some acc') :
    acc'.movie_to_people = updateAssoc acc.movie_to_people mid []
      (fun s => addToListSet s pid) := by
  unfold processRow at h
  rw [hp, hm] at h
  have h2 := Option.some.inj h
  rw [← h2]

theorem load_names :
    ∀ (rows : List Row) (pname : Nat → String) (acc acc' : GraphAccum),
      rows.foldlM processRow acc = some acc' →
      (∀ r ∈ rows, ∀ p, r.person_id = some p →
        orDefault r.person_name "Unknown person" = pname p) →
      ∀ p,
        (∀ det, acc.person_details.lookup p = some det →
          ∃ det2, acc'.person_details.lookup p = some det2 ∧ det2.name = det.name) ∧
        (acc.person_details.lookup p = none →
          (∃ r ∈ rows, r.person_id = some p) →
          ∃ det2, acc'.person_details.lookup p = some det2 ∧ det2.name = pname p) ∧
        (acc.person_details.lookup p = none →
          (∀ r ∈ rows, ¬ r.person_id = some p) →
          acc'.person_details.lookup p = none) := by
  intro rows
  induction rows with
  | nil =>
    intro pname acc acc' h _ p
    rw [List.foldlM_nil] at h
    have h2 := Option.some.inj h
    subst h2
    refine ⟨fun det hd => ⟨det, hd, rfl⟩, fun hn hocc => ?_, fun hn _ => hn⟩
    obtain ⟨r, hr, _⟩ := hocc
    simp at hr
  | cons r rs ih =>
    intro pname acc acc' h hcons p
    rw [List.foldlM_cons] at h
    cases hpr : processRow acc r with
    | none =>
      rw [hpr] at h
      simp at h
    | some acc1 =>
      rw [hpr] at h
      have h : rs.foldlM processRow acc1 = some acc' := h
      obtain ⟨pid, mid, hp, hm⟩ := processRow_some hpr
      have hpd := processRow_pd hp hm hpr
      have hcons' : ∀ r2 ∈ rs, ∀ q, r2.person_id = some q →
          orDefault r2.person_name "Unknown person" = pname q :=
        fun r2 hr2 q hq => hcons r2 (List.mem_cons_of_mem _ hr2) q hq
      obtain ⟨ih1, ih2, ih3⟩ := ih pname acc1 acc' h hcons' p
      by_cases heq : p = pid
      · subst heq
        refine ⟨?_, ?_, ?_⟩
        · intro det hdet
          have hl := lookup_updateAssoc_self acc.person_details p
            ({ name := orDefault r.person_name "Unknown person", roles := [] })
            (fun det => { det with roles := addToListSet det.roles (rowRole r) })
          rw [hdet] at hl
          rw [← hpd] at hl
          obtain ⟨det2, hdet2, hname⟩ := ih1 _ hl
          exact ⟨det2, hdet2, hname⟩
        · intro hnone _
          have hl := lookup_updateAssoc_self acc.person_details p
            ({ name := orDefault r.person_name "Unknown person", roles := [] })
            (fun det => { det with roles := addToListSet det.roles (rowRole r) })
          rw [hnone] at hl
          rw [← hpd] at hl
          obtain ⟨det2, hdet2, hname⟩ := ih1 _ hl
          refine ⟨det2, hdet2, ?_⟩
          rw [hname]
          show orDefault r.person_name "Unknown person" = pname p
          exact hcons r (List.mem_cons_self r rs) p hp
        · intro _ hnocc
          exact absurd hp (hnocc r (List.mem_cons_self r rs))
      · have hkeep : acc1.person_details.lookup p = acc.person_details.lookup p := by
          rw [hpd]
          exact lookup_updateAssoc_ne _ _ _ _ _ heq
        refine ⟨?_, ?_, ?_⟩
        · intro det hdet
          exact ih1 det (by rw [hkeep]; exact hdet)
        · intro hnone hocc
          obtain ⟨r2, hr2, hq⟩ := hocc
          rcases List.mem_cons.1 hr2 with hr2 | hr2
          · exfalso
            rw [hr2] at hq
            rw [hp] at hq
            exact heq (Option.some.inj hq).symm
          · exact ih2 (by rw [hkeep]; exact hnone) ⟨r2, hr2, hq⟩
        · intro hnone hnocc
          exact ih3 (by rw [hkeep]; exact hnone)
            (fun r2 hr2 => hnocc r2 (List.mem_cons_of_mem _ hr2))

theorem load_titles :
    ∀ (rows : List Row) (mtitle : Nat → String) (acc acc' : GraphAccum),
      rows.foldlM processRow acc = some acc' →
      (∀ r ∈ rows, ∀ m, r.movie_id = some m →
        orDefault r.movie_title "Untitled" = mtitle m) →
      ∀ m,
        (∀ det, acc.movie_details.lookup m = some det →
          ∃ det2, acc'.movie_details.lookup m = some det2 ∧ det2.title = det.title) ∧
        (acc.movie_details.lookup m = none →
          (∃ r ∈ rows, r.movie_id = some m) →
          ∃ det2, acc'.movie_details.lookup m = some det2 ∧ det2.title = mtitle m) ∧
        (acc.movie_details.lookup m = none →
          (∀ r ∈ rows, ¬ r.movie_id = some m) →
          acc'.movie_details.lookup m = none) := by
  intro rows
  induction rows with
  | nil =>
    intro mtitle acc acc' h _ m
    rw [List.foldlM_nil] at h
    have h2 := Option.some.inj h
    subst h2
    refine ⟨fun det hd => ⟨det, hd, rfl⟩, fun hn hocc => ?_, fun hn _ => hn⟩
    obtain ⟨r, hr, _⟩ := hocc
    simp at hr
  | cons r rs ih =>
    intro mtitle acc acc' h hcons m
    rw [List.foldlM_cons] at h
    cases hpr : processRow acc r with
    | none =>
      rw [hpr] at h
      simp at h
    | some acc1 =>
      rw [hpr] at h
      have h : rs.foldlM processRow acc1 = some acc' := h
      obtain ⟨pid, mid, hp, hm⟩ := processRow_some hpr
      have hmd := processRow_md hp hm hpr
      have hcons' : ∀ r2 ∈ rs, ∀ q, r2.movie_id = some q →
          orDefault r2.movie_title "Untitled" = mtitle q :=
        fun r2 hr2 q hq => hcons r2 (List.mem_cons_of_mem _ hr2) q hq
      obtain ⟨ih1, ih2, ih3⟩ := ih mtitle acc1 acc' h hcons' m
      by_cases heq : m = mid
      · subst heq
        refine ⟨?_, ?_, ?_⟩
        · intro det hdet
          have hl := lookup_updateAssoc_self acc.movie_details m
            ({ title := orDefault r.movie_title "Untitled",
               year := yearString r.movie_year, imdb_id := r.movie_imdb_id })
            (fun det => det)
          rw [hdet] at hl
          rw [← hmd] at hl
          obtain ⟨det2, hdet2, htitle⟩ := ih1 _ hl
          exact ⟨det2, hdet2, htitle⟩
        · intro hnone _
          have hl := lookup_updateAssoc_self acc.movie_details m
            ({ title := orDefault r.movie_title "Untitled",
               year := yearString r.movie_year, imdb_id := r.movie_imdb_id })
            (fun det => det)
          rw [hnone] at hl
          rw [← hmd] at hl
          obtain ⟨det2, hdet2, htitle⟩ := ih1 _ hl
          refine ⟨det2, hdet2, ?_⟩
          rw [htitle]
          show orDefault r.movie_title "Untitled" = mtitle m
          exact hcons r (List.mem_cons_self r rs) m hm
        · intro _ hnocc
          exact absurd hm (hnocc r (List.mem_cons_self r rs))
      · have hkeep : acc1.movie_details.lookup m = acc.movie_details.lookup m := by
          rw [hmd]
          exact lookup_updateAssoc_ne _ _ _ _ _ heq
        refine ⟨?_, ?_, ?_⟩
        · intro det hdet
          exact ih1 det (by rw [hkeep]; exact hdet)
        · intro hnone hocc
          obtain ⟨r2, hr2, hq⟩ := hocc
          rcases List.mem_cons.1 hr2 with hr2 | hr2
          · exfalso
            rw [hr2] at hq
            rw [hm] at hq
            exact heq (Option.some.inj hq).symm
          · exact ih2 (by rw [hkeep]; exact hnone) ⟨r2, hr2, hq⟩
        · intro hnone hnocc
          exact ih3 (by rw [hkeep]; exact hnone)
            (fun r2 hr2 => hnocc r2 (List.mem_cons_of_mem _ hr2))

theorem load_ptm :
    ∀ (rows : List Row) (acc acc' : GraphAccum),
      rows.foldlM processRow acc = some acc' →
      ∀ p,
        (∀ m, m ∈ (acc'.person_to_movies.lookup p).getD [] ↔
          (m ∈ (acc.person_to_movies.lookup p).getD [] ∨
            ∃ r ∈ rows, r.person_id = some p ∧ r.movie_id = some m)) ∧
        (acc'.person_to_movies.lookup p = none ↔
          (acc.person_to_movies.lookup p = none ∧
            ∀ r ∈ rows, ¬ r.person_id = some p)) := by
  intro rows
  induction rows with
  | nil =>
    intro acc acc' h p
    rw [List.foldlM_nil] at h
    have h2 := Option.some.inj h
    subst h2
    refine ⟨fun m => ?_, ?_⟩
    · constructor
      · exact Or.inl
      · intro hh
        rcases hh with hh | ⟨r, hr, _⟩
        · exact hh
        · simp at hr
    · constructor
      · intro hh
        exact ⟨hh, fun r hr => absurd hr (List.not_mem_nil r)⟩
      · intro hh
        exact hh.1
  | cons r rs ih =>
    intro acc acc' h p
    rw [List.foldlM_cons] at h
    cases hpr : processRow acc r with
    | none =>
      rw [hpr] at h
      simp at h
    | some acc1 =>
      rw [hpr] at h
      have h : rs.foldlM processRow acc1 = some acc' := h
      obtain ⟨pid, mid, hp, hm⟩ := processRow_some hpr
      have hptm := processRow_ptm hp hm hpr
      obtain ⟨ih1, ih2⟩ := ih acc1 acc' h p
      by_cases heq : p = pid
      · subst heq
        have hl : acc1.person_to_movies.lookup p =
            some (addToListSet ((acc.person_to_movies.lookup p).getD []) mid) := by
          rw [hptm]
          exact lookup_updateAssoc_self _ _ _ _
        constructor
        · intro m
          rw [ih1 m, hl, Option.getD_some, mem_addToListSet, List.exists_mem_cons_iff]
          constructor
          · intro hh
            rcases hh with (hh | hh) | hh
            · exact Or.inl hh
            · refine Or.inr (Or.inl ⟨hp, ?_⟩)
              rw [hm, hh]
            · exact Or.inr (Or.inr hh)
          · intro hh
            rcases hh with hh | (⟨h1, h2⟩ | hh)
            · exact Or.inl (Or.inl hh)
            · refine Or.inl (Or.inr ?_)
              rw [hm] at h2
              exact (Option.some.inj h2).symm
            · exact Or.inr hh
        · constructor
          · intro hh
            exfalso
            have hn := (ih2.1 hh).1
            rw [hl] at hn
            simp at hn
          · rintro ⟨_, h2⟩
            exact absurd hp (h2 r (List.mem_cons_self r rs))
      · have hkeep : acc1.person_to_movies.lookup p = acc.person_to_movies.lookup p := by
          rw [hptm]
          exact lookup_updateAssoc_ne _ _ _ _ _ heq
        constructor
        · intro m
          rw [ih1 m, hkeep, List.exists_mem_cons_iff]
          constructor
          · intro hh
            rcases hh with hh | hh
            · exact Or.inl hh
            · exact Or.inr (Or.inr hh)
          · intro hh
            rcases hh with hh | (⟨h1, _⟩ | hh)
            · exact Or.inl hh
            · exfalso
              rw [hp] at h1
              exact heq (Option.some.inj h1).symm
            · exact Or.inr hh
        · rw [ih2, hkeep]
          constructor
          · rintro ⟨h1, h2⟩
            refine ⟨h1, fun r2 hr2 => ?_⟩
            rcases List.mem_cons.1 hr2 with hh | hh
            · rw [hh, hp]
              intro hc
              exact heq (Option.some.inj hc).symm
            · exact h2 r2 hh
          · rintro ⟨h1, h2⟩
            exact ⟨h1, fun r2 hr2 => h2 r2 (List.mem_cons_of_mem _ hr2)⟩

theorem load_mtp :
    ∀ (rows : List Row) (acc acc' : GraphAccum),
      rows.foldlM processRow acc = some acc' →
      ∀ m,
        (∀ p, p ∈ (acc'.movie_to_people.lookup m).getD [] ↔
          (p ∈ (acc.movie_to_people.lookup m).getD [] ∨
            ∃ r ∈ rows, r.movie_id = some m ∧ r.person_id = some p)) ∧
        (acc'.movie_to_people.lookup m = none ↔
          (acc.movie_to_people.lookup m = none ∧
            ∀ r ∈ rows, ¬ r.movie_id = some m)) := by
  intro rows
  induction rows with
  | nil =>
    intro acc acc' h m
    rw [List.foldlM_nil] at h
    have h2 := Option.some.inj h
    subst h2
    refine ⟨fun p => ?_, ?_⟩
    · constructor
      · exact Or.inl
      · intro hh
        rcases hh with hh | ⟨r, hr, _⟩
        · exact hh
        · simp at hr
    · constructor
      · intro hh
        exact ⟨hh, fun r hr => absurd hr (List.not_mem_nil r)⟩
      · intro hh
        exact hh.1
  | cons r rs ih =>
    intro acc acc' h m
    rw [List.foldlM_cons] at h
    cases hpr : processRow acc r with
    | none =>
      rw [hpr] at h
      simp at h
    | some acc1 =>
      rw [hpr] at h
      have h : rs.foldlM processRow acc1 = some acc' := h
      obtain ⟨pid, mid, hp, hm⟩ := processRow_some hpr
      have hmtp := processRow_mtp hp hm hpr
      obtain ⟨ih1, ih2⟩ := ih acc1 acc' h m
      by_cases heq : m = mid
      · subst heq
        have hl : acc1.movie_to_people.lookup m =
            some (addToListSet ((acc.movie_to_people.lookup m).getD []) pid) := by
          rw [hmtp]
          exact lookup_updateAssoc_self _ _ _ _
        constructor
        · intro p
          rw [ih1 p, hl, Option.getD_some, mem_addToListSet, List.exists_mem_cons_iff]
          constructor
          · intro hh
            rcases hh with (hh | hh) | hh
            · exact Or.inl hh
            · refine Or.inr (Or.inl ⟨hm, ?_⟩)
              rw [hp, hh]
            · exact Or.inr (Or.inr hh)
          · intro hh
            rcases hh with hh | (⟨h1, h2⟩ | hh)
            · exact Or.inl (Or.inl hh)
            · refine Or.inl (Or.inr ?_)
              rw [hp] at h2
              exact (Option.some.inj h2).symm
            · exact Or.inr hh
        · constructor
          · intro hh
            exfalso
            have hn := (ih2.1 hh).1
            rw [hl] at hn
            simp at hn
          · rintro ⟨_, h2⟩
            exact absurd hm (h2 r (List.mem_cons_self r rs))
      · have hkeep : acc1.movie_to_people.lookup m = acc.movie_to_people.lookup m := by
          rw [hmtp]
          exact lookup_updateAssoc_ne _ _ _ _ _ heq
        constructor
        · intro p
          rw [ih1 p, hkeep, List.exists_mem_cons_iff]
          constructor
          · intro hh
            rcases hh with hh | hh
            · exact Or.inl hh
            · exact Or.inr (Or.inr hh)
          · intro hh
            rcases hh with hh | (⟨h1, _⟩ | hh)
            · exact Or.inl hh
            · exfalso
              rw [hm] at h1
              exact heq (Option.some.inj h1).symm
            · exact Or.inr hh
        · rw [ih2, hkeep]
          constructor
          · rintro ⟨h1, h2⟩
            refine ⟨h1, fun r2 hr2 => ?_⟩
            rcases List.mem_cons.1 hr2 with hh | hh
            · rw [hh, hm]
              intro hc
              exact heq (Option.some.inj hc).symm
            · exact h2 r2 hh
          · rintro ⟨h1, h2⟩
            exact ⟨h1, fun r2 hr2 => h2 r2 (List.mem_cons_of_mem _ hr2)⟩

theorem load_ptm_nodup :
    ∀ (rows : List Row) (acc acc' : GraphAccum),
      rows.foldlM processRow acc = some acc' →
      (∀ e ∈ acc.person_to_movies, (Prod.snd e).Nodup) →
      ∀ e ∈ acc'.person_to_movies, (Prod.snd e).Nodup := by
  intro rows
  induction rows with
  | nil =>
    intro acc acc' h hnd
    rw [List.foldlM_nil] at h
    have h2 := Option.some.inj h
    subst h2
    exact hnd
  | cons r rs ih =>
    intro acc acc' h hnd
    rw [List.foldlM_cons] at h
    cases hpr : processRow acc r with
    | none =>
      rw [hpr] at h
      simp at h
    | some acc1 =>
      rw [hpr] at h
      have h : rs.foldlM processRow acc1 = some acc' := h
      obtain ⟨pid, mid, hp, hm⟩ := processRow_some hpr
      have hptm := processRow_ptm hp hm hpr
      refine ih acc1 acc' h ?_
      intro e he
      rw [hptm] at he
      rcases mem_updateAssoc _ _ _ _ e he with hh | hh
      · exact hnd e hh
      · rw [hh]
        show (addToListSet ((acc.person_to_movies.lookup pid).getD []) mid).Nodup
        cases hlk : acc.person_to_movies.lookup pid with
        | none => exact addToListSet_nodup List.nodup_nil mid
        | some l => exact addToListSet_nodup (hnd (pid, l) (lookup_mem hlk)) mid

theorem load_mtp_nodup :
    ∀ (rows : List Row) (acc acc' : GraphAccum),
      rows.foldlM processRow acc = some acc' →
      (∀ e ∈ acc.movie_to_people, (Prod.snd e).Nodup) →
      ∀ e ∈ acc'.movie_to_people, (Prod.snd e).Nodup := by
  intro rows
  induction rows with
  | nil =>
    intro acc acc' h hnd
    rw [List.foldlM_nil] at h
    have h2 := Option.some.inj h
    subst h2
    exact hnd
  | cons r rs ih =>
    intro acc acc' h hnd
    rw [List.foldlM_cons] at h
    cases hpr : processRow acc r with
    | none =>
      rw [hpr] at h
      simp at h
    | some acc1 =>
      rw [hpr] at h
      have h : rs.foldlM processRow acc1 = some acc' := h
      obtain ⟨pid, mid, hp, hm⟩ := processRow_some hpr
      have hmtp := processRow_mtp hp hm hpr
      refine ih acc1 acc' h ?_
      intro e he
      rw [hmtp] at he
      rcases mem_updateAssoc _ _ _ _ e he with hh | hh
      · exact hnd e hh
      · rw [hh]
        show (addToListSet ((acc.movie_to_people.lookup mid).getD []) pid).Nodup
        cases hlk : acc.movie_to_people.lookup mid with
        | none => exact addToListSet_nodup List.nodup_nil pid
        | some l => exact addToListSet_nodup (hnd (mid, l) (lookup_mem hlk)) pid

theorem sortByKey_perm (key : Nat → String) (l : List Nat) : (sortByKey key l).Perm l :=
  List.perm_insertionSort _ l

theorem sortByKey_sorted (key : Nat → String) (l : List Nat) :
    List.Pairwise (fun a b => strLe (key a) (key b) = true) (sortByKey key l) := by
  haveI h1 : IsTotal Nat (fun a b => strLe (key a) (key b) = true) :=
    ⟨fun a b => strLe_total (key a) (key b)⟩
  haveI h2 : IsTrans Nat (fun a b => strLe (key a) (key b) = true) :=
    ⟨fun a b c hab hbc => strLe_trans hab hbc⟩
  exact List.sorted_insertionSort _ l

theorem sortByKey_eq_of_perm {key1 key2 : Nat → String} {l1 l2 : List Nat}
    (hperm : l1.Perm l2)
    (hkeys : ∀ x ∈ l1, key1 x = key2 x)
    (hinj : ∀ x ∈ l1, ∀ y ∈ l1, key1 x = key1 y → x = y) :
    sortByKey key1 l1 = sortByKey key2 l2 := by
  refine sorted_perm_eq (r := fun a b => strLe (key1 a) (key1 b) = true)
    (((sortByKey_perm key1 l1).trans hperm).trans (sortByKey_perm key2 l2).symm)
    (sortByKey_sorted key1 l1) ?_ ?_
  · have hs2 := sortByKey_sorted key2 l2
    refine hs2.imp_of_mem ?_
    intro a b ha hb hr
    have ha1 : a ∈ l1 := hperm.mem_iff.2 ((sortByKey_perm key2 l2).mem_iff.1 ha)
    have hb1 : b ∈ l1 := hperm.mem_iff.2 ((sortByKey_perm key2 l2).mem_iff.1 hb)
    rw [hkeys a ha1, hkeys b hb1]
    exact hr
  · intro a ha b hb hab hba
    have ha1 : a ∈ l1 := (sortByKey_perm key1 l1).mem_iff.1 ha
    have hb1 : b ∈ l1 := (sortByKey_perm key1 l1).mem_iff.1 hb
    exact hinj a ha1 b hb1 (strLe_antisymm hab hba)

theorem load_graph_data_some {rows : List Row} {g : GraphData}
    (h : load_graph_data rows = some g) :
    ∃ acc, load_rows rows = some acc ∧ g = finalizeAccum acc := by
  unfold load_graph_data at h
  obtain ⟨acc, h1, h2⟩ := Option.map_eq_some'.1 h
  exact ⟨acc, h1, h2.symm⟩

theorem finalize_ptm_lookup (acc : GraphAccum) (p : Nat) :
    (finalizeAccum acc).person_to_movies.lookup p =
      (acc.person_to_movies.lookup p).map (sortByKey (titleKey acc.movie_details)) := by
  show (acc.person_to_movies.map fun b =>
    (b.1, sortByKey (titleKey acc.movie_details) b.2)).lookup p = _
  exact lookup_map_val _ acc.person_to_movies p

theorem finalize_mtp_lookup (acc : GraphAccum) (m : Nat) :
    (finalizeAccum acc).movie_to_people.lookup m =
      (acc.movie_to_people.lookup m).map (sortByKey (nameKey acc.person_details)) := by
  show (acc.movie_to_people.map fun b =>
    (b.1, sortByKey (nameKey acc.person_details) b.2)).lookup m = _
  exact lookup_map_val _ acc.movie_to_people m

theorem titleKey_occurring {rows : List Row} {mtitle : Nat → String} {acc : GraphAccum}
    (hok : load_rows rows = some acc)
    (hcons : ∀ r ∈ rows, ∀ m, r.movie_id = some m →
      orDefault r.movie_title "Untitled" = mtitle m)
    {m : Nat} (hocc : ∃ r ∈ rows, r.movie_id = some m) :
    titleKey acc.movie_details m = mtitle m := by
  obtain ⟨det2, hdet2, htitle⟩ :=
    (load_titles rows mtitle emptyAccum acc hok hcons m).2.1 rfl hocc
  unfold titleKey
  rw [hdet2]
  exact htitle

theorem nameKey_occurring {rows : List Row} {pname : Nat → String} {acc : GraphAccum}
    (hok : load_rows rows = some acc)
    (hcons : ∀ r ∈ rows, ∀ p, r.person_id = some p →
      orDefault r.person_name "Unknown person" = pname p)
    {p : Nat} (hocc : ∃ r ∈ rows, r.person_id = some p) :
    nameKey acc.person_details p = pname p := by
  obtain ⟨det2, hdet2, hname⟩ :=
    (load_names rows pname emptyAccum acc hok hcons p).2.1 rfl hocc
  unfold nameKey
  rw [hdet2]
  exact hname

theorem acc_ptm_mem {rows : List Row} {acc : GraphAccum}
    (hok : load_rows rows = some acc) (p m : Nat) :
    m ∈ (acc.person_to_movies.lookup p).getD [] ↔
      ∃ r ∈ rows, r.person_id = some p ∧ r.movie_id = some m := by
  rw [(load_ptm rows emptyAccum acc hok p).1 m]
  constructor
  · rintro (hh | hh)
    · exact absurd (show m ∈ ([] : List Nat) from hh) (List.not_mem_nil m)
    · exact hh
  · exact Or.inr

theorem acc_ptm_none {rows : List Row} {acc : GraphAccum}
    (hok : load_rows rows = some acc) (p : Nat) :
    acc.person_to_movies.lookup p = none ↔ ∀ r ∈ rows, ¬ r.person_id = some p := by
  rw [(load_ptm rows emptyAccum acc hok p).2]
  constructor
  · rintro ⟨_, h2⟩
    exact h2
  · intro h2
    exact ⟨rfl, h2⟩

theorem acc_mtp_mem {rows : List Row} {acc : GraphAccum}
    (hok : load_rows rows = some acc) (m p : Nat) :
    p ∈ (acc.movie_to_people.lookup m).getD [] ↔
      ∃ r ∈ rows, r.movie_id = some m ∧ r.person_id = some p := by
  rw [(load_mtp rows emptyAccum acc hok m).1 p]
  constructor
  · rintro (hh | hh)
    · exact absurd (show p ∈ ([] : List Nat) from hh) (List.not_mem_nil p)
    · exact hh
  · exact Or.inr

theorem acc_mtp_none {rows : List Row} {acc : GraphAccum}
    (hok : load_rows rows = some acc) (m : Nat) :
    acc.movie_to_people.lookup m = none ↔ ∀ r ∈ rows, ¬ r.movie_id = some m := by
  rw [(load_mtp rows emptyAccum acc hok m).2]
  constructor
  · rintro ⟨_, h2⟩
    exact h2
  · intro h2
    exact ⟨rfl, h2⟩

theorem graph_adjOk {rows : List Row} {g : GraphData}
    (h : load_graph_data rows = some g) : WFGraph g.person_to_movies g.movie_to_people := by
  obtain ⟨acc, hacc, hg⟩ := load_graph_data_some h
  have h1 : ∀ e ∈ acc.person_to_movies, (Prod.snd e).Nodup :=
    load_ptm_nodup rows emptyAccum acc hacc (fun e he => absurd he (List.not_mem_nil e))
  have h2 : ∀ e ∈ acc.movie_to_people, (Prod.snd e).Nodup :=
    load_mtp_nodup rows emptyAccum acc hacc (fun e he => absurd he (List.not_mem_nil e))
  constructor
  · intro b hb
    rw [hg] at hb
    have hb2 : b ∈ acc.person_to_movies.map fun bb =>
        (bb.1, sortByKey (titleKey acc.movie_details) bb.2) := hb
    obtain ⟨bb, hbb, hbe⟩ := List.mem_map.1 hb2
    rw [← hbe]
    show (sortByKey (titleKey acc.movie_details) bb.2).Nodup
    exact ((sortByKey_perm _ _).nodup_iff).2 (h1 bb hbb)
  · intro b hb
    rw [hg] at hb
    have hb2 : b ∈ acc.movie_to_people.map fun bb =>
        (bb.1, sortByKey (nameKey acc.person_details) bb.2) := hb
    obtain ⟨bb, hbb, hbe⟩ := List.mem_map.1 hb2
    rw [← hbe]
    show (sortByKey (nameKey acc.person_details) bb.2).Nodup
    exact ((sortByKey_perm _ _).nodup_iff).2 (h2 bb hbb)

theorem build_ptm_eq {rows1 rows2 : List Row} {g1 g2 : GraphData} {mtitle : Nat → String}
    (hperm : rows1.Perm rows2)
    (h1 : load_graph_data rows1 = some g1) (h2 : load_graph_data rows2 = some g2)
    (hconsT : ∀ r ∈ rows1, ∀ m, r.movie_id = some m →
      orDefault r.movie_title "Untitled" = mtitle m)
    (hinjM : ∀ r ∈ rows1, ∀ r2 ∈ rows1, ∀ m m2, r.movie_id = some m →
      r2.movie_id = some m2 → mtitle m = mtitle m2 → m = m2) :
    ∀ p, g1.person_to_movies.lookup p = g2.person_to_movies.lookup p := by
  intro p
  obtain ⟨acc1, hacc1, hg1⟩ := load_graph_data_some h1
  obtain ⟨acc2, hacc2, hg2⟩ := load_graph_data_some h2
  have hconsT2 : ∀ r ∈ rows2, ∀ m, r.movie_id = some m →
      orDefault r.movie_title "Untitled" = mtitle m :=
    fun r hr => hconsT r (hperm.mem_iff.2 hr)
  rw [hg1, hg2, finalize_ptm_lookup, finalize_ptm_lookup]
  cases hlk1 : acc1.person_to_movies.lookup p with
  | none =>
    have hno1 := (acc_ptm_none hacc1 p).1 hlk1
    have hno2 : ∀ r ∈ rows2, ¬ r.person_id = some p :=
      fun r hr => hno1 r (hperm.mem_iff.2 hr)
    have hlk2 := (acc_ptm_none hacc2 p).2 hno2
    rw [hlk2]
    rfl
  | some l1 =>
    have hocc : ∃ r ∈ rows1, r.person_id = some p := by
      by_contra hno
      push_neg at hno
      have hcontra := (acc_ptm_none hacc1 p).2 hno
      rw [hlk1] at hcontra
      simp at hcontra
    cases hlk2 : acc2.person_to_movies.lookup p with
    | none =>
      exfalso
      have hno2 := (acc_ptm_none hacc2 p).1 hlk2
      obtain ⟨r, hr, hpp⟩ := hocc
      exact hno2 r (hperm.mem_iff.1 hr) hpp
    | some l2 =>
      have hl1nd : l1.Nodup := by
        have := load_ptm_nodup rows1 emptyAccum acc1 hacc1
          (fun e he => absurd he (List.not_mem_nil e)) (p, l1) (lookup_mem hlk1)
        exact this
      have hl2nd : l2.Nodup := by
        have := load_ptm_nodup rows2 emptyAccum acc2 hacc2
          (fun e he => absurd he (List.not_mem_nil e)) (p, l2) (lookup_mem hlk2)
        exact this
      have hmemiff : ∀ m, m ∈ l1 ↔ m ∈ l2 := by
        intro m
        have e1 := acc_ptm_mem hacc1 p m
        have e2 := acc_ptm_mem hacc2 p m
        rw [hlk1] at e1
        rw [hlk2] at e2
        have e1' : m ∈ l1 ↔ ∃ r ∈ rows1, r.person_id = some p ∧ r.movie_id = some m := e1
        have e2' : m ∈ l2 ↔ ∃ r ∈ rows2, r.person_id = some p ∧ r.movie_id = some m := e2
        rw [e1', e2']
        constructor
        · rintro ⟨r, hr, hh⟩
          exact ⟨r, hperm.mem_iff.1 hr, hh⟩
        · rintro ⟨r, hr, hh⟩
          exact ⟨r, hperm.mem_iff.2 hr, hh⟩
      have hlperm : l1.Perm l2 := (List.perm_ext_iff_of_nodup hl1nd hl2nd).2 hmemiff
      have hoccm1 : ∀ m ∈ l1, ∃ r ∈ rows1, r.movie_id = some m := by
        intro m hm
        have e1 := (acc_ptm_mem hacc1 p m).1
        rw [hlk1] at e1
        obtain ⟨r, hr, _, hmm⟩ := e1 hm
        exact ⟨r, hr, hmm⟩
      have hkeys : ∀ m ∈ l1,
          titleKey acc1.movie_details m = titleKey acc2.movie_details m := by
        intro m hm
        obtain ⟨r, hr, hmm⟩ := hoccm1 m hm
        rw [titleKey_occurring hacc1 hconsT ⟨r, hr, hmm⟩,
          titleKey_occurring hacc2 hconsT2 ⟨r, hperm.mem_iff.1 hr, hmm⟩]
      have hinj : ∀ x ∈ l1, ∀ y ∈ l1,
          titleKey acc1.movie_details x = titleKey acc1.movie_details y → x = y := by
        intro x hx y hy hkey
        obtain ⟨rx, hrx, hmx⟩ := hoccm1 x hx
        obtain ⟨ry, hry, hmy⟩ := hoccm1 y hy
        apply hinjM rx hrx ry hry x y hmx hmy
        rw [← titleKey_occurring hacc1 hconsT ⟨rx, hrx, hmx⟩,
          ← titleKey_occurring hacc1 hconsT ⟨ry, hry, hmy⟩]
        exact hkey
      show some (sortByKey (titleKey acc1.movie_details) l1) =
        some (sortByKey (titleKey acc2.movie_details) l2)
      exact congrArg some (sortByKey_eq_of_perm hlperm hkeys hinj)

theorem build_mtp_eq {rows1 rows2 : List Row} {g1 g2 : GraphData} {pname : Nat → String}
    (hperm : rows1.Perm rows2)
    (h1 : load_graph_data rows1 = some g1) (h2 : load_graph_data rows2 = some g2)
    (hconsP : ∀ r ∈ rows1, ∀ p, r.person_id = some p →
      orDefault r.person_name "Unknown person" = pname p)
    (hinjP : ∀ r ∈ rows1, ∀ r2 ∈ rows1, ∀ p p2, r.person_id = some p →
      r2.person_id = some p2 → pname p = pname p2 → p = p2) :
    ∀ m, g1.movie_to_people.lookup m = g2.movie_to_people.lookup m := by
  intro m
  obtain ⟨acc1, hacc1, hg1⟩ := load_graph_data_some h1
  obtain ⟨acc2, hacc2, hg2⟩ := load_graph_data_some h2
  have hconsP2 : ∀ r ∈ rows2, ∀ p, r.person_id = some p →
      orDefault r.person_name "Unknown person" = pname p :=
    fun r hr => hconsP r (hperm.mem_iff.2 hr)
  rw [hg1, hg2, finalize_mtp_lookup, finalize_mtp_lookup]
  cases hlk1 : acc1.movie_to_people.lookup m with
  | none =>
    have hno1 := (acc_mtp_none hacc1 m).1 hlk1
    have hno2 : ∀ r ∈ rows2, ¬ r.movie_id = some m :=
      fun r hr => hno1 r (hperm.mem_iff.2 hr)
    have hlk2 := (acc_mtp_none hacc2 m).2 hno2
    rw [hlk2]
    rfl
  | some l1 =>
    have hocc : ∃ r ∈ rows1, r.movie_id = some m := by
      by_contra hno
      push_neg at hno
      have hcontra := (acc_mtp_none hacc1 m).2 hno
      rw [hlk1] at hcontra
      simp at hcontra
    cases hlk2 : acc2.movie_to_people.lookup m with
    | none =>
      exfalso
      have hno2 := (acc_mtp_none hacc2 m).1 hlk2
      obtain ⟨r, hr, hpp⟩ := hocc
      exact hno2 r (hperm.mem_iff.1 hr) hpp
    | some l2 =>
      have hl1nd : l1.Nodup := by
        have := load_mtp_nodup rows1 emptyAccum acc1 hacc1
          (fun e he => absurd he (List.not_mem_nil e)) (m, l1) (lookup_mem hlk1)
        exact this
      have hl2nd : l2.Nodup := by
        have := load_mtp_nodup rows2 emptyAccum acc2 hacc2
          (fun e he => absurd he (List.not_mem_nil e)) (m, l2) (lookup_mem hlk2)
        exact this
      have hmemiff : ∀ p, p ∈ l1 ↔ p ∈ l2 := by
        intro p
        have e1 := acc_mtp_mem hacc1 m p
        have e2 := acc_mtp_mem hacc2 m p
        rw [hlk1] at e1
        rw [hlk2] at e2
        have e1' : p ∈ l1 ↔ ∃ r ∈ rows1, r.movie_id = some m ∧ r.person_id = some p := e1
        have e2' : p ∈ l2 ↔ ∃ r ∈ rows2, r.movie_id = some m ∧ r.person_id = some p := e2
        rw [e1', e2']
        constructor
        · rintro ⟨r, hr, hh⟩
          exact ⟨r, hperm.mem_iff.1 hr, hh⟩
        · rintro ⟨r, hr, hh⟩
          exact ⟨r, hperm.mem_iff.2 hr, hh⟩
      have hlperm : l1.Perm l2 := (List.perm_ext_iff_of_nodup hl1nd hl2nd).2 hmemiff
      have hoccp1 : ∀ p ∈ l1, ∃ r ∈ rows1, r.person_id = some p := by
        intro p hp
        have e1 := (acc_mtp_mem hacc1 m p).1
        rw [hlk1] at e1
        obtain ⟨r, hr, _, hpp⟩ := e1 hp
        exact ⟨r, hr, hpp⟩
      have hkeys : ∀ p ∈ l1,
          nameKey acc1.person_details p = nameKey acc2.person_details p := by
        intro p hp
        obtain ⟨r, hr, hpp⟩ := hoccp1 p hp
        rw [nameKey_occurring hacc1 hconsP ⟨r, hr, hpp⟩,
          nameKey_occurring hacc2 hconsP2 ⟨r, hperm.mem_iff.1 hr, hpp⟩]
      have hinj : ∀ x ∈ l1, ∀ y ∈ l1,
          nameKey acc1.person_details x = nameKey acc1.person_details y → x = y := by
        intro x hx y hy hkey
        obtain ⟨rx, hrx, hpx⟩ := hoccp1 x hx
        obtain ⟨ry, hry, hpy⟩ := hoccp1 y hy
        apply hinjP rx hrx ry hry x y hpx hpy
        rw [← nameKey_occurring hacc1 hconsP ⟨rx, hrx, hpx⟩,
          ← nameKey_occurring hacc1 hconsP ⟨ry, hry, hpy⟩]
        exact hkey
      show some (sortByKey (nameKey acc1.person_details) l1) =
        some (sortByKey (nameKey acc2.person_details) l2)
      exact congrArg some (sortByKey_eq_of_perm hlperm hkeys hinj)

theorem neighbours_congr {ptm1 mtp1 ptm2 mtp2 : AdjMap}
    (hp : ∀ k, ptm1.lookup k = ptm2.lookup k) (hm : ∀ k, mtp1.lookup k = mtp2.lookup k)
    (n : Node) : neighbours ptm1 mtp1 n = neighbours ptm2 mtp2 n := by
  rcases n with ⟨k, i⟩
  cases k
  · show (dictGet ptm1 i).map (fun movie_id => ((Kind.movie, movie_id) : Node)) =
      (dictGet ptm2 i).map (fun movie_id => ((Kind.movie, movie_id) : Node))
    unfold dictGet
    rw [hp i]
  · show (dictGet mtp1 i).map (fun person_id => ((Kind.person, person_id) : Node)) =
      (dictGet mtp2 i).map (fun person_id => ((Kind.person, person_id) : Node))
    unfold dictGet
    rw [hm i]

theorem bfsStep_congr {ptm1 mtp1 ptm2 mtp2 : AdjMap}
    (hp : ∀ k, ptm1.lookup k = ptm2.lookup k) (hm : ∀ k, mtp1.lookup k = mtp2.lookup k)
    (goal : Node) (limit : Int) (st : BfsState) :
    bfsStep ptm1 mtp1 goal limit st = bfsStep ptm2 mtp2 goal limit st := by
  rcases bfsStep_cases ptm1 mtp1 goal limit st with
    ⟨hqnil, hstep⟩ | ⟨node, path, rest, sh, hq, hsh, hlt, hstep⟩ |
    ⟨node, path, rest, hq, hnb, hg1, hg2, hlim, hstep⟩ |
    ⟨node, path, rest, hq, hnb, hg1, hg2, hlim, hstep⟩ |
    ⟨node, path, rest, hq, hnb, hng, hstep⟩
  · rw [hstep, bfsStep_nil hqnil]
  · rw [hstep, bfsStep_break hq hsh hlt]
  · rw [hstep, bfsStep_goal hq hnb ⟨hg1, hg2⟩, if_pos hlim]
  · rw [hstep, bfsStep_goal hq hnb ⟨hg1, hg2⟩, if_neg hlim]
  · rw [hstep, bfsStep_expand hq hnb hng]
    have he : expandState ptm1 mtp1 (popState st node path rest) node path =
        expandState ptm2 mtp2 (popState st node path rest) node path := by
      unfold expandState
      rw [neighbours_congr hp hm node]
    rw [he]

theorem bfsLoop_congr {ptm1 mtp1 ptm2 mtp2 : AdjMap}
    (hp : ∀ k, ptm1.lookup k = ptm2.lookup k) (hm : ∀ k, mtp1.lookup k = mtp2.lookup k)
    (goal : Node) (limit : Int) :
    ∀ (fuel : Nat) (st : BfsState),
      bfsLoop ptm1 mtp1 goal limit fuel st = bfsLoop ptm2 mtp2 goal limit fuel st := by
  intro fuel
  induction fuel with
  | zero => intro st; rfl
  | succ n ih =>
    intro st
    cases hstep : bfsStep ptm1 mtp1 goal limit st with
    | done s1 =>
      rw [bfsLoop_succ_done hstep,
        bfsLoop_succ_done ((bfsStep_congr hp hm goal limit st).symm.trans hstep)]
    | next s1 =>
      rw [bfsLoop_succ_next hstep,
        bfsLoop_succ_next ((bfsStep_congr hp hm goal limit st).symm.trans hstep), ih s1]

theorem find_congr {ptm1 mtp1 ptm2 mtp2 : AdjMap}
    (hp : ∀ k, ptm1.lookup k = ptm2.lookup k) (hm : ∀ k, mtp1.lookup k = mtp2.lookup k)
    (hwf1 : WFGraph ptm1 mtp1) (hwf2 : WFGraph ptm2 mtp2)
    (s t : Nat) (limit : Int) :
    find_shortest_paths s t ptm1 mtp1 limit = find_shortest_paths s t ptm2 mtp2 limit := by
  by_cases hst : s = t
  · subst hst
    rw [find_self, find_self]
  · rw [find_eq_loop hst, find_eq_loop hst]
    have h1 : bfsLoop ptm1 mtp1 (Kind.person, t) limit
        (bfsFuel ptm1 mtp1 s + (max (bfsFuel ptm1 mtp1 s) (bfsFuel ptm2 mtp2 s) -
          bfsFuel ptm1 mtp1 s)) (bfsInit s) =
        bfsLoop ptm1 mtp1 (Kind.person, t) limit (bfsFuel ptm1 mtp1 s) (bfsInit s) :=
      bfsLoop_fuel_irrelevant hwf1 hst _
    have h2 : bfsLoop ptm2 mtp2 (Kind.person, t) limit
        (bfsFuel ptm2 mtp2 s + (max (bfsFuel ptm1 mtp1 s) (bfsFuel ptm2 mtp2 s) -
          bfsFuel ptm2 mtp2 s)) (bfsInit s) =
        bfsLoop ptm2 mtp2 (Kind.person, t) limit (bfsFuel ptm2 mtp2 s) (bfsInit s) :=
      bfsLoop_fuel_irrelevant hwf2 hst _
    have hmax1 : bfsFuel ptm1 mtp1 s + (max (bfsFuel ptm1 mtp1 s) (bfsFuel ptm2 mtp2 s) -
        bfsFuel ptm1 mtp1 s) = max (bfsFuel ptm1 mtp1 s) (bfsFuel ptm2 mtp2 s) := by
      omega
    have hmax2 : bfsFuel ptm2 mtp2 s + (max (bfsFuel ptm1 mtp1 s) (bfsFuel ptm2 mtp2 s) -
        bfsFuel ptm2 mtp2 s) = max (bfsFuel ptm1 mtp1 s) (bfsFuel ptm2 mtp2 s) := by
      omega
    rw [hmax1] at h1
    rw [hmax2] at h2
    rw [← h1, ← h2,
      bfsLoop_congr hp hm (Kind.person, t) limit
        (max (bfsFuel ptm1 mtp1 s) (bfsFuel ptm2 mtp2 s)) (bfsInit s)]

theorem load_perm_eq {rows1 rows2 : List Row} {g1 g2 : GraphData}
    {pname mtitle : Nat → String}
    (hperm : rows1.Perm rows2)
    (h1 : load_graph_data rows1 = some g1) (h2 : load_graph_data rows2 = some g2)
    (hconsP : ∀ r ∈ rows1, ∀ p, r.person_id = some p →
      orDefault r.person_name "Unknown person" = pname p)
    (hconsT : ∀ r ∈ rows1, ∀ m, r.movie_id = some m →
      orDefault r.movie_title "Untitled" = mtitle m)
    (hinjP : ∀ r ∈ rows1, ∀ r2 ∈ rows1, ∀ p p2, r.person_id = some p →
      r2.person_id = some p2 → pname p = pname p2 → p = p2)
    (hinjM : ∀ r ∈ rows1, ∀ r2 ∈ rows1, ∀ m m2, r.movie_id = some m →
      r2.movie_id = some m2 → mtitle m = mtitle m2 → m = m2) :
    (∀ p, g1.person_to_movies.lookup p = g2.person_to_movies.lookup p) ∧
    (∀ m, g1.movie_to_people.lookup m = g2.movie_to_people.lookup m) ∧
    (∀ s t limit, find_shortest_paths s t g1.person_to_movies g1.movie_to_people limit =
      find_shortest_paths s t g2.person_to_movies g2.movie_to_people limit) := by
  have hptm := build_ptm_eq hperm h1 h2 hconsT hinjM
  have hmtp := build_mtp_eq hperm h1 h2 hconsP hinjP
  exact ⟨hptm, hmtp,
    fun s t limit => find_congr hptm hmtp (graph_adjOk h1) (graph_adjOk h2) s t limit⟩

theorem reach_iff_reachList {ptm mtp : AdjMap} {s : Nat} :
    ∀ (d : Nat) (v : Node), Reach ptm mtp s d v ↔ v ∈ reachList ptm mtp s d := by
  intro d
  induction d with
  | zero =>
    intro v
    constructor
    · intro h
      rw [reach_zero h]
      show _ ∈ [((Kind.person, s) : Node)]
      exact List.mem_singleton.2 rfl
    · intro h
      have h2 : v ∈ [((Kind.person, s) : Node)] := h
      rw [List.mem_singleton.1 h2]
      exact reach_start ptm mtp s
  | succ n ih =>
    intro v
    constructor
    · intro h
      obtain ⟨u, hadj, hru⟩ := reach_pred h
      show v ∈ (reachList ptm mtp s n).flatMap (neighbours ptm mtp)
      exact List.mem_flatMap.2 ⟨u, (ih u).1 hru, hadj⟩
    · intro h
      have h2 : v ∈ (reachList ptm mtp s n).flatMap (neighbours ptm mtp) := h
      obtain ⟨u, hu, hv⟩ := List.mem_flatMap.1 h2
      exact reach_step ((ih u).2 hu) hv

theorem conn_min_of_reachList {ptm mtp : AdjMap} {s t : Nat} {W : List Node}
    (hm : ∀ d, d < W.length - 1 → ((Kind.person, t) : Node) ∉ reachList ptm mtp s d) :
    ∀ q, IsConnPath ptm mtp s t q → W.length ≤ q.length := by
  intro q hq
  by_contra hlt
  push_neg at hlt
  have hr := conn_reach hq
  have h1 : 1 ≤ q.length := List.length_pos.2 (conn_ne_nil hq)
  have hd : q.length - 1 < W.length - 1 := by omega
  exact hm (q.length - 1) hd
    ((reach_iff_reachList (q.length - 1) ((Kind.person, t) : Node)).1 hr)

theorem find_limit_le_one {s t : Nat} {ptm mtp : AdjMap} {limit : Int}
    (hst : ¬ s = t) (hl : limit ≤ 0) :
    (find_shortest_paths s t ptm mtp limit).length ≤ 1 := by
  rw [find_eq_loop hst]
  exact bfsLoop_limit (bfsFuel ptm mtp s) (bfsInit s) (invSound_init ptm mtp s t limit)
    (fun _ => rfl) hl

theorem processRow_bad {r : Row} (h : r.person_id = none ∨ r.movie_id = none)
    (acc : GraphAccum) : processRow acc r = none := by
  unfold processRow
  rcases h with h | h
  · rw [h]
  · rw [h]
    cases hp : r.person_id with
    | none => rfl
    | some pid => rfl

theorem load_rows_bad : ∀ (rows : List Row) (acc : GraphAccum),
    (∃ r ∈ rows, r.person_id = none ∨ r.movie_id = none) →
    rows.foldlM processRow acc = none := by
  intro rows
  induction rows with
  | nil =>
    intro acc h
    obtain ⟨r, hr, _⟩ := h
    simp at hr
  | cons r rs ih =>
    intro acc h
    rw [List.foldlM_cons]
    obtain ⟨r2, hr2, hbad⟩ := h
    rcases List.mem_cons.1 hr2 with he | he
    · rw [he] at hbad
      rw [processRow_bad hbad acc]
      rfl
    · cases hpr : processRow acc r with
      | none => rfl
      | some acc1 => exact ih acc1 ⟨r2, he, hbad⟩

theorem load_graph_data_bad {rows : List Row}
    (h : ∃ r ∈ rows, r.person_id = none ∨ r.movie_id = none) :
    load_graph_data rows = none := by
  unfold load_graph_data load_rows
  rw [load_rows_bad rows emptyAccum h]
  rfl

theorem load_rows_ok :
    ∀ (rows : List Row) (acc : GraphAccum),
      (∀ r ∈ rows, ¬ (r.person_id = none ∨ r.movie_id = none)) →
      ∃ acc2, rows.foldlM processRow acc = some acc2 := by
  intro rows
  induction rows with
  | nil =>
    intro acc _
    exact ⟨acc, rfl⟩
  | cons r rs ih =>
    intro acc hok
    have hr := hok r (List.mem_cons_self r rs)
    push_neg at hr
    obtain ⟨h1, h2⟩ := hr
    cases hp : r.person_id with
    | none => exact absurd hp h1
    | some pid =>
      cases hm : r.movie_id with
      | none => exact absurd hm h2
      | some mid =>
        rw [List.foldlM_cons]
        have hpr : ∃ acc1, processRow acc r = some acc1 := by
          unfold processRow
          rw [hp, hm]
          exact ⟨_, rfl⟩
        obtain ⟨acc1, hacc1⟩ := hpr
        rw [hacc1]
        obtain ⟨acc2, hacc2⟩ := ih acc1 (fun r2 hr2 => hok r2 (List.mem_cons_of_mem _ hr2))
        exact ⟨acc2, hacc2⟩

theorem load_graph_data_ok {rows : List Row}
    (hok : ∀ r ∈ rows, ¬ (r.person_id = none ∨ r.movie_id = none)) :
    ∃ g, load_graph_data rows = some g := by
  obtain ⟨acc, hacc⟩ := load_rows_ok rows emptyAccum hok
  refine ⟨finalizeAccum acc, ?_⟩
  unfold load_graph_data load_rows
  rw [hacc]
  rfl

theorem rows_ok_of_isSome {rows : List Row}
    (h : (load_graph_data rows).isSome = true) :
    ∀ r ∈ rows, ¬ (r.person_id = none ∨ r.movie_id = none) := by
  intro r hr hbad
  rw [load_graph_data_bad ⟨r, hr, hbad⟩] at h
  simp at h

theorem describe_length (path : List Node) (pd : List (Nat × PersonDetails))
    (md : List (Nat × MovieDetails)) (er : List ((Nat × Nat) × List String)) :
    (describe_connection path pd md er).length = (path.length - 1) / 2 := by
  unfold describe_connection
  rw [List.length_map, List.length_range]
  omega

theorem describe_getD (path : List Node) (pd : List (Nat × PersonDetails))
    (md : List (Nat × MovieDetails)) (er : List ((Nat × Nat) × List String))
    {i : Nat} (hi : i < (path.length - 1) / 2) :
    (describe_connection path pd md er).getD i "" =
      connectionStep path pd md er (2 * i) := by
  unfold describe_connection
  rw [List.getD_eq_get?, List.get?_map,
    List.get?_range (show i < (path.length - 2 + 1) / 2 by omega)]
  rfl

theorem edgeRolesFor_default {er : List ((Nat × Nat) × List String)} {p m : Nat}
    (h : er.lookup (p, m) = none) : edgeRolesFor er p m = ["Contributor"] := by
  unfold edgeRolesFor
  rw [h]
  rfl

theorem rolesText_default {er : List ((Nat × Nat) × List String)} {p m : Nat}
    (h : er.lookup (p, m) = none) :
    String.intercalate ", " (edgeRolesFor er p m) = "Contributor" := by
  rw [edgeRolesFor_default h]
  rfl

/-! ### The claims -/

/-- Claim C1: with well-formed adjacency mappings, distinct endpoints and a
limit of at least 1, every path returned by `find_shortest_paths` is itself a
simple alternating person/movie path from start to target, and its node count
is minimal among all such paths, so no returned path is longer than the
shortest. -/
theorem claim_C1 (s t : Nat) (ptm mtp : AdjMap) (limit : Int)
    (hwf : WFGraph ptm mtp) (hst : ¬ s = t) (hlim : 1 ≤ limit) :
    ∀ p ∈ find_shortest_paths s t ptm mtp limit,
      IsConnPath ptm mtp s t p ∧
      ∀ q, IsConnPath ptm mtp s t q → p.length ≤ q.length := by
  intro p hp
  exact ⟨(find_sound p hp).1, fun q hq => (find_master hwf hst).1 p hp q hq⟩

/-- Witness for C1: the one path returned on a two-person, one-movie graph
is a connecting path of minimal length. -/
theorem claim_C1_witness :
    IsConnPath [(1, [10]), (2, [10])] [(10, [1, 2])] 1 2
      [(Kind.person, 1), (Kind.movie, 10), (Kind.person, 2)] ∧
    ∀ q, IsConnPath [(1, [10]), (2, [10])] [(10, [1, 2])] 1 2 q →
      ([(Kind.person, 1), (Kind.movie, 10), (Kind.person, 2)] : List Node).length ≤
        q.length :=
  claim_C1 1 2 [(1, [10]), (2, [10])] [(10, [1, 2])] 5 (by decide) (by decide) (by decide)
    [(Kind.person, 1), (Kind.movie, 10), (Kind.person, 2)] (by decide)

/-- Claim C2: all paths returned by one call share one length, and once a
shortest length has been recorded by the loop, every returned solution has
exactly that length. -/
theorem claim_C2 (s t : Nat) (ptm mtp : AdjMap) (limit : Int) (hst : ¬ s = t) :
    (∀ p ∈ find_shortest_paths s t ptm mtp limit,
      ∀ q ∈ find_shortest_paths s t ptm mtp limit, p.length = q.length) ∧
    (∀ sh,
      (bfsLoop ptm mtp (Kind.person, t) limit (bfsFuel ptm mtp s) (bfsInit s)).shortest =
        some sh →
      ∀ p ∈ find_shortest_paths s t ptm mtp limit, p.length = sh) := by
  refine ⟨fun p hp q hq => find_same_length p hp q hq, ?_⟩
  intro sh hsh p hp
  rw [find_eq_loop hst] at hp
  exact (find_invSound ptm mtp limit).solsLen sh hsh p hp

/-- Witness for C2 on a two-person, one-movie graph. -/
theorem claim_C2_witness :
    (∀ p ∈ find_shortest_paths 1 2 [(1, [10]), (2, [10])] [(10, [1, 2])] 5,
      ∀ q ∈ find_shortest_paths 1 2 [(1, [10]), (2, [10])] [(10, [1, 2])] 5,
        p.length = q.length) ∧
    (∀ sh,
      (bfsLoop [(1, [10]), (2, [10])] [(10, [1, 2])] (Kind.person, 2) 5
        (bfsFuel [(1, [10]), (2, [10])] [(10, [1, 2])] 1) (bfsInit 1)).shortest = some sh →
      ∀ p ∈ find_shortest_paths 1 2 [(1, [10]), (2, [10])] [(10, [1, 2])] 5,
        p.length = sh) :=
  claim_C2 1 2 [(1, [10]), (2, [10])] [(10, [1, 2])] 5 (by decide)

/-- Claim C3: when two distinct simple alternating paths of minimal length
join start and target (node-disjoint except for the endpoints, minimality
expressed by the target being unreachable by any strictly shorter walk) and
the limit is at least 2, the call returns at least two paths, and the
returned list has no duplicates. -/
theorem claim_C3 (s t : Nat) (ptm mtp : AdjMap) (limit : Int) (W1 W2 : List Node)
    (hwf : WFGraph ptm mtp) (hst : ¬ s = t)
    (hW1 : IsConnPath ptm mtp s t W1) (hW2 : IsConnPath ptm mtp s t W2)
    (hne : W1 ≠ W2)
    (hdisj : ∀ n ∈ W1, n ∈ W2 →
      n = ((Kind.person, s) : Node) ∨ n = ((Kind.person, t) : Node))
    (hmin1 : ∀ d, d < W1.length - 1 → ((Kind.person, t) : Node) ∉ reachList ptm mtp s d)
    (hmin2 : ∀ d, d < W2.length - 1 → ((Kind.person, t) : Node) ∉ reachList ptm mtp s d)
    (hlim : 2 ≤ limit) :
    2 ≤ (find_shortest_paths s t ptm mtp limit).length ∧
    (find_shortest_paths s t ptm mtp limit).Nodup :=
  ⟨find_two hwf hst hW1 hW2 hne (conn_min_of_reachList hmin1)
    (conn_min_of_reachList hmin2) hlim, (find_master hwf hst).2.1⟩

/-- Witness for C3 on the diamond graph with two movies joining the same two
people. -/
theorem claim_C3_witness :
    2 ≤ (find_shortest_paths 1 2 [(1, [10, 20]), (2, [10, 20])]
      [(10, [1, 2]), (20, [1, 2])] 2).length ∧
    (find_shortest_paths 1 2 [(1, [10, 20]), (2, [10, 20])]
      [(10, [1, 2]), (20, [1, 2])] 2).Nodup :=
  claim_C3 1 2 [(1, [10, 20]), (2, [10, 20])] [(10, [1, 2]), (20, [1, 2])] 2
    [(Kind.person, 1), (Kind.movie, 10), (Kind.person, 2)]
    [(Kind.person, 1), (Kind.movie, 20), (Kind.person, 2)]
    (by decide) (by decide) (by decide) (by decide) (by decide) (by decide)
    (by decide) (by decide) (by decide)

/-- Claim C4: every path returned by `find_shortest_paths` is a well-formed
path of the data model: odd length at least 3, kinds strictly alternating
person/movie/…/person, first node the start person, last node the target
person, and no repeated node. -/
theorem claim_C4 (s t : Nat) (ptm mtp : AdjMap) (limit : Int) :
    ∀ p ∈ find_shortest_paths s t ptm mtp limit, WellFormedPath s t p := by
  intro p hp
  exact conn_wellFormed (find_sound p hp).1 (find_sound p hp).2

/-- Witness for C4: the one path returned on the two-person graph is well
formed. -/
theorem claim_C4_witness :
    WellFormedPath 1 2 [(Kind.person, 1), (Kind.movie, 10), (Kind.person, 2)] :=
  claim_C4 1 2 [(1, [10]), (2, [10])] [(10, [1, 2])] 5
    [(Kind.person, 1), (Kind.movie, 10), (Kind.person, 2)] (by decide)

/-- Claim C5: the no-result conditions return the empty sequence rather than
failing: equal endpoints, a start person absent from `person_to_movies`, a
target person absent from every `movie_to_people` tuple, and generally the
absence of any connecting path all yield `[]`. -/
theorem claim_C5 (s t : Nat) (ptm mtp : AdjMap) (limit : Int) :
    (s = t → find_shortest_paths s t ptm mtp limit = []) ∧
    (ptm.lookup s = none → find_shortest_paths s t ptm mtp limit = []) ∧
    ((∀ b ∈ mtp, t ∉ Prod.snd b) → find_shortest_paths s t ptm mtp limit = []) ∧
    ((¬ ∃ p, IsConnPath ptm mtp s t p) → find_shortest_paths s t ptm mtp limit = []) := by
  refine ⟨?_, ?_, ?_, fun h => find_empty_of_no_conn h⟩
  · intro h
    subst h
    exact find_self s ptm mtp limit
  · intro habs
    by_cases hst : s = t
    · subst hst
      exact find_self s ptm mtp limit
    · refine find_empty_of_no_conn ?_
      rintro ⟨p, hp⟩
      exact no_conn_of_start_absent habs hst hp
  · intro habs
    by_cases hst : s = t
    · subst hst
      exact find_self s ptm mtp limit
    · refine find_empty_of_no_conn ?_
      rintro ⟨p, hp⟩
      exact no_conn_of_target_absent habs hst hp

/-- Witness for C5 at a concrete instantiation. -/
theorem claim_C5_witness :
    ((1 : Nat) = 2 → find_shortest_paths 1 2 [] [] 1 = []) ∧
    (([] : AdjMap).lookup 1 = none → find_shortest_paths 1 2 [] [] 1 = []) ∧
    ((∀ b ∈ ([] : AdjMap), 2 ∉ Prod.snd b) → find_shortest_paths 1 2 [] [] 1 = []) ∧
    ((¬ ∃ p, IsConnPath [] [] 1 2 p) → find_shortest_paths 1 2 [] [] 1 = []) :=
  claim_C5 1 2 [] [] 1

/-- Claim C6 counterexample: a single association row with a NULL person id
does not load like an empty row set; the conversion `int(None)` makes the
whole construction fail (modelled as `none`) instead of skipping the row. -/
theorem claim_C6_counterexample :
    load_graph_data [mkRow none (some "A") (some 1) (some "T")] ≠
      load_graph_data [] := by
  decide

/-- Claim C6 (amended): a malformed association row whose person id or movie
id is missing is not skipped; `int(row[...])` raises, so the whole
construction aborts — `load_graph_data` yields `none` whenever any row has a
missing id. -/
theorem claim_C6 (rows : List Row)
    (h : ∃ r ∈ rows, r.person_id = none ∨ r.movie_id = none) :
    load_graph_data rows = none :=
  load_graph_data_bad h

/-- Witness for C6 on a one-row list with a missing person id. -/
theorem claim_C6_witness :
    (∃ r ∈ [mkRow none (some "A") (some 1) (some "T")],
      r.person_id = none ∨ r.movie_id = none) ∧
    load_graph_data [mkRow none (some "A") (some 1) (some "T")] = none :=
  ⟨by decide, claim_C6 [mkRow none (some "A") (some 1) (some "T")] (by decide)⟩

/-- Claim C7 counterexample: permuting the association rows can change the
`movie_to_people` adjacency mapping itself — the lookup of movie 1 differs
between the two builds.  Two scenarios: first, a person id occurring under
two different display names, where the first-seen name decides the sort key;
second, two distinct person ids sharing one display name even though every id
is named consistently, where the stable sort keeps the order-dependent
insertion order.  The second scenario shows order-independence needs name
injectivity, not just consistency. -/
theorem claim_C7_counterexample :
    (List.Perm
      [mkRow (some 1) (some "Z") (some 1) (some "T"),
        mkRow (some 2) (some "Bb") (some 1) (some "T"),
        mkRow (some 1) (some "A") (some 1) (some "T")]
      [mkRow (some 1) (some "A") (some 1) (some "T"),
        mkRow (some 2) (some "Bb") (some 1) (some "T"),
        mkRow (some 1) (some "Z") (some 1) (some "T")] ∧
    (load_graph_data
      [mkRow (some 1) (some "Z") (some 1) (some "T"),
        mkRow (some 2) (some "Bb") (some 1) (some "T"),
        mkRow (some 1) (some "A") (some 1) (some "T")]).map
      (fun g => g.movie_to_people.lookup 1) ≠
    (load_graph_data
      [mkRow (some 1) (some "A") (some 1) (some "T"),
        mkRow (some 2) (some "Bb") (some 1) (some "T"),
        mkRow (some 1) (some "Z") (some 1) (some "T")]).map
      (fun g => g.movie_to_people.lookup 1)) ∧
    (List.Perm
      [mkRow (some 1) (some "A") (some 1) (some "T"),
        mkRow (some 2) (some "A") (some 1) (some "T")]
      [mkRow (some 2) (some "A") (some 1) (some "T"),
        mkRow (some 1) (some "A") (some 1) (some "T")] ∧
    (load_graph_data
      [mkRow (some 1) (some "A") (some 1) (some "T"),
        mkRow (some 2) (some "A") (some 1) (some "T")]).map
      (fun g => g.movie_to_people.lookup 1) ≠
    (load_graph_data
      [mkRow (some 2) (some "A") (some 1) (some "T"),
        mkRow (some 1) (some "A") (some 1) (some "T")]).map
      (fun g => g.movie_to_people.lookup 1)) := by
  exact ⟨⟨by decide, by decide⟩, by decide, by decide⟩

/-- Claim C7 (amended): graph construction is order-independent when the row
set names people and movies consistently (each id always carrying the same
display name / title) and injectively (distinct ids never sharing a name or
title): a successful build from any permutation of the rows yields adjacency
mappings with identical lookups, and `find_shortest_paths` returns identical
results on both builds. -/
theorem claim_C7 (rows1 rows2 : List Row) (pname mtitle : Nat → String)
    (hperm : List.Perm rows1 rows2)
    (hok : (load_graph_data rows1).isSome = true)
    (hconsP : ∀ r ∈ rows1,
      orDefault r.person_name "Unknown person" = pname (r.person_id.getD 0))
    (hconsT : ∀ r ∈ rows1,
      orDefault r.movie_title "Untitled" = mtitle (r.movie_id.getD 0))
    (hinjP : ∀ r ∈ rows1, ∀ r2 ∈ rows1,
      pname (r.person_id.getD 0) = pname (r2.person_id.getD 0) →
      r.person_id.getD 0 = r2.person_id.getD 0)
    (hinjM : ∀ r ∈ rows1, ∀ r2 ∈ rows1,
      mtitle (r.movie_id.getD 0) = mtitle (r2.movie_id.getD 0) →
      r.movie_id.getD 0 = r2.movie_id.getD 0) :
    (∀ p, (load_graph_data rows1).map (fun g => g.person_to_movies.lookup p) =
      (load_graph_data rows2).map (fun g => g.person_to_movies.lookup p)) ∧
    (∀ m, (load_graph_data rows1).map (fun g => g.movie_to_people.lookup m) =
      (load_graph_data rows2).map (fun g => g.movie_to_people.lookup m)) ∧
    (∀ a b : Nat, ∀ limit : Int,
      (load_graph_data rows1).map
        (fun g => find_shortest_paths a b g.person_to_movies g.movie_to_people limit) =
      (load_graph_data rows2).map
        (fun g => find_shortest_paths a b g.person_to_movies g.movie_to_people limit)) := by
  obtain ⟨g1, hg1⟩ := Option.isSome_iff_exists.1 hok
  have hwfrows : ∀ r ∈ rows1, ¬ (r.person_id = none ∨ r.movie_id = none) :=
    rows_ok_of_isSome hok
  have hwfrows2 : ∀ r ∈ rows2, ¬ (r.person_id = none ∨ r.movie_id = none) :=
    fun r hr => hwfrows r (hperm.mem_iff.2 hr)
  obtain ⟨g2, hg2⟩ := load_graph_data_ok hwfrows2
  have hconsP' : ∀ r ∈ rows1, ∀ p, r.person_id = some p →
      orDefault r.person_name "Unknown person" = pname p := by
    intro r hr p hp
    have h := hconsP r hr
    rw [hp] at h
    exact h
  have hconsT' : ∀ r ∈ rows1, ∀ m, r.movie_id = some m →
      orDefault r.movie_title "Untitled" = mtitle m := by
    intro r hr m hm
    have h := hconsT r hr
    rw [hm] at h
    exact h
  have hinjP' : ∀ r ∈ rows1, ∀ r2 ∈ rows1, ∀ p p2, r.person_id = some p →
      r2.person_id = some p2 → pname p = pname p2 → p = p2 := by
    intro r hr r2 hr2 p p2 hp hp2 he
    have h := hinjP r hr r2 hr2
    rw [hp, hp2] at h
    exact h he
  have hinjM' : ∀ r ∈ rows1, ∀ r2 ∈ rows1, ∀ m m2, r.movie_id = some m →
      r2.movie_id = some m2 → mtitle m = mtitle m2 → m = m2 := by
    intro r hr r2 hr2 m m2 hm hm2 he
    have h := hinjM r hr r2 hr2
    rw [hm, hm2] at h
    exact h he
  obtain ⟨hptm, hmtp, hfind⟩ := load_perm_eq hperm hg1 hg2 hconsP' hconsT' hinjP' hinjM'
  refine ⟨?_, ?_, ?_⟩
  · intro p
    rw [hg1, hg2]
    exact congrArg some (hptm p)
  · intro m
    rw [hg1, hg2]
    exact congrArg some (hmtp m)
  · intro a b limit
    rw [hg1, hg2]
    exact congrArg some (hfind a b limit)

/-- Witness for C7 on a consistently and injectively named two-row set and
its reversal. -/
theorem claim_C7_witness :
    (∀ p, (load_graph_data [mkRow (some 1) (some "A") (some 1) (some "T"),
        mkRow (some 2) (some "B") (some 1) (some "T")]).map
        (fun g => g.person_to_movies.lookup p) =
      (load_graph_data [mkRow (some 2) (some "B") (some 1) (some "T"),
        mkRow (some 1) (some "A") (some 1) (some "T")]).map
        (fun g => g.person_to_movies.lookup p)) ∧
    (∀ m, (load_graph_data [mkRow (some 1) (some "A") (some 1) (some "T"),
        mkRow (some 2) (some "B") (some 1) (some "T")]).map
        (fun g => g.movie_to_people.lookup m) =
      (load_graph_data [mkRow (some 2) (some "B") (some 1) (some "T"),
        mkRow (some 1) (some "A") (some 1) (some "T")]).map
        (fun g => g.movie_to_people.lookup m)) ∧
    (∀ a b : Nat, ∀ limit : Int,
      (load_graph_data [mkRow (some 1) (some "A") (some 1) (some "T"),
        mkRow (some 2) (some "B") (some 1) (some "T")]).map
        (fun g => find_shortest_paths a b g.person_to_movies g.movie_to_people limit) =
      (load_graph_data [mkRow (some 2) (some "B") (some 1) (some "T"),
        mkRow (some 1) (some "A") (some 1) (some "T")]).map
        (fun g => find_shortest_paths a b g.person_to_movies g.movie_to_people limit)) :=
  claim_C7
    [mkRow (some 1) (some "A") (some 1) (some "T"),
      mkRow (some 2) (some "B") (some 1) (some "T")]
    [mkRow (some 2) (some "B") (some 1) (some "T"),
      mkRow (some 1) (some "A") (some 1) (some "T")]
    (fun p => if p = 1 then "A" else "B") (fun _ => "T")
    (by decide) (by decide) (by decide) (by decide) (by decide) (by decide)

/-- Claim C8: the search terminates on every input.  In the fuelled model
this is fuel irrelevance: for distinct endpoints the loop reaches its exit
within the canonical fuel, so any extra fuel leaves the final state
unchanged; for equal endpoints the function returns before the loop. -/
theorem claim_C8 (s t : Nat) (ptm mtp : AdjMap) (limit : Int) (hwf : WFGraph ptm mtp) :
    (¬ s = t → ∀ extra : Nat,
      bfsLoop ptm mtp (Kind.person, t) limit (bfsFuel ptm mtp s + extra) (bfsInit s) =
        bfsLoop ptm mtp (Kind.person, t) limit (bfsFuel ptm mtp s) (bfsInit s)) ∧
    (s = t → find_shortest_paths s t ptm mtp limit = []) := by
  refine ⟨fun hst extra => bfsLoop_fuel_irrelevant hwf hst extra, fun h => ?_⟩
  subst h
  exact find_self s ptm mtp limit

/-- Witness for C8 on a two-person, one-movie graph. -/
theorem claim_C8_witness :
    (¬ (1 : Nat) = 2 → ∀ extra : Nat,
      bfsLoop [(1, [10]), (2, [10])] [(10, [1, 2])] (Kind.person, 2) 5
        (bfsFuel [(1, [10]), (2, [10])] [(10, [1, 2])] 1 + extra) (bfsInit 1) =
      bfsLoop [(1, [10]), (2, [10])] [(10, [1, 2])] (Kind.person, 2) 5
        (bfsFuel [(1, [10]), (2, [10])] [(10, [1, 2])] 1) (bfsInit 1)) ∧
    ((1 : Nat) = 2 → find_shortest_paths 1 2 [(1, [10]), (2, [10])] [(10, [1, 2])] 5 = []) :=
  claim_C8 1 2 [(1, [10]), (2, [10])] [(10, [1, 2])] 5 (by decide)

/-- Claim C9: on a path of odd length at least 3, `describe_connection`
returns exactly (length − 1) / 2 text steps, the step at position i being the
rendering of the person/movie/person triple starting at node 2·i, and a
person-movie pair with no recorded entry in `edge_roles` is labelled with the
fallback role Contributor. -/
theorem claim_C9 (path : List Node) (pd : List (Nat × PersonDetails))
    (md : List (Nat × MovieDetails)) (er : List ((Nat × Nat) × List String))
    (hodd : Odd path.length) (h3 : 3 ≤ path.length) :
    (describe_connection path pd md er).length = (path.length - 1) / 2 ∧
    (∀ i, i < (path.length - 1) / 2 →
      (describe_connection path pd md er).getD i "" =
        connectionStep path pd md er (2 * i)) ∧
    (∀ p m, er.lookup (p, m) = none →
      String.intercalate ", " (edgeRolesFor er p m) = "Contributor") :=
  ⟨describe_length path pd md er, fun i hi => describe_getD path pd md er hi,
    fun p m h => rolesText_default h⟩

/-- Witness for C9 on a three-node path with empty metadata. -/
theorem claim_C9_witness :
    (describe_connection [(Kind.person, 1), (Kind.movie, 10), (Kind.person, 2)] [] []
      []).length =
      (([(Kind.person, 1), (Kind.movie, 10), (Kind.person, 2)] : List Node).length - 1) / 2 ∧
    (∀ i, i < (([(Kind.person, 1), (Kind.movie, 10), (Kind.person, 2)] : List Node).length
        - 1) / 2 →
      (describe_connection [(Kind.person, 1), (Kind.movie, 10), (Kind.person, 2)] [] []
        []).getD i "" =
        connectionStep [(Kind.person, 1), (Kind.movie, 10), (Kind.person, 2)] [] [] []
          (2 * i)) ∧
    (∀ p m, ([] : List ((Nat × Nat) × List String)).lookup (p, m) = none →
      String.intercalate ", " (edgeRolesFor [] p m) = "Contributor") :=
  claim_C9 [(Kind.person, 1), (Kind.movie, 10), (Kind.person, 2)] [] [] []
    (by decide) (by decide)

/-- Claim C10: `find_shortest_paths` performs no validation of `limit`.  For
limit ≤ 0 and distinct endpoints it does not fail and is not necessarily
empty: when a connecting path exists it returns exactly one path, that path
being a shortest one, and only when no path exists is the result empty. -/
theorem claim_C10 (s t : Nat) (ptm mtp : AdjMap) (limit : Int)
    (hwf : WFGraph ptm mtp) (hst : ¬ s = t) (hlim : limit ≤ 0) :
    ((∃ q, IsConnPath ptm mtp s t q) →
      (find_shortest_paths s t ptm mtp limit).length = 1) ∧
    ((¬ ∃ q, IsConnPath ptm mtp s t q) →
      find_shortest_paths s t ptm mtp limit = []) ∧
    (∀ p ∈ find_shortest_paths s t ptm mtp limit,
      IsConnPath ptm mtp s t p ∧ ∀ q, IsConnPath ptm mtp s t q → p.length ≤ q.length) := by
  refine ⟨?_, fun h => find_empty_of_no_conn h, fun p hp =>
    ⟨(find_sound p hp).1, fun q hq => (find_master hwf hst).1 p hp q hq⟩⟩
  rintro ⟨q, hq⟩
  have hle : (find_shortest_paths s t ptm mtp limit).length ≤ 1 :=
    find_limit_le_one hst hlim
  have hne : find_shortest_paths s t ptm mtp limit ≠ [] :=
    (find_master hwf hst).2.2 q hq
  have hpos : 0 < (find_shortest_paths s t ptm mtp limit).length :=
    List.length_pos.2 hne
  omega

/-- Witness for C10 on a two-person, one-movie graph with limit 0. -/
theorem claim_C10_witness :
    ((∃ q, IsConnPath [(1, [10]), (2, [10])] [(10, [1, 2])] 1 2 q) →
      (find_shortest_paths 1 2 [(1, [10]), (2, [10])] [(10, [1, 2])] 0).length = 1) ∧
    ((¬ ∃ q, IsConnPath [(1, [10]), (2, [10])] [(10, [1, 2])] 1 2 q) →
      find_shortest_paths 1 2 [(1, [10]), (2, [10])] [(10, [1, 2])] 0 = []) ∧
    (∀ p ∈ find_shortest_paths 1 2 [(1, [10]), (2, [10])] [(10, [1, 2])] 0,
      IsConnPath [(1, [10]), (2, [10])] [(10, [1, 2])] 1 2 p ∧
      ∀ q, IsConnPath [(1, [10]), (2, [10])] [(10, [1, 2])] 1 2 q →
        p.length ≤ q.length) :=
  claim_C10 1 2 [(1, [10]), (2, [10])] [(10, [1, 2])] 0 (by decide) (by decide) (by decide)

end MovieConnections
